import Mathlib

/-!
Circuit-Resolver: a verification development of `Circuiti.c`.

Shallow embedding of the computational core of `src/Circuiti.c`:
the notation parser (`parse_circuit`), the series/parallel evaluator
(`evaluateSeries`, `evaluateParallelGroup`, `calculate_total_resistance_new`),
the unknown counter (`count_unknowns`), the structure extractor
(`extract_parallel_structure`) and the solving part of `main`.

Modelling conventions.
* The linked list `head ... NULL` of `Block` is a `List Block`; a cursor
  `Block **p` is the list of the blocks that remain.
* `double` values are rationals, and the statements made with them are about
  exact arithmetic. Where the `double` itself decides a statement, it is
  modelled as such: `Measured` is the `double` read from the measured line,
  with its infinities and its NaN, and `roundDouble` is the rounding of a
  result to a `double`, used in `parallelValueDouble`.
* `int is_unknown` is only ever used as a truth value and is a `Bool`.
* The fixed array `double branches[10]` of `evaluateParallelGroup` is a list
  of the stored values; a store at an index past the ninth is recorded in the
  ghost flag `overflow` of the result.
* The fixed array `wchar_t number[20]` of `parse_circuit` is a list of the
  stored characters; `numberOverflow` says whether a numeric token fills it,
  and `parse_circuit_checked` has no result then.
* `parse_circuit` is the parser in a locale whose radix character is the
  point; `parse_circuitLocale` is the parser in any locale.
-/

namespace Circuiti

/-- Kinds of blocks, `enum BlockType` (lines 29-40). -/
inductive BlockType
  | BLOCK_RES
  | BLOCK_CONN
  | BLOCK_BEND
  | BLOCK_NODE_START
  | BLOCK_NODE_END
  | BLOCK_NODE_BEND
  | BLOCK_PAR_START
  | BLOCK_PAR_END
  | BLOCK_UP_PIPE
  | BLOCK_UP_RES_PIPE
  deriving DecidableEq, Repr

open BlockType

/-- One node of the linked list, `struct Block` (lines 42-49), without the
`next` pointer, which is the list structure itself. -/
structure Block where
  type : BlockType
  depth : Int
  col : Int
  is_unknown : Bool
  value : ℚ
  deriving DecidableEq

/-- Capacity of `double branches[10]` in `evaluateParallelGroup` (line 293). -/
def BRANCH_CAPACITY : Nat := 10

/-- The test `(curr->type == BLOCK_RES || curr->type == BLOCK_UP_RES_PIPE)`
used by every scanning loop of the program. -/
def isRes (b : Block) : Bool :=
  b.type == BLOCK_RES || b.type == BLOCK_UP_RES_PIPE

/-- The test of line 272: a resistor block that is not flagged unknown. -/
def isKnownRes (b : Block) : Bool :=
  isRes b && !b.is_unknown

/-- The test of line 330: a resistor block that is flagged unknown. -/
def isUnknownRes (b : Block) : Bool :=
  isRes b && b.is_unknown

/-- The test of lines 280-282: the three kinds on which `evaluateSeries`
breaks out of its loop without consuming the block. -/
def isSeriesStop (b : Block) : Bool :=
  b.type == BLOCK_NODE_END || b.type == BLOCK_PAR_START || b.type == BLOCK_PAR_END

/-- What an evaluator call hands back: the returned `double`, the position of
the cursor `*p` after the call, and the ghost flag saying that some store
`branches[count++] = ...` was made with `count` at or past the capacity. -/
structure EvalOut where
  value : ℚ
  rest : List Block
  overflow : Bool
  deriving DecidableEq

/-- The combination step of `evaluateParallelGroup` (lines 311-315): the loop
adding `1.0 / branches[i]` for the branches with `branches[i] > 0`. -/
def invSumLoop (invSum : ℚ) : List ℚ → ℚ
  | [] => invSum
  | b :: bs => invSumLoop (if b > 0 then invSum + 1 / b else invSum) bs

/-- Lines 311-317: `parallelValue` computed from the stored branch sums, in
exact arithmetic. The same lines with every result rounded to a `double` are
`parallelValueDouble`. -/
def parallelValue (branches : List ℚ) : ℚ :=
  let invSum := invSumLoop 0 branches
  if invSum > 0 then 1 / invSum else 0

/-- The end of `evaluateParallelGroup` (lines 308-317): a `BLOCK_NODE_END`
under the cursor is consumed, and the stored branch sums are combined. -/
def finishGroup (branches : List ℚ) (ovf : Bool) (p : List Block) : EvalOut :=
  match p with
  | [] => ⟨parallelValue branches, [], ovf⟩
  | e :: after =>
    if e.type = BLOCK_NODE_END then ⟨parallelValue branches, after, ovf⟩
    else ⟨parallelValue branches, e :: after, ovf⟩

/-- The cursor left by `finishGroup` is not longer than the one it got. -/
theorem finishGroup_length (branches : List ℚ) (ovf : Bool) (p : List Block) :
    (finishGroup branches ovf p).rest.length ≤ p.length := by
  cases p with
  | nil => simp [finishGroup]
  | cons e after =>
    by_cases h : e.type = BLOCK_NODE_END <;> simp [finishGroup, h]

mutual

/-- The `while(*p)` loop of `evaluateSeries` (lines 270-288) with the running
`total`; `ovf` accumulates the ghost overflow flag of the nested group calls.
The result carries the fact that the cursor only moves forward, which is what
makes the mutual recursion terminate. -/
def evaluateSeriesLoopAux (total : ℚ) (ovf : Bool) (p : List Block) :
    {r : EvalOut // r.rest.length ≤ p.length} :=
  match p with
  | [] => ⟨⟨total, [], ovf⟩, Nat.le_refl _⟩
  | curr :: next =>
    if isKnownRes curr then
      let r := evaluateSeriesLoopAux (total + curr.value) ovf next
      ⟨r.1, Nat.le_succ_of_le r.2⟩
    else if curr.type = BLOCK_NODE_START then
      let g := evaluateParallelGroupAux next
      let r := evaluateSeriesLoopAux (total + g.1.value) (ovf || g.1.overflow) g.1.rest
      ⟨r.1, Nat.le_succ_of_le (Nat.le_trans r.2 g.2)⟩
    else if isSeriesStop curr then
      ⟨⟨total, curr :: next, ovf⟩, Nat.le_refl _⟩
    else
      let r := evaluateSeriesLoopAux total ovf next
      ⟨r.1, Nat.le_succ_of_le r.2⟩
termination_by (p.length, 0)
decreasing_by
  all_goals simp_wf
  · exact Prod.Lex.left _ _ (Nat.lt_succ_self _)
  · exact Prod.Lex.left _ _ (Nat.lt_succ_self _)
  · exact Prod.Lex.left _ _ (Nat.lt_succ_of_le g.2)
  · exact Prod.Lex.left _ _ (Nat.lt_succ_self _)

/-- The `while(*p && (*p)->type == BLOCK_PAR_START)` loop of
`evaluateParallelGroup` (lines 300-307), followed by `finishGroup` when the
loop is left. `branches` holds the values stored so far, so that
`count = branches.length`. -/
def branchLoopAux (branches : List ℚ) (ovf : Bool) (p : List Block) :
    {r : EvalOut // r.rest.length ≤ p.length} :=
  match p with
  | [] => ⟨finishGroup branches ovf [], finishGroup_length _ _ _⟩
  | sep :: next =>
    if sep.type = BLOCK_PAR_START then
      match evaluateSeriesLoopAux 0 false next with
      | ⟨⟨v, [], o⟩, _⟩ =>
        ⟨finishGroup (branches ++ [v])
          (ovf || o || decide (BRANCH_CAPACITY ≤ branches.length)) [],
          Nat.le_trans (finishGroup_length _ _ _) (Nat.zero_le _)⟩
      | ⟨⟨v, e :: after, o⟩, h⟩ =>
        if e.type = BLOCK_PAR_END then
          let r := branchLoopAux (branches ++ [v])
            (ovf || o || decide (BRANCH_CAPACITY ≤ branches.length)) after
          ⟨r.1, Nat.le_succ_of_le (Nat.le_trans r.2 (Nat.le_of_succ_le h))⟩
        else
          ⟨finishGroup (branches ++ [v])
            (ovf || o || decide (BRANCH_CAPACITY ≤ branches.length)) (e :: after),
            Nat.le_succ_of_le (Nat.le_trans (finishGroup_length _ _ _) h)⟩
    else
      ⟨finishGroup branches ovf (sep :: next), finishGroup_length _ _ _⟩
termination_by (p.length, 1)
decreasing_by
  all_goals simp_wf
  · exact Prod.Lex.left _ _ (Nat.lt_succ_self _)
  · exact Prod.Lex.left _ _ (Nat.lt_succ_of_le (Nat.le_of_succ_le h))

/-- The function `evaluateParallelGroup` (lines 292-318): the first branch is
stored at index 0, then the branch loop runs. -/
def evaluateParallelGroupAux (p : List Block) :
    {r : EvalOut // r.rest.length ≤ p.length} :=
  let b := evaluateSeriesLoopAux 0 false p
  let r := branchLoopAux [b.1.value] b.1.overflow b.1.rest
  ⟨r.1, Nat.le_trans r.2 b.2⟩
termination_by (p.length, 2)
decreasing_by
  · exact Prod.Lex.right _ (by decide)
  · rcases Nat.lt_or_ge b.1.rest.length p.length with h | h
    · exact Prod.Lex.left _ _ h
    · have : b.1.rest.length = p.length := Nat.le_antisymm b.2 h
      rw [this]
      exact Prod.Lex.right _ (by decide)

end

/-- The loop of `evaluateSeries`: value, cursor and ghost flag it produces. -/
def evaluateSeriesLoop (total : ℚ) (ovf : Bool) (p : List Block) : EvalOut :=
  (evaluateSeriesLoopAux total ovf p).1

/-- The branch loop and end of `evaluateParallelGroup`. -/
def branchLoop (branches : List ℚ) (ovf : Bool) (p : List Block) : EvalOut :=
  (branchLoopAux branches ovf p).1

/-- The function `evaluateParallelGroup` (lines 292-318). -/
def evaluateParallelGroup (p : List Block) : EvalOut :=
  (evaluateParallelGroupAux p).1

/-- The function `evaluateSeries` (lines 268-290): `total` starts at `0.0`. -/
def evaluateSeries (p : List Block) : EvalOut :=
  evaluateSeriesLoop 0 false p

/-- The function `calculate_total_resistance_new` (lines 320-323) on the list
starting at `head`. -/
def calculate_total_resistance_new (head : List Block) : ℚ :=
  (evaluateSeries head).value

/-! ### The parser (lines 118-211) -/

/-- Local variables of `parse_circuit` that live across loop iterations
(`depth`, `col`, `first`) and the global toggle `nodeOpen`. The two flags
only ever hold 0 or 1. -/
structure ParseState where
  depth : Int
  col : Int
  nodeOpen : Bool
  first : Bool
  deriving DecidableEq

/-- The test of the inner `while` (line 141): digit, point or comma. -/
def isNumberChar (c : Char) : Bool :=
  c.isDigit || c == '.' || c == ','

/-- The inner `while` loop of lines 141-151: copies the digits of the token to
the buffer `number`, writes one `.` for the first separator, skips any later
separator, and stops at the first character that is none of these. Returns the
buffer and the characters that remain. The buffer is the list of the
characters stored, of any length; the array `wchar_t number[20]` holds it
with its terminating zero when it has at most 19 characters, and
`numberOverflow` tells the tokens for which it does not. -/
def scanNumber (number : List Char) (has_decimal : Bool) : List Char → List Char × List Char
  | [] => (number, [])
  | c :: cs =>
    if isNumberChar c then
      if c == '.' || c == ',' then
        if !has_decimal then scanNumber (number ++ ['.']) true cs
        else scanNumber number has_decimal cs
      else scanNumber (number ++ [c]) has_decimal cs
    else (number, c :: cs)

/-- Value of a run of decimal digits. -/
def digitsValue (ds : List Char) : Nat :=
  ds.foldl (fun acc c => 10 * acc + (c.toNat - 48)) 0

/-- The library call `wcstod(number, NULL)` of line 153 on a buffer that holds
digits and at most one `.` (all that `scanNumber` ever writes): the integer
part plus the fractional digits scaled by the power of ten, as an exact
rational, in a locale whose radix character is the point. The call in a
locale with another radix character is `wcstodLocale`. -/
def wcstod (number : List Char) : ℚ :=
  let intPart := number.takeWhile (fun c => c != '.')
  let fracPart := (number.dropWhile (fun c => c != '.')).drop 1
  (digitsValue intPart : ℚ) + (digitsValue fracPart : ℚ) / (10 : ℚ) ^ fracPart.length

/-- The remaining characters after `scanNumber` are no more than before. -/
theorem scanNumber_length (number : List Char) (has_decimal : Bool) (cs : List Char) :
    (scanNumber number has_decimal cs).2.length ≤ cs.length := by
  induction cs generalizing number has_decimal with
  | nil => simp [scanNumber]
  | cons c cs ih =>
    unfold scanNumber
    split_ifs
    · exact Nat.le_succ_of_le (ih _ _)
    · exact Nat.le_succ_of_le (ih _ _)
    · exact Nat.le_succ_of_le (ih _ _)
    · exact Nat.le_refl _

/-- A token that starts with a digit makes `scanNumber` consume it. -/
theorem scanNumber_digit_length (c : Char) (cs : List Char) (h : c.isDigit = true) :
    (scanNumber [] false (c :: cs)).2.length < (c :: cs).length := by
  have hn : isNumberChar c = true := by simp [isNumberChar, h]
  unfold scanNumber
  simp only [hn, if_true]
  split_ifs
  · exact Nat.lt_succ_of_le (scanNumber_length _ _ _)
  · exact Nat.lt_succ_of_le (scanNumber_length _ _ _)
  · exact Nat.lt_succ_of_le (scanNumber_length _ _ _)

/-- The block appended by `add_block(type, col++, depth, is_unknown, value)`. -/
def add_block (type : BlockType) (st : ParseState) (is_unknown : Bool) (value : ℚ) : Block :=
  ⟨type, st.depth, st.col, is_unknown, value⟩

/-- The `for` loop of `parse_circuit` (lines 125-199) on the characters from
index `i` on; the result lists the blocks appended from there on, in order.
The token `x` advances `i` once itself (line 136) and the `continue` of line
161 runs the `i++` of the loop header as well, so the character after `x` is
never looked at. -/
def parseLoop (st : ParseState) (cs : List Char) : List Block :=
  match cs with
  | [] => []
  | token :: rest =>
    if token = '+' then parseLoop st rest
    else if hd : token.isDigit = true ∨ token = 'x' then
      let ty := if st.first then BLOCK_UP_RES_PIPE else BLOCK_RES
      let st1 : ParseState := ⟨st.depth, st.col + 1, st.nodeOpen, false⟩
      if hx : token = 'x' then
        add_block ty st true (-1) :: parseLoop st1 (rest.drop 1)
      else
        let sc := scanNumber [] false (token :: rest)
        add_block ty st false (wcstod sc.1) :: parseLoop st1 sc.2
    else if token = '_' then
      add_block BLOCK_CONN st false 0 :: parseLoop ⟨st.depth, st.col + 1, st.nodeOpen, st.first⟩ rest
    else if token = '-' then
      add_block BLOCK_NODE_BEND st false 0 ::
        parseLoop ⟨st.depth, st.col + 1, st.nodeOpen, st.first⟩ rest
    else if token = '*' then
      if st.nodeOpen = false then
        add_block BLOCK_NODE_START st false 0 :: parseLoop ⟨st.depth, st.col + 1, true, true⟩ rest
      else
        add_block BLOCK_NODE_END st false 0 ::
          parseLoop ⟨st.depth, st.col + 1, false, st.first⟩ rest
    else if token = '|' then
      match rest with
      | c :: rest1 =>
        if c = '|' then
          add_block BLOCK_PAR_START ⟨-1, st.col, st.nodeOpen, st.first⟩ false 0 ::
            parseLoop ⟨-1, st.col + 1, st.nodeOpen, true⟩ rest1
        else
          add_block BLOCK_BEND st false 0 ::
            parseLoop ⟨st.depth, st.col + 1, st.nodeOpen, st.first⟩ (c :: rest1)
      | [] =>
        add_block BLOCK_BEND st false 0 ::
          parseLoop ⟨st.depth, st.col + 1, st.nodeOpen, st.first⟩ []
    else if token = '=' then
      add_block BLOCK_PAR_END st false 0 :: parseLoop ⟨0, st.col + 1, st.nodeOpen, st.first⟩ rest
    else parseLoop st rest
termination_by cs.length
decreasing_by
  all_goals simp_wf
  · omega
  · have h1 : c.isDigit = true := hd.resolve_right hx
    simpa using scanNumber_digit_length c cs h1
  · omega

/-- The block synthesized at lines 202-207. -/
def generatorPipe : Block := ⟨BLOCK_UP_RES_PIPE, 0, 0, false, 0⟩

/-- The function `parse_circuit` (lines 118-211), called with `head == NULL`
as `main` does: the loop, then the block put in front when the list is not
empty and does not start with a `BLOCK_UP_RES_PIPE`. -/
def parse_circuit (circuit : List Char) : List Block :=
  match parseLoop ⟨0, 0, false, true⟩ circuit with
  | [] => []
  | b :: bs => if b.type ≠ BLOCK_UP_RES_PIPE then generatorPipe :: b :: bs else b :: bs

/-! ### Unknown counter and structure extractor (lines 327-414) -/

/-- The loop of `count_unknowns` (lines 329-332) with the running `count`. -/
def countLoop (count : Nat) : List Block → Nat
  | [] => count
  | cur :: next => countLoop (if isUnknownRes cur then count + 1 else count) next

/-- The function `count_unknowns` (lines 327-334). -/
def count_unknowns (head : List Block) : Nat :=
  countLoop 0 head

/-- First loop of `extract_parallel_structure` (lines 356-360): sums the known
resistors up to the first `BLOCK_NODE_START`; returns `S0` and `cur`. -/
def scanS0 (S0 : ℚ) : List Block → ℚ × List Block
  | [] => (S0, [])
  | cur :: next =>
    if cur.type ≠ BLOCK_NODE_START then
      scanS0 (if isKnownRes cur then S0 + cur.value else S0) next
    else (S0, cur :: next)

/-- Second loop (lines 369-377): scans the first branch up to a
`BLOCK_PAR_START` or `BLOCK_NODE_END`. -/
def scanBranch1 (branch1 : ℚ) (branch1_unknown : Bool) : List Block → ℚ × Bool × List Block
  | [] => (branch1, branch1_unknown, [])
  | cur :: next =>
    if cur.type ≠ BLOCK_PAR_START ∧ cur.type ≠ BLOCK_NODE_END then
      if isRes cur then
        if cur.is_unknown then scanBranch1 branch1 true next
        else scanBranch1 (branch1 + cur.value) branch1_unknown next
      else scanBranch1 branch1 branch1_unknown next
    else (branch1, branch1_unknown, cur :: next)

/-- Third loop (lines 382-390): scans the second branch up to a
`BLOCK_NODE_END` or `BLOCK_PAR_END`. -/
def scanBranch2 (branch2 : ℚ) (branch2_unknown : Bool) : List Block → ℚ × Bool × List Block
  | [] => (branch2, branch2_unknown, [])
  | cur :: next =>
    if cur.type ≠ BLOCK_NODE_END ∧ cur.type ≠ BLOCK_PAR_END then
      if isRes cur then
        if cur.is_unknown then scanBranch2 branch2 true next
        else scanBranch2 (branch2 + cur.value) branch2_unknown next
      else scanBranch2 branch2 branch2_unknown next
    else (branch2, branch2_unknown, cur :: next)

/-- Last loop (lines 396-400): sums every known resistor that remains. -/
def scanS3 (S3 : ℚ) : List Block → ℚ
  | [] => S3
  | cur :: next => scanS3 (if isKnownRes cur then S3 + cur.value else S3) next

/-- The statement `if(cur && cur->type == t) cur = cur->next;`. -/
def skipIf (t : BlockType) : List Block → List Block
  | [] => []
  | cur :: next => if cur.type = t then next else cur :: next

/-- The four sums written through the pointers when the function returns 1. -/
structure ParallelStructure where
  S0 : ℚ
  S3 : ℚ
  Su : ℚ
  Sk : ℚ
  deriving DecidableEq

/-- Lines 378-393: the optional second branch. Returns `branch2`,
`branch2_unknown` and `cur`. -/
def secondBranch : List Block → ℚ × Bool × List Block
  | [] => (0, false, [])
  | cur :: next =>
    if cur.type = BLOCK_PAR_START then
      let r := scanBranch2 0 false next
      (r.1, r.2.1, skipIf BLOCK_PAR_END r.2.2)
    else (0, false, cur :: next)

/-- The function `extract_parallel_structure` (lines 352-414): `none` is the
return value 0, `some` is the return value 1 with the four outputs. -/
def extract_parallel_structure (head : List Block) : Option ParallelStructure :=
  let s0 := scanS0 0 head
  match s0.2 with
  | [] => none
  | _ :: cur =>
    let b1 := scanBranch1 0 false cur
    let b2 := secondBranch b1.2.2
    let S3 := scanS3 0 (skipIf BLOCK_NODE_END b2.2.2)
    if b1.2.1 && !b2.2.1 then some ⟨s0.1, S3, b1.1, b2.1⟩
    else if b2.2.1 && !b1.2.1 then some ⟨s0.1, S3, b2.1, b1.1⟩
    else none

/-! ### The solving part of `main` (lines 498-565) -/

/-- Outcome of one pass through the body of the retry loop (lines 525-551),
one constructor for each message the pass can print. -/
inductive StepResult
  | notPositive
  | invalidData (S_k R_par : ℚ)
  | rxNotPositive (Rx : ℚ)
  | rxNotPositiveSeries (Rx : ℚ)
  | solved (Rx : ℚ)
  deriving DecidableEq

/-- Lines 525-551: the checks and the computation made on one measured value
that is a finite number, in exact arithmetic. `resolved` is the return value
of `extract_parallel_structure`. The pass on every `double` that `wcstod` can
return, a NaN included, is `solveStepM`. -/
def solveStep (resolved : Bool) (S0 S3 S_u S_k Req_known Req_measured : ℚ) : StepResult :=
  if Req_measured ≤ 0 then StepResult.notPositive
  else if resolved then
    let R_par_actual := Req_measured - (S0 + S3)
    if S_k ≤ R_par_actual ∨ R_par_actual ≤ 0 then StepResult.invalidData S_k R_par_actual
    else
      let Rx := (R_par_actual * S_k) / (S_k - R_par_actual) - S_u
      if Rx ≤ 0 then StepResult.rxNotPositive Rx
      else StepResult.solved Rx
  else
    let Rx := Req_measured - Req_known
    if Rx ≤ 0 then StepResult.rxNotPositiveSeries Rx
    else StepResult.solved Rx

/-- What the session prints in its computing part, in order. -/
inductive Event
  | formatError
  | reqKnown (Req_known : ℚ)
  | unknownInParallelGroup
  | unknownInSeries
  | request
  | step (r : StepResult)
  | noValidValue
  | tooManyUnknowns
  deriving DecidableEq

/-- State of `main` at line 568, or at the `return 1` that ends it before:
what was printed, the exit code when `main` returned (`none` when it goes on
to the current and voltage questions), and `Req_measured`. -/
structure MainOut where
  trace : List Event
  exitCode : Option Nat
  Req_measured : ℚ
  deriving DecidableEq

/-- The retry loop of lines 518-553: `attempts` passes are left, `inputs` are
the values `wcstod` gives for the lines still to be read (no line left makes
`fgetws` fail), all of them finite numbers. Returns what is printed, `valid`
and `Req_measured`. The loop on every `double` is `retryLoopM`. -/
def retryLoop (resolved : Bool) (S0 S3 S_u S_k Req_known : ℚ) :
    Nat → List ℚ → ℚ → List Event × Bool × ℚ
  | 0, _, Req_measured => ([], false, Req_measured)
  | n + 1, [], Req_measured =>
    let r := retryLoop resolved S0 S3 S_u S_k Req_known n [] Req_measured
    (Event.request :: r.1, r.2.1, r.2.2)
  | n + 1, v :: more, _ =>
    match solveStep resolved S0 S3 S_u S_k Req_known v with
    | StepResult.solved Rx => ([Event.request, Event.step (StepResult.solved Rx)], true, v)
    | res =>
      let r := retryLoop resolved S0 S3 S_u S_k Req_known n more v
      (Event.request :: Event.step res :: r.1, r.2.1, r.2.2)

/-- Lines 498-565 of `main` on the parsed list `head`. -/
def mainSolve (head : List Block) (inputs : List ℚ) : MainOut :=
  let Req_known := calculate_total_resistance_new head
  let unknown_count := count_unknowns head
  if unknown_count = 1 then
    let ex := extract_parallel_structure head
    let resolved := ex.isSome
    let ps : ParallelStructure := ex.getD ⟨0, 0, 0, 0⟩
    let r := retryLoop resolved ps.S0 ps.S3 ps.Su ps.Sk Req_known 3 inputs 0
    let mode := if resolved then Event.unknownInParallelGroup else Event.unknownInSeries
    if r.2.1 then ⟨Event.reqKnown Req_known :: mode :: r.1, none, r.2.2⟩
    else ⟨Event.reqKnown Req_known :: mode :: (r.1 ++ [Event.noValidValue]), some 1, r.2.2⟩
  else if unknown_count > 1 then
    ⟨[Event.reqKnown Req_known, Event.tooManyUnknowns], some 1, 0⟩
  else ⟨[Event.reqKnown Req_known], none, Req_known⟩

/-- Group and branch delimiters: the four kinds the evaluator reacts to. -/
def isDelimiter (b : Block) : Bool :=
  b.type == BLOCK_NODE_START || b.type == BLOCK_NODE_END ||
    b.type == BLOCK_PAR_START || b.type == BLOCK_PAR_END

/-- Sum of the values of the resistor blocks that are not flagged unknown. -/
def knownSum (xs : List Block) : ℚ :=
  ((xs.filter isKnownRes).map Block.value).sum

/-- Some block of the list is a resistor flagged unknown. -/
def hasUnknown (xs : List Block) : Bool :=
  xs.any isUnknownRes

/-- The parallel law in the words of the specification: the sum of `1/B` over
the branch sums `B > 0`. -/
def harmonicSum (Bs : List ℚ) : ℚ :=
  ((Bs.filter (fun B => 0 < B)).map (fun B => 1 / B)).sum

/-- The parallel law in the words of the specification: `1 / harmonicSum` when
some branch sum is positive, and `0` otherwise. -/
def parallelLaw (Bs : List ℚ) : ℚ :=
  if ∃ B ∈ Bs, 0 < B then 1 / harmonicSum Bs else 0

/-- The blocks of the branches after the first one: each is a
`BLOCK_PAR_START`, the blocks of the branch, and a `BLOCK_PAR_END`. -/
def branchSections : List (Block × List Block × Block) → List Block
  | [] => []
  | s :: more => s.1 :: (s.2.1 ++ s.2.2 :: branchSections more)

/-- The Rx a pass of the retry loop reports, if it reports one. -/
def StepResult.reportedRx : StepResult → Option ℚ
  | StepResult.solved Rx => some Rx
  | _ => none

/-- No resistor flagged unknown stands before the first group end of the list
(or in the whole list when it has no group end). -/
def noUnknownBeforeEnd : List Block → Bool
  | [] => true
  | b :: rest =>
    if b.type = BLOCK_NODE_END then true else !isUnknownRes b && noUnknownBeforeEnd rest

/-- The session of `main` in series mode: the mode message for an unknown in
series, then the retry loop in which every pass computes
`Req_measured - Req_known`. -/
def seriesSession (Req_known : ℚ) (inputs : List ℚ) : MainOut :=
  let r := retryLoop false 0 0 0 0 Req_known 3 inputs 0
  if r.2.1 then ⟨Event.reqKnown Req_known :: Event.unknownInSeries :: r.1, none, r.2.2⟩
  else
    ⟨Event.reqKnown Req_known :: Event.unknownInSeries :: (r.1 ++ [Event.noValidValue]),
      some 1, r.2.2⟩

/-- What a numeric token leaves in the buffer `number`: its leading digits,
and when a separator follows them, one point and all later digits. -/
def tokenBuffer (tok : List Char) : List Char :=
  tok.takeWhile Char.isDigit ++
    (match tok.dropWhile Char.isDigit with
      | [] => []
      | _ :: t => '.' :: t.filter Char.isDigit)

/-- The value given to a numeric token: the digits before the first separator
are the integer part, all digits after it are the fractional part, and any
later separator is dropped. -/
def tokenValue (tok : List Char) : ℚ :=
  (digitsValue (tok.takeWhile Char.isDigit) : ℚ) +
    (digitsValue ((tok.dropWhile Char.isDigit).filter Char.isDigit) : ℚ) /
      (10 : ℚ) ^ ((tok.dropWhile Char.isDigit).filter Char.isDigit).length

/-! ### Call sites of the evaluator -/

/-- The cursor after the loop of `evaluateSeries` is not longer than before. -/
theorem evaluateSeriesLoop_length (total : ℚ) (ovf : Bool) (p : List Block) :
    (evaluateSeriesLoop total ovf p).rest.length ≤ p.length :=
  (evaluateSeriesLoopAux total ovf p).2

/-- The cursor after `evaluateParallelGroup` is not longer than before. -/
theorem evaluateParallelGroup_length (p : List Block) :
    (evaluateParallelGroup p).rest.length ≤ p.length :=
  (evaluateParallelGroupAux p).2

/-- Call sites of line 278: the cursors that the loop of one call of
`evaluateSeries`, started at `p`, hands to `evaluateParallelGroup`, in order.
After each such call the loop goes on where the call left the cursor. -/
def seriesCalls (p : List Block) : List (List Block) :=
  match p with
  | [] => []
  | curr :: next =>
    if isKnownRes curr then seriesCalls next
    else if curr.type = BLOCK_NODE_START then
      next :: seriesCalls (evaluateParallelGroup next).rest
    else if isSeriesStop curr then []
    else seriesCalls next
termination_by p.length
decreasing_by
  all_goals simp_wf
  exact Nat.lt_succ_of_le (evaluateParallelGroup_length _)

/-- Behind a branch end left by `evaluateSeries` the cursor is shorter than
at the separator that opened the branch. -/
theorem branch_after_length (next : List Block) (e : Block) (after : List Block)
    (h : (evaluateSeries next).rest = e :: after) : after.length < next.length + 1 := by
  have h1 := evaluateSeriesLoop_length 0 false next
  unfold evaluateSeries at h
  rw [h] at h1
  simp only [List.length_cons] at h1
  omega

set_option linter.unusedVariables false in
/-- Call sites of line 302: the cursors that the branch loop of one call of
`evaluateParallelGroup`, standing at `p`, hands to `evaluateSeries`. -/
def branchCalls (p : List Block) : List (List Block) :=
  match p with
  | [] => []
  | sep :: next =>
    if sep.type = BLOCK_PAR_START then
      next :: (match h : (evaluateSeries next).rest with
        | [] => []
        | e :: after => if e.type = BLOCK_PAR_END then branchCalls after else [])
    else []
termination_by p.length
decreasing_by
  all_goals simp_wf
  apply branch_after_length
  assumption

/-- Call sites of lines 297 and 302: the cursors that one call of
`evaluateParallelGroup`, started at `p`, hands to `evaluateSeries`: `p` itself
for the first branch, then those of the branch loop. -/
def groupCalls (p : List Block) : List (List Block) :=
  p :: branchCalls (evaluateSeries p).rest

/-! ### Further vocabulary of the statements -/

/-- The group starts and group ends of a list strictly alternate, the first
of them being a group end when `opened` is on and a group start when it is
off. -/
def alternates (opened : Bool) : List Block → Bool
  | [] => true
  | b :: bs =>
    if b.type = BLOCK_NODE_START then !opened && alternates true bs
    else if b.type = BLOCK_NODE_END then opened && alternates false bs
    else alternates opened bs

/-- The kinds of the group starts and group ends of a list, in order. -/
def groupMarks (s : List Block) : List BlockType :=
  (s.filter (fun b => b.type == BLOCK_NODE_START || b.type == BLOCK_NODE_END)).map Block.type

/-- The strictly alternating list of `n` marks: start, end, start, ... when
`opened` is off, and end, start, end, ... when it is on. -/
def altMarks (opened : Bool) : Nat → List BlockType
  | 0 => []
  | n + 1 => (if opened then BLOCK_NODE_END else BLOCK_NODE_START) :: altMarks (!opened) n

/-- Number of group starts of a list. -/
def countStarts (s : List Block) : Nat :=
  s.countP (fun b => b.type == BLOCK_NODE_START)

/-- Number of group ends of a list. -/
def countEnds (s : List Block) : Nat :=
  s.countP (fun b => b.type == BLOCK_NODE_END)

/-- The characters of `n` pairs of `*` followed by the closing dash. -/
def starPairs : Nat → List Char
  | 0 => ['-']
  | n + 1 => '*' :: '*' :: starPairs n

/-- The sequence with every resistor flagged unknown taken out. -/
def deleteUnknowns (s : List Block) : List Block :=
  s.filter (fun b => !isUnknownRes b)

/-- No resistor flagged unknown stands right behind a `BLOCK_PAR_END`. -/
def noUnknownAfterBranchEnd : List Block → Bool
  | [] => true
  | a :: rest =>
    (match rest with
      | [] => true
      | b :: _ => !(a.type == BLOCK_PAR_END && isUnknownRes b)) &&
    noUnknownAfterBranchEnd rest

/-- The result of an evaluator routine with the unknowns taken out of the
part of the sequence that is left. -/
def EvalOut.deleted (r : EvalOut) : EvalOut :=
  ⟨r.value, deleteUnknowns r.rest, r.overflow⟩

/-- The sequence in which every resistor flagged unknown is made a known
resistor of value `Rx`: same kind, depth and column, flag off. -/
def replaceUnknown (Rx : ℚ) (s : List Block) : List Block :=
  s.map (fun b => if isUnknownRes b then { b with is_unknown := false, value := Rx } else b)

/-! ### The buffer of the numeric token (line 138) -/

/-- Length of the buffer `wchar_t number[20]` of line 138. -/
def NUMBER_LEN : Nat := 20

set_option linter.unusedVariables false in
/-- Ghost of the `for` loop of `parse_circuit`: it walks the characters as
`parseLoop` does and says whether some numeric token met on the way makes the
inner loop store `NUMBER_LEN` characters or more in `number`. With 20
characters stored no terminating zero is left for `wcstod`, with more the
store of line 144 or 150 is past the end of the array: in both cases the C
program has no defined behaviour, and `parseLoop` describes the other runs. -/
def numberOverflow (cs : List Char) : Bool :=
  match cs with
  | [] => false
  | token :: rest =>
    if token = '+' then numberOverflow rest
    else if hd : token.isDigit = true ∨ token = 'x' then
      if hx : token = 'x' then numberOverflow (rest.drop 1)
      else
        let sc := scanNumber [] false (token :: rest)
        decide (NUMBER_LEN ≤ sc.1.length) || numberOverflow sc.2
    else if token = '|' then
      match rest with
      | c :: rest1 => if c = '|' then numberOverflow rest1 else numberOverflow (c :: rest1)
      | [] => false
    else numberOverflow rest
termination_by cs.length
decreasing_by
  all_goals simp_wf
  · omega
  · have h1 := hd.resolve_right hx
    simpa using scanNumber_digit_length _ _ h1
  · omega

/-- The function `parse_circuit` with the bound of its buffer: no result when
a numeric token does not fit `number`, and the sequence of `parse_circuit`
otherwise. -/
def parse_circuit_checked (circuit : List Char) : Option (List Block) :=
  if numberOverflow circuit then none else some (parse_circuit circuit)

/-! ### The locale of the session (line 453) -/

/-- The library call `wcstod(number, NULL)` of line 153 in a locale whose
radix character is `radix` (`main` selects the locale of the environment with
`setlocale(LC_ALL, "")`, line 453): the leading digits are the integer part,
and the digits behind them are read as the fractional part only when the
character between is the radix character of the locale. -/
def wcstodLocale (radix : Char) (number : List Char) : ℚ :=
  match number.dropWhile Char.isDigit with
  | [] => (digitsValue (number.takeWhile Char.isDigit) : ℚ)
  | c :: frac =>
    if c = radix then
      (digitsValue (number.takeWhile Char.isDigit) : ℚ) +
        (digitsValue (frac.takeWhile Char.isDigit) : ℚ) /
          (10 : ℚ) ^ (frac.takeWhile Char.isDigit).length
    else (digitsValue (number.takeWhile Char.isDigit) : ℚ)

set_option linter.unusedVariables false in
/-- The `for` loop of `parse_circuit` (lines 125-199) in a locale whose radix
character is `radix`: `parseLoop` with the library call of line 153 made in
that locale. -/
def parseLoopLocale (radix : Char) (st : ParseState) (cs : List Char) : List Block :=
  match cs with
  | [] => []
  | token :: rest =>
    if token = '+' then parseLoopLocale radix st rest
    else if hd : token.isDigit = true ∨ token = 'x' then
      let ty := if st.first then BLOCK_UP_RES_PIPE else BLOCK_RES
      let st1 : ParseState := ⟨st.depth, st.col + 1, st.nodeOpen, false⟩
      if hx : token = 'x' then
        add_block ty st true (-1) :: parseLoopLocale radix st1 (rest.drop 1)
      else
        let sc := scanNumber [] false (token :: rest)
        add_block ty st false (wcstodLocale radix sc.1) :: parseLoopLocale radix st1 sc.2
    else if token = '_' then
      add_block BLOCK_CONN st false 0 ::
        parseLoopLocale radix ⟨st.depth, st.col + 1, st.nodeOpen, st.first⟩ rest
    else if token = '-' then
      add_block BLOCK_NODE_BEND st false 0 ::
        parseLoopLocale radix ⟨st.depth, st.col + 1, st.nodeOpen, st.first⟩ rest
    else if token = '*' then
      if st.nodeOpen = false then
        add_block BLOCK_NODE_START st false 0 ::
          parseLoopLocale radix ⟨st.depth, st.col + 1, true, true⟩ rest
      else
        add_block BLOCK_NODE_END st false 0 ::
          parseLoopLocale radix ⟨st.depth, st.col + 1, false, st.first⟩ rest
    else if token = '|' then
      match rest with
      | c :: rest1 =>
        if c = '|' then
          add_block BLOCK_PAR_START ⟨-1, st.col, st.nodeOpen, st.first⟩ false 0 ::
            parseLoopLocale radix ⟨-1, st.col + 1, st.nodeOpen, true⟩ rest1
        else
          add_block BLOCK_BEND st false 0 ::
            parseLoopLocale radix ⟨st.depth, st.col + 1, st.nodeOpen, st.first⟩ (c :: rest1)
      | [] =>
        add_block BLOCK_BEND st false 0 ::
          parseLoopLocale radix ⟨st.depth, st.col + 1, st.nodeOpen, st.first⟩ []
    else if token = '=' then
      add_block BLOCK_PAR_END st false 0 ::
        parseLoopLocale radix ⟨0, st.col + 1, st.nodeOpen, st.first⟩ rest
    else parseLoopLocale radix st rest
termination_by cs.length
decreasing_by
  all_goals simp_wf
  · omega
  · have h1 := hd.resolve_right hx
    simpa using scanNumber_digit_length _ _ h1
  · omega

/-- The function `parse_circuit` (lines 118-211) in a locale whose radix
character is `radix`. -/
def parse_circuitLocale (radix : Char) (circuit : List Char) : List Block :=
  match parseLoopLocale radix ⟨0, 0, false, true⟩ circuit with
  | [] => []
  | b :: bs => if b.type ≠ BLOCK_UP_RES_PIPE then generatorPipe :: b :: bs else b :: bs

/-- The value given to a numeric token in a locale whose radix character is
`radix`: `tokenValue` when it is the point, which is what the parser writes
for the first separator, and the digits before the first separator alone when
it is another character. -/
def tokenValueLocale (radix : Char) (tok : List Char) : ℚ :=
  if radix = '.' then tokenValue tok else (digitsValue (tok.takeWhile Char.isDigit) : ℚ)

/-! ### The measured value as a `double` (lines 518-553) -/

/-- What `wcstod(buffer, NULL)` of line 523 can store in `Req_measured`: a
finite number, taken as an exact rational, one of the two infinities (the
lines `inf` and `-inf`, or a numeral too large for a `double`), or a NaN (the
line `nan`). -/
inductive Measured
  | num (v : ℚ)
  | posInf
  | negInf
  | nan
  deriving DecidableEq

/-- The comparison `m <= 0` of lines 525, 532, 537 and 545 on a `double`: it
is false on a NaN. -/
def Measured.leZero : Measured → Bool
  | Measured.num v => decide (v ≤ 0)
  | Measured.posInf => false
  | Measured.negInf => true
  | Measured.nan => false

/-- The comparison `S_k <= m` of line 532, with `S_k` finite: it is false on
a NaN. -/
def Measured.geNum (m : Measured) (S_k : ℚ) : Bool :=
  match m with
  | Measured.num v => decide (S_k ≤ v)
  | Measured.posInf => true
  | Measured.negInf => false
  | Measured.nan => false

/-- The difference `m - s` of lines 531 and 544, with `s` finite. -/
def Measured.sub (m : Measured) (s : ℚ) : Measured :=
  match m with
  | Measured.num v => Measured.num (v - s)
  | Measured.posInf => Measured.posInf
  | Measured.negInf => Measured.negInf
  | Measured.nan => Measured.nan

/-- Line 536: `(R_par_actual * S_k) / (S_k - R_par_actual) - S_u` with `S_k`
and `S_u` finite. On an infinite `R_par_actual` the quotient has an infinite
divisor and an infinite or undefined dividend, which is a NaN. -/
def Measured.rxOfPar (R_par_actual : Measured) (S_k S_u : ℚ) : Measured :=
  match R_par_actual with
  | Measured.num r => Measured.num ((r * S_k) / (S_k - r) - S_u)
  | _ => Measured.nan

/-- Outcome of one pass through the body of the retry loop (lines 525-551) on
a `double`, one constructor for each message the pass can print. -/
inductive StepResultM
  | notPositive
  | invalidData (S_k : ℚ) (R_par : Measured)
  | rxNotPositive (Rx : Measured)
  | rxNotPositiveSeries (Rx : Measured)
  | solved (Rx : Measured)
  deriving DecidableEq

/-- Lines 525-551 on the `double` read from the measured line: the same
checks and computation as `solveStep`, with the comparisons of the `double`.
The sums `S0`, `S3`, `S_u`, `S_k` and `Req_known` come from the parsed list
and are finite. -/
def solveStepM (resolved : Bool) (S0 S3 S_u S_k Req_known : ℚ) (Req_measured : Measured) :
    StepResultM :=
  if Req_measured.leZero then StepResultM.notPositive
  else if resolved then
    let R_par_actual := Req_measured.sub (S0 + S3)
    if R_par_actual.geNum S_k || R_par_actual.leZero then
      StepResultM.invalidData S_k R_par_actual
    else
      let Rx := R_par_actual.rxOfPar S_k S_u
      if Rx.leZero then StepResultM.rxNotPositive Rx
      else StepResultM.solved Rx
  else
    let Rx := Req_measured.sub Req_known
    if Rx.leZero then StepResultM.rxNotPositiveSeries Rx
    else StepResultM.solved Rx

/-- What the session prints in its computing part, in order, the passes of
the retry loop being those of `solveStepM`. -/
inductive EventM
  | formatError
  | reqKnown (Req_known : ℚ)
  | unknownInParallelGroup
  | unknownInSeries
  | request
  | step (r : StepResultM)
  | noValidValue
  | tooManyUnknowns
  deriving DecidableEq

/-- State of `main` at line 568, or at the `return 1` that ends it before:
what was printed, the exit code when `main` returned, and `Req_measured`. -/
structure MainOutM where
  trace : List EventM
  exitCode : Option Nat
  Req_measured : Measured
  deriving DecidableEq

/-- The retry loop of lines 518-553 on the `double` values that `wcstod`
gives for the lines still to be read. Returns what is printed, `valid` and
`Req_measured`. -/
def retryLoopM (resolved : Bool) (S0 S3 S_u S_k Req_known : ℚ) :
    Nat → List Measured → Measured → List EventM × Bool × Measured
  | 0, _, Req_measured => ([], false, Req_measured)
  | n + 1, [], Req_measured =>
    let r := retryLoopM resolved S0 S3 S_u S_k Req_known n [] Req_measured
    (EventM.request :: r.1, r.2.1, r.2.2)
  | n + 1, v :: more, _ =>
    match solveStepM resolved S0 S3 S_u S_k Req_known v with
    | StepResultM.solved Rx => ([EventM.request, EventM.step (StepResultM.solved Rx)], true, v)
    | res =>
      let r := retryLoopM resolved S0 S3 S_u S_k Req_known n more v
      (EventM.request :: EventM.step res :: r.1, r.2.1, r.2.2)

/-- Lines 498-565 of `main` on the parsed list `head`, the measured lines
being read as `double` values. -/
def mainSolveM (head : List Block) (inputs : List Measured) : MainOutM :=
  let Req_known := calculate_total_resistance_new head
  let unknown_count := count_unknowns head
  if unknown_count = 1 then
    let ex := extract_parallel_structure head
    let resolved := ex.isSome
    let ps : ParallelStructure := ex.getD ⟨0, 0, 0, 0⟩
    let r := retryLoopM resolved ps.S0 ps.S3 ps.Su ps.Sk Req_known 3 inputs (Measured.num 0)
    let mode := if resolved then EventM.unknownInParallelGroup else EventM.unknownInSeries
    if r.2.1 then ⟨EventM.reqKnown Req_known :: mode :: r.1, none, r.2.2⟩
    else ⟨EventM.reqKnown Req_known :: mode :: (r.1 ++ [EventM.noValidValue]), some 1, r.2.2⟩
  else if unknown_count > 1 then
    ⟨[EventM.reqKnown Req_known, EventM.tooManyUnknowns], some 1, Measured.num 0⟩
  else ⟨[EventM.reqKnown Req_known], none, Measured.num Req_known⟩

/-- The Rx a pass of the retry loop reports, if it reports one. -/
def StepResultM.reportedRx : StepResultM → Option Measured
  | StepResultM.solved Rx => some Rx
  | _ => none

/-- The outcome of a pass on a finite number, among the outcomes on a
`double`. -/
def StepResult.toM : StepResult → StepResultM
  | StepResult.notPositive => StepResultM.notPositive
  | StepResult.invalidData S_k R_par => StepResultM.invalidData S_k (Measured.num R_par)
  | StepResult.rxNotPositive Rx => StepResultM.rxNotPositive (Measured.num Rx)
  | StepResult.rxNotPositiveSeries Rx => StepResultM.rxNotPositiveSeries (Measured.num Rx)
  | StepResult.solved Rx => StepResultM.solved (Measured.num Rx)

/-- What the session prints on finite numbers, among what it prints on
`double` values. -/
def Event.toM : Event → EventM
  | Event.formatError => EventM.formatError
  | Event.reqKnown Req_known => EventM.reqKnown Req_known
  | Event.unknownInParallelGroup => EventM.unknownInParallelGroup
  | Event.unknownInSeries => EventM.unknownInSeries
  | Event.request => EventM.request
  | Event.step r => EventM.step r.toM
  | Event.noValidValue => EventM.noValidValue
  | Event.tooManyUnknowns => EventM.tooManyUnknowns

/-- The state of `main` on finite numbers, among its states on `double`
values. -/
def MainOut.toM (o : MainOut) : MainOutM :=
  ⟨o.trace.map Event.toM, o.exitCode, Measured.num o.Req_measured⟩

/-! ### The combination step in `double` arithmetic (lines 311-317) -/

/-- Rounding of a rational to the nearest integer, ties to the even one. -/
def roundHalfEven (q : ℚ) : ℤ :=
  if q - ⌊q⌋ < 1 / 2 then ⌊q⌋
  else if 1 / 2 < q - ⌊q⌋ then ⌊q⌋ + 1
  else if ⌊q⌋ % 2 = 0 then ⌊q⌋ else ⌊q⌋ + 1

/-- Rounding of a real result to a `double` (IEEE 754 binary64, rounding to
nearest, ties to even): the result is scaled so that it has 53 binary digits
in front of the point, rounded to an integer and scaled back. The exponent is
not bounded, so there is no overflow to infinity and there are no subnormal
numbers; the values met here are far from both. -/
def roundDouble (q : ℚ) : ℚ :=
  if q = 0 then 0
  else (roundHalfEven (q / (2 : ℚ) ^ (Int.log 2 |q| - 52)) : ℚ) * (2 : ℚ) ^ (Int.log 2 |q| - 52)

/-- The loop of lines 312-315 in `double` arithmetic: the quotient
`1.0 / branches[i]` and the sum `invSum += ...` are each rounded. -/
def invSumLoopDouble (invSum : ℚ) : List ℚ → ℚ
  | [] => invSum
  | b :: bs =>
    invSumLoopDouble (if b > 0 then roundDouble (invSum + roundDouble (1 / b)) else invSum) bs

/-- Lines 311-317 in `double` arithmetic: `parallelValue` computed from the
stored branch sums, the quotient `1.0 / invSum` being rounded. -/
def parallelValueDouble (branches : List ℚ) : ℚ :=
  let invSum := invSumLoopDouble 0 branches
  if invSum > 0 then roundDouble (1 / invSum) else 0

/-! ### Unfolding equations of the evaluator -/

theorem evaluateSeriesLoop_nil (total : ℚ) (ovf : Bool) :
    evaluateSeriesLoop total ovf [] = ⟨total, [], ovf⟩ := by
  unfold evaluateSeriesLoop
  rw [evaluateSeriesLoopAux]

theorem evaluateSeriesLoop_cons (total : ℚ) (ovf : Bool) (curr : Block) (next : List Block) :
    evaluateSeriesLoop total ovf (curr :: next) =
      if isKnownRes curr then evaluateSeriesLoop (total + curr.value) ovf next
      else if curr.type = BLOCK_NODE_START then
        evaluateSeriesLoop (total + (evaluateParallelGroup next).value)
          (ovf || (evaluateParallelGroup next).overflow) (evaluateParallelGroup next).rest
      else if isSeriesStop curr then ⟨total, curr :: next, ovf⟩
      else evaluateSeriesLoop total ovf next := by
  unfold evaluateSeriesLoop evaluateParallelGroup
  rw [evaluateSeriesLoopAux]
  split_ifs <;> rfl

theorem evaluateParallelGroup_eq (p : List Block) :
    evaluateParallelGroup p =
      branchLoop [(evaluateSeries p).value] (evaluateSeries p).overflow (evaluateSeries p).rest := by
  unfold evaluateParallelGroup evaluateSeries evaluateSeriesLoop branchLoop
  rw [evaluateParallelGroupAux]

theorem branchLoop_nil (branches : List ℚ) (ovf : Bool) :
    branchLoop branches ovf [] = finishGroup branches ovf [] := by
  unfold branchLoop
  rw [branchLoopAux]

theorem branchLoop_cons (branches : List ℚ) (ovf : Bool) (sep : Block) (next : List Block) :
    branchLoop branches ovf (sep :: next) =
      if sep.type = BLOCK_PAR_START then
        match (evaluateSeries next).rest with
        | [] =>
          finishGroup (branches ++ [(evaluateSeries next).value])
            (ovf || (evaluateSeries next).overflow || decide (BRANCH_CAPACITY ≤ branches.length)) []
        | e :: after =>
          if e.type = BLOCK_PAR_END then
            branchLoop (branches ++ [(evaluateSeries next).value])
              (ovf || (evaluateSeries next).overflow || decide (BRANCH_CAPACITY ≤ branches.length))
              after
          else
            finishGroup (branches ++ [(evaluateSeries next).value])
              (ovf || (evaluateSeries next).overflow || decide (BRANCH_CAPACITY ≤ branches.length))
              (e :: after)
      else finishGroup branches ovf (sep :: next) := by
  unfold branchLoop evaluateSeries evaluateSeriesLoop
  rw [branchLoopAux]
  by_cases hs : sep.type = BLOCK_PAR_START
  · simp only [hs, if_true]
    split
    next v o _ heq =>
      simp [heq]
    next v e after o h heq =>
      simp only [heq]
      split_ifs <;> rfl
  · simp only [hs, if_false]

/-! ### Lemmas on the evaluator -/

theorem knownSum_nil : knownSum [] = 0 := by
  simp [knownSum]

theorem knownSum_cons (b : Block) (xs : List Block) :
    knownSum (b :: xs) = (if isKnownRes b then b.value else 0) + knownSum xs := by
  by_cases h : isKnownRes b <;> simp [knownSum, List.filter_cons, h]

theorem knownSum_append (xs ys : List Block) :
    knownSum (xs ++ ys) = knownSum xs + knownSum ys := by
  simp [knownSum, List.filter_append]

theorem isKnownRes_type (b : Block) (h : isKnownRes b = true) :
    b.type = BLOCK_RES ∨ b.type = BLOCK_UP_RES_PIPE := by
  simp only [isKnownRes, isRes, Bool.and_eq_true, Bool.or_eq_true, beq_iff_eq] at h
  exact h.1

/-- A block that is no delimiter is consumed by the series loop, which adds
its value when it is a known resistor. -/
theorem evaluateSeriesLoop_plain (total : ℚ) (ovf : Bool) (b : Block) (next : List Block)
    (hb : isDelimiter b = false) :
    evaluateSeriesLoop total ovf (b :: next) =
      evaluateSeriesLoop (total + (if isKnownRes b then b.value else 0)) ovf next := by
  rw [evaluateSeriesLoop_cons]
  simp only [isDelimiter, Bool.or_eq_false_iff, beq_eq_false_iff_ne, ne_eq] at hb
  obtain ⟨⟨⟨h1, h2⟩, h3⟩, h4⟩ := hb
  by_cases hk : isKnownRes b = true
  · simp [hk]
  · have hstop : isSeriesStop b = false := by
      simp [isSeriesStop, h2, h3, h4]
    simp [hk, h1, hstop]

/-- The series loop runs through a stretch without delimiters and adds up its
known resistors. -/
theorem evaluateSeriesLoop_append (xs : List Block) (hxs : ∀ b ∈ xs, isDelimiter b = false)
    (total : ℚ) (ovf : Bool) (rest : List Block) :
    evaluateSeriesLoop total ovf (xs ++ rest) =
      evaluateSeriesLoop (total + knownSum xs) ovf rest := by
  induction xs generalizing total with
  | nil => simp [knownSum_nil]
  | cons b xs ih =>
    have hb := hxs b (List.mem_cons_self _ _)
    have hxs1 : ∀ c ∈ xs, isDelimiter c = false := fun c hc => hxs c (List.mem_cons_of_mem _ hc)
    rw [List.cons_append, evaluateSeriesLoop_plain _ _ _ _ hb, ih hxs1, knownSum_cons, add_assoc]

/-- The series loop stops in front of a group end, branch start or branch end. -/
theorem evaluateSeriesLoop_stop (total : ℚ) (ovf : Bool) (d : Block) (next : List Block)
    (hd : isSeriesStop d = true) :
    evaluateSeriesLoop total ovf (d :: next) = ⟨total, d :: next, ovf⟩ := by
  rw [evaluateSeriesLoop_cons]
  have hk : isKnownRes d = false := by
    simp only [isSeriesStop, Bool.or_eq_true, beq_iff_eq] at hd
    rcases hd with (h | h) | h <;> simp [isKnownRes, isRes, h]
  have hs : d.type ≠ BLOCK_NODE_START := by
    simp only [isSeriesStop, Bool.or_eq_true, beq_iff_eq] at hd
    rcases hd with (h | h) | h <;> simp [h]
  simp [hk, hs, hd]

/-- In front of the sections of the later branches, or of the group end when
there is none, the series loop stops. -/
theorem evaluateSeriesLoop_sections (total : ℚ) (ovf : Bool)
    (more : List (Block × List Block × Block)) (ge : Block) (post : List Block)
    (hmore : ∀ s ∈ more, s.1.type = BLOCK_PAR_START ∧ s.2.2.type = BLOCK_PAR_END ∧
      ∀ b ∈ s.2.1, isDelimiter b = false)
    (hge : ge.type = BLOCK_NODE_END) :
    evaluateSeriesLoop total ovf (branchSections more ++ ge :: post) =
      ⟨total, branchSections more ++ ge :: post, ovf⟩ := by
  cases more with
  | nil =>
    simp only [branchSections, List.nil_append]
    exact evaluateSeriesLoop_stop _ _ _ _ (by simp [isSeriesStop, hge])
  | cons s more =>
    have hs := (hmore s (List.mem_cons_self _ _)).1
    simp only [branchSections, List.cons_append]
    exact evaluateSeriesLoop_stop _ _ _ _ (by simp [isSeriesStop, hs])

/-- The branch loop on the sections of the later branches followed by the group
end: every section stores the known sum of its branch, the group end is
consumed, and the overflow flag is raised exactly when a store went past the
capacity. -/
theorem branchLoop_sections (more : List (Block × List Block × Block))
    (ge : Block) (post : List Block)
    (hmore : ∀ s ∈ more, s.1.type = BLOCK_PAR_START ∧ s.2.2.type = BLOCK_PAR_END ∧
      ∀ b ∈ s.2.1, isDelimiter b = false)
    (hge : ge.type = BLOCK_NODE_END) (branches : List ℚ) (ovf : Bool) :
    branchLoop branches ovf (branchSections more ++ ge :: post) =
      ⟨parallelValue (branches ++ more.map (fun s => knownSum s.2.1)), post,
        ovf || (!more.isEmpty && decide (BRANCH_CAPACITY < branches.length + more.length))⟩ := by
  induction more generalizing branches ovf with
  | nil =>
    simp only [branchSections, List.nil_append, List.map_nil, List.append_nil]
    rw [branchLoop_cons]
    simp [hge, finishGroup]
  | cons s more ih =>
    obtain ⟨hps, hpe, hfree⟩ := hmore s (List.mem_cons_self _ _)
    have hmore1 : ∀ t ∈ more, t.1.type = BLOCK_PAR_START ∧ t.2.2.type = BLOCK_PAR_END ∧
        ∀ b ∈ t.2.1, isDelimiter b = false :=
      fun t ht => hmore t (List.mem_cons_of_mem _ ht)
    have hser : evaluateSeries (s.2.1 ++ s.2.2 :: (branchSections more ++ ge :: post)) =
        ⟨knownSum s.2.1, s.2.2 :: (branchSections more ++ ge :: post), false⟩ := by
      unfold evaluateSeries
      rw [evaluateSeriesLoop_append _ hfree,
        evaluateSeriesLoop_stop _ _ _ _ (by simp [isSeriesStop, hpe]), zero_add]
    simp only [branchSections, List.cons_append, List.append_assoc]
    rw [branchLoop_cons, if_pos hps, hser]
    simp only [if_pos hpe]
    rw [ih hmore1]
    simp only [List.map_cons, List.append_assoc, List.singleton_append, List.length_append,
      List.length_cons, List.length_nil, List.isEmpty_cons, Bool.not_false, Bool.true_and,
      Bool.or_false, EvalOut.mk.injEq, true_and]
    cases ovf <;> cases more <;> simp [BRANCH_CAPACITY]
    · constructor <;> intro h <;> omega
    · rw [Bool.eq_iff_iff]
      simp only [Bool.or_eq_true, decide_eq_true_eq]
      constructor <;> intro h <;> omega

/-- The loop of the parallel law adds the harmonic sum to its start value. -/
theorem invSumLoop_eq (Bs : List ℚ) (invSum : ℚ) :
    invSumLoop invSum Bs = invSum + harmonicSum Bs := by
  induction Bs generalizing invSum with
  | nil => simp [invSumLoop, harmonicSum]
  | cons B Bs ih =>
    rw [invSumLoop, ih]
    by_cases hB : 0 < B
    · simp [harmonicSum, List.filter_cons, hB, add_assoc]
    · simp [harmonicSum, List.filter_cons, hB]

theorem harmonicSum_nonneg (Bs : List ℚ) : 0 ≤ harmonicSum Bs := by
  induction Bs with
  | nil => simp [harmonicSum]
  | cons B Bs ih =>
    by_cases hB : 0 < B
    · have h1 : harmonicSum (B :: Bs) = 1 / B + harmonicSum Bs := by
        simp [harmonicSum, List.filter_cons, hB]
      rw [h1]
      have : 0 < 1 / B := one_div_pos.mpr hB
      linarith
    · have h1 : harmonicSum (B :: Bs) = harmonicSum Bs := by
        simp [harmonicSum, List.filter_cons, hB]
      rw [h1]
      exact ih

theorem harmonicSum_pos_iff (Bs : List ℚ) : 0 < harmonicSum Bs ↔ ∃ B ∈ Bs, 0 < B := by
  induction Bs with
  | nil => simp [harmonicSum]
  | cons B Bs ih =>
    by_cases hB : 0 < B
    · have h1 : harmonicSum (B :: Bs) = 1 / B + harmonicSum Bs := by
        simp [harmonicSum, List.filter_cons, hB]
      have h2 : 0 < 1 / B := one_div_pos.mpr hB
      have h3 := harmonicSum_nonneg Bs
      constructor
      · intro _
        exact ⟨B, List.mem_cons_self _ _, hB⟩
      · intro _
        rw [h1]
        linarith
    · have h1 : harmonicSum (B :: Bs) = harmonicSum Bs := by
        simp [harmonicSum, List.filter_cons, hB]
      rw [h1, ih]
      constructor
      · rintro ⟨C, hC, hpos⟩
        exact ⟨C, List.mem_cons_of_mem _ hC, hpos⟩
      · rintro ⟨C, hC, hpos⟩
        rcases List.mem_cons.mp hC with h | h
        · exact absurd (h ▸ hpos) hB
        · exact ⟨C, h, hpos⟩

/-- The value computed at lines 311-317 is the parallel law of the
specification. -/
theorem parallelValue_eq_parallelLaw (Bs : List ℚ) : parallelValue Bs = parallelLaw Bs := by
  unfold parallelValue parallelLaw
  simp only [invSumLoop_eq, zero_add]
  by_cases h : ∃ B ∈ Bs, 0 < B
  · rw [if_pos h, if_pos ((harmonicSum_pos_iff Bs).mpr h)]
  · rw [if_neg h, if_neg (fun hp => h ((harmonicSum_pos_iff Bs).mp hp))]

/-- The whole evaluation of a sequence with one parallel group. -/
theorem evaluateSeries_group (pre b1 post : List Block) (gs ge : Block)
    (more : List (Block × List Block × Block))
    (hpre : ∀ b ∈ pre, isDelimiter b = false)
    (hb1 : ∀ b ∈ b1, isDelimiter b = false)
    (hpost : ∀ b ∈ post, isDelimiter b = false)
    (hgs : gs.type = BLOCK_NODE_START) (hge : ge.type = BLOCK_NODE_END)
    (hmore : ∀ s ∈ more, s.1.type = BLOCK_PAR_START ∧ s.2.2.type = BLOCK_PAR_END ∧
      ∀ b ∈ s.2.1, isDelimiter b = false) :
    evaluateSeries (pre ++ gs :: (b1 ++ (branchSections more ++ ge :: post))) =
      ⟨knownSum pre + parallelValue (knownSum b1 :: more.map (fun s => knownSum s.2.1)) +
          knownSum post, [],
        !more.isEmpty && decide (BRANCH_CAPACITY < 1 + more.length)⟩ := by
  have hgroup : evaluateParallelGroup (b1 ++ (branchSections more ++ ge :: post)) =
      ⟨parallelValue (knownSum b1 :: more.map (fun s => knownSum s.2.1)), post,
        !more.isEmpty && decide (BRANCH_CAPACITY < 1 + more.length)⟩ := by
    rw [evaluateParallelGroup_eq]
    have hser : evaluateSeries (b1 ++ (branchSections more ++ ge :: post)) =
        ⟨knownSum b1, branchSections more ++ ge :: post, false⟩ := by
      unfold evaluateSeries
      rw [evaluateSeriesLoop_append _ hb1, evaluateSeriesLoop_sections _ _ _ _ _ hmore hge,
        zero_add]
    rw [hser]
    simp only
    rw [branchLoop_sections more ge post hmore hge]
    simp
  have hk : isKnownRes gs = false := by simp [isKnownRes, isRes, hgs]
  unfold evaluateSeries
  rw [evaluateSeriesLoop_append _ hpre, evaluateSeriesLoop_cons]
  simp only [hk, hgs, hgroup, if_true, Bool.false_eq_true, if_false, Bool.false_or]
  have hnil := evaluateSeriesLoop_append post hpost
    (0 + knownSum pre + parallelValue (knownSum b1 :: more.map (fun s => knownSum s.2.1)))
    (!more.isEmpty && decide (BRANCH_CAPACITY < 1 + more.length)) []
  rw [List.append_nil] at hnil
  rw [hnil, evaluateSeriesLoop_nil, zero_add]

/-! ### C1, C2: the evaluator on the supported shapes -/

/-- C1: on a sequence `pre ++ [groupStart] ++ b_1 ++ sections ++ [groupEnd] ++ post`
whose later branches `b_2 .. b_n` each stand between a branch start and a
branch end, with `n ≤ 10` branches and no delimiter inside `pre`, the `b_i`
and `post`, `calculate_total_resistance_new` returns the known sum of `pre`
plus the parallel law of the branch sums plus the known sum of `post`; the
cursor reaches the end and no store leaves the branch table. -/
theorem calculate_total_resistance_new_parallel_group
    (pre b1 post : List Block) (gs ge : Block) (more : List (Block × List Block × Block))
    (hpre : ∀ b ∈ pre, isDelimiter b = false)
    (hb1 : ∀ b ∈ b1, isDelimiter b = false)
    (hpost : ∀ b ∈ post, isDelimiter b = false)
    (hgs : gs.type = BLOCK_NODE_START) (hge : ge.type = BLOCK_NODE_END)
    (hmore : ∀ s ∈ more, s.1.type = BLOCK_PAR_START ∧ s.2.2.type = BLOCK_PAR_END ∧
      ∀ b ∈ s.2.1, isDelimiter b = false)
    (hn : 1 + more.length ≤ 10) :
    calculate_total_resistance_new
        (pre ++ [gs] ++ b1 ++ branchSections more ++ [ge] ++ post) =
      knownSum pre + parallelLaw (knownSum b1 :: more.map (fun s => knownSum s.2.1)) +
        knownSum post ∧
    (evaluateSeries (pre ++ [gs] ++ b1 ++ branchSections more ++ [ge] ++ post)).rest = [] ∧
    (evaluateSeries (pre ++ [gs] ++ b1 ++ branchSections more ++ [ge] ++ post)).overflow
      = false := by
  have hshape : pre ++ [gs] ++ b1 ++ branchSections more ++ [ge] ++ post =
      pre ++ gs :: (b1 ++ (branchSections more ++ ge :: post)) := by
    simp [List.append_assoc]
  have h := evaluateSeries_group pre b1 post gs ge more hpre hb1 hpost hgs hge hmore
  have hcap : (!more.isEmpty && decide (BRANCH_CAPACITY < 1 + more.length)) = false := by
    have : ¬ (BRANCH_CAPACITY < 1 + more.length) := by
      simp only [BRANCH_CAPACITY]
      omega
    simp [this]
  unfold calculate_total_resistance_new
  rw [hshape, h, parallelValue_eq_parallelLaw]
  exact ⟨rfl, rfl, hcap⟩

/-- C1, the documented example: the sequence parsed from `+10*20||20=*-` is a
10-ohm lead before a group of two 20-ohm branches and evaluates to 20. -/
theorem calculate_total_resistance_new_parallel_group_witness :
    calculate_total_resistance_new (parse_circuit "+10*20||20=*-".toList) = 20 := by
  have hparse : parse_circuit "+10*20||20=*-".toList =
      [⟨BLOCK_UP_RES_PIPE, 0, 0, false, 10⟩] ++ [⟨BLOCK_NODE_START, 0, 1, false, 0⟩] ++
        [⟨BLOCK_UP_RES_PIPE, 0, 2, false, 20⟩] ++
        branchSections [(⟨BLOCK_PAR_START, -1, 3, false, 0⟩,
          [⟨BLOCK_UP_RES_PIPE, -1, 4, false, 20⟩], ⟨BLOCK_PAR_END, -1, 5, false, 0⟩)] ++
        [⟨BLOCK_NODE_END, 0, 6, false, 0⟩] ++ [⟨BLOCK_NODE_BEND, 0, 7, false, 0⟩] := by
    simp [parse_circuit, parseLoop, add_block, scanNumber, isNumberChar, wcstod, digitsValue,
      branchSections]
  have h := calculate_total_resistance_new_parallel_group
    [⟨BLOCK_UP_RES_PIPE, 0, 0, false, 10⟩] [⟨BLOCK_UP_RES_PIPE, 0, 2, false, 20⟩]
    [⟨BLOCK_NODE_BEND, 0, 7, false, 0⟩]
    ⟨BLOCK_NODE_START, 0, 1, false, 0⟩ ⟨BLOCK_NODE_END, 0, 6, false, 0⟩
    [(⟨BLOCK_PAR_START, -1, 3, false, 0⟩,
      [⟨BLOCK_UP_RES_PIPE, -1, 4, false, 20⟩], ⟨BLOCK_PAR_END, -1, 5, false, 0⟩)]
    (by simp [isDelimiter]) (by simp [isDelimiter]) (by simp [isDelimiter]) rfl rfl
    (by simp [isDelimiter]) (by simp)
  rw [hparse, h.1]
  simp [knownSum, parallelLaw, harmonicSum, isKnownRes, isRes]
  norm_num

/-- C2: on a sequence without any group or branch delimiter,
`calculate_total_resistance_new` returns the sum of the values of the resistor
blocks that are not flagged unknown. -/
theorem calculate_total_resistance_new_series (xs : List Block)
    (hxs : ∀ b ∈ xs, isDelimiter b = false) :
    calculate_total_resistance_new xs = knownSum xs := by
  have h := evaluateSeriesLoop_append xs hxs 0 false []
  rw [List.append_nil] at h
  unfold calculate_total_resistance_new evaluateSeries
  rw [h, evaluateSeriesLoop_nil, zero_add]

/-- C2, the documented example: `+10_20-` parses to a sequence without
delimiters and evaluates to 30. -/
theorem calculate_total_resistance_new_series_witness :
    calculate_total_resistance_new (parse_circuit "+10_20-".toList) = 30 := by
  have hparse : parse_circuit "+10_20-".toList =
      [⟨BLOCK_UP_RES_PIPE, 0, 0, false, 10⟩, ⟨BLOCK_CONN, 0, 1, false, 0⟩,
        ⟨BLOCK_RES, 0, 2, false, 20⟩, ⟨BLOCK_NODE_BEND, 0, 3, false, 0⟩] := by
    simp [parse_circuit, parseLoop, add_block, scanNumber, isNumberChar, wcstod, digitsValue]
  rw [hparse, calculate_total_resistance_new_series _ (by simp [isDelimiter])]
  simp [knownSum, isKnownRes, isRes]
  norm_num

/-! ### C5: the two modes of the solver on finite numbers -/

/-- The parallel-group pass reports the solution of the header comment under
its three checks, and nothing otherwise. -/
theorem solveStep_true_reported (S0 S3 Su Sk Req_known Req_measured : ℚ) :
    (solveStep true S0 S3 Su Sk Req_known Req_measured).reportedRx =
      (if 0 < Req_measured ∧ 0 < Req_measured - (S0 + S3) ∧ Req_measured - (S0 + S3) < Sk ∧
          0 < ((Req_measured - (S0 + S3)) * Sk) / (Sk - (Req_measured - (S0 + S3))) - Su
        then some (((Req_measured - (S0 + S3)) * Sk) / (Sk - (Req_measured - (S0 + S3))) - Su)
        else none) := by
  unfold solveStep
  by_cases h1 : Req_measured ≤ 0
  · have h1n : ¬ 0 < Req_measured := not_lt.mpr h1
    simp [h1, h1n, StepResult.reportedRx]
  · have h1p : 0 < Req_measured := not_le.mp h1
    by_cases h2 : Sk ≤ Req_measured - (S0 + S3) ∨ Req_measured - (S0 + S3) ≤ 0
    · have h2n : ¬ (0 < Req_measured - (S0 + S3) ∧ Req_measured - (S0 + S3) < Sk ∧
          0 < ((Req_measured - (S0 + S3)) * Sk) / (Sk - (Req_measured - (S0 + S3))) - Su) := by
        rintro ⟨ha, hb, _⟩
        rcases h2 with h | h
        · exact absurd hb (not_lt.mpr h)
        · exact absurd ha (not_lt.mpr h)
      simp only [h1, if_false, if_true, h2, h1p, true_and, h2n, StepResult.reportedRx]
    · have h2a : 0 < Req_measured - (S0 + S3) := not_le.mp (fun h => h2 (Or.inr h))
      have h2b : Req_measured - (S0 + S3) < Sk := not_le.mp (fun h => h2 (Or.inl h))
      by_cases h3 : ((Req_measured - (S0 + S3)) * Sk) / (Sk - (Req_measured - (S0 + S3))) - Su ≤ 0
      · have h3n : ¬ 0 <
            ((Req_measured - (S0 + S3)) * Sk) / (Sk - (Req_measured - (S0 + S3))) - Su :=
          not_lt.mpr h3
        simp only [h1, if_false, if_true, h2, h3, h1p, h2a, h2b, h3n, true_and, and_false,
          StepResult.reportedRx]
      · have h3p : 0 <
            ((Req_measured - (S0 + S3)) * Sk) / (Sk - (Req_measured - (S0 + S3))) - Su :=
          not_le.mp h3
        simp only [h1, if_false, if_true, h2, h3, h1p, h2a, h2b, h3p, true_and, and_self,
          StepResult.reportedRx]

/-- C5: when the parallel-group pass reports `Rx`, the branch resistance
`Su + Rx` is positive and the reported value solves the equation of the
header comment: `S0 + ((Su + Rx)*Sk)/(Su + Rx + Sk) + S3 = Req_measured`, and
equally `1/(Req_measured - S0 - S3) = 1/(Su + Rx) + 1/Sk`. -/
theorem solveStep_parallel_inverts (S0 S3 Su Sk Req_known Req_measured Rx : ℚ)
    (h : solveStep true S0 S3 Su Sk Req_known Req_measured = StepResult.solved Rx) :
    0 < Su + Rx ∧
    S0 + ((Su + Rx) * Sk) / (Su + Rx + Sk) + S3 = Req_measured ∧
    1 / (Req_measured - S0 - S3) = 1 / (Su + Rx) + 1 / Sk := by
  have hr := solveStep_true_reported S0 S3 Su Sk Req_known Req_measured
  rw [h] at hr
  simp only [StepResult.reportedRx] at hr
  split_ifs at hr with hc
  obtain ⟨_, hR, hlt, _⟩ := hc
  have hRx : Rx = ((Req_measured - (S0 + S3)) * Sk) / (Sk - (Req_measured - (S0 + S3))) - Su :=
    Option.some.inj hr
  have hSk : 0 < Sk := lt_trans hR hlt
  have hd : 0 < Sk - (Req_measured - (S0 + S3)) := sub_pos.mpr hlt
  have hY : Su + Rx = ((Req_measured - (S0 + S3)) * Sk) / (Sk - (Req_measured - (S0 + S3))) := by
    rw [hRx]
    ring
  have hYpos : 0 < Su + Rx := by
    rw [hY]
    exact div_pos (mul_pos hR hSk) hd
  have hsum : 0 < Su + Rx + Sk := add_pos hYpos hSk
  have hpar : ((Su + Rx) * Sk) / (Su + Rx + Sk) = Req_measured - (S0 + S3) := by
    rw [div_eq_iff (ne_of_gt hsum), hY]
    field_simp
    ring
  refine ⟨hYpos, ?_, ?_⟩
  · rw [hpar]
    ring
  · have hR2 : Req_measured - S0 - S3 = Req_measured - (S0 + S3) := by ring
    rw [hR2, hY]
    field_simp
    ring

/-- C5 at the documented example: the pass with `Sk = 20` and
`Req_measured = 10` reports 20, and 20 in parallel with 20 is 10. -/
theorem solveStep_parallel_inverts_witness :
    (0 : ℚ) < 0 + 20 ∧ (0 : ℚ) + ((0 + 20) * 20) / (0 + 20 + 20) + 0 = 10 ∧
      (1 : ℚ) / (10 - 0 - 0) = 1 / (0 + 20) + 1 / 20 :=
  solveStep_parallel_inverts 0 0 0 20 0 10 20 (by
    unfold solveStep
    norm_num)

/-! ### Lemmas on the structure extractor -/

theorem hasUnknown_cons (b : Block) (xs : List Block) :
    hasUnknown (b :: xs) = (isUnknownRes b || hasUnknown xs) := by
  simp [hasUnknown]

theorem isDelimiter_false (b : Block) (h : isDelimiter b = false) :
    b.type ≠ BLOCK_NODE_START ∧ b.type ≠ BLOCK_NODE_END ∧
      b.type ≠ BLOCK_PAR_START ∧ b.type ≠ BLOCK_PAR_END := by
  simp only [isDelimiter, Bool.or_eq_false_iff, beq_eq_false_iff_ne, ne_eq] at h
  exact ⟨h.1.1.1, h.1.1.2, h.1.2, h.2⟩

/-- The first loop runs through a stretch without group start. -/
theorem scanS0_append (pre : List Block) (hpre : ∀ b ∈ pre, b.type ≠ BLOCK_NODE_START)
    (S0 : ℚ) (rest : List Block) :
    scanS0 S0 (pre ++ rest) = scanS0 (S0 + knownSum pre) rest := by
  induction pre generalizing S0 with
  | nil => simp [knownSum_nil]
  | cons b pre ih =>
    have hb := hpre b (List.mem_cons_self _ _)
    have hpre1 : ∀ c ∈ pre, c.type ≠ BLOCK_NODE_START :=
      fun c hc => hpre c (List.mem_cons_of_mem _ hc)
    rw [List.cons_append, scanS0, if_pos hb, ih hpre1, knownSum_cons]
    by_cases hk : isKnownRes b = true
    · simp only [hk, if_true, add_assoc]
    · simp only [hk, if_false, Bool.false_eq_true, zero_add]

/-- One pass of the branch loops: a resistor either raises the flag or adds
its value. -/
theorem branch_step (b : Block) (acc : ℚ) :
    (if isRes b = true then (if b.is_unknown = true then acc else acc + b.value) else acc) =
      acc + (if isKnownRes b = true then b.value else 0) := by
  by_cases hr : isRes b = true <;> by_cases hu : b.is_unknown = true <;>
    simp [isKnownRes, hr, hu]

/-- The second loop runs through a stretch without branch start and group end. -/
theorem scanBranch1_append (xs : List Block)
    (hxs : ∀ b ∈ xs, b.type ≠ BLOCK_PAR_START ∧ b.type ≠ BLOCK_NODE_END)
    (acc : ℚ) (u : Bool) (rest : List Block) :
    scanBranch1 acc u (xs ++ rest) = scanBranch1 (acc + knownSum xs) (u || hasUnknown xs) rest := by
  induction xs generalizing acc u with
  | nil => simp [knownSum_nil, hasUnknown]
  | cons b xs ih =>
    have hb := hxs b (List.mem_cons_self _ _)
    have hxs1 : ∀ c ∈ xs, c.type ≠ BLOCK_PAR_START ∧ c.type ≠ BLOCK_NODE_END :=
      fun c hc => hxs c (List.mem_cons_of_mem _ hc)
    rw [List.cons_append, scanBranch1, if_pos hb, knownSum_cons, hasUnknown_cons]
    by_cases hr : isRes b = true <;> by_cases hu : b.is_unknown = true <;>
      simp [isKnownRes, isUnknownRes, hr, hu, ih hxs1, add_assoc]

/-- The third loop runs through a stretch without group end and branch end. -/
theorem scanBranch2_append (xs : List Block)
    (hxs : ∀ b ∈ xs, b.type ≠ BLOCK_NODE_END ∧ b.type ≠ BLOCK_PAR_END)
    (acc : ℚ) (u : Bool) (rest : List Block) :
    scanBranch2 acc u (xs ++ rest) = scanBranch2 (acc + knownSum xs) (u || hasUnknown xs) rest := by
  induction xs generalizing acc u with
  | nil => simp [knownSum_nil, hasUnknown]
  | cons b xs ih =>
    have hb := hxs b (List.mem_cons_self _ _)
    have hxs1 : ∀ c ∈ xs, c.type ≠ BLOCK_NODE_END ∧ c.type ≠ BLOCK_PAR_END :=
      fun c hc => hxs c (List.mem_cons_of_mem _ hc)
    rw [List.cons_append, scanBranch2, if_pos hb, knownSum_cons, hasUnknown_cons]
    by_cases hr : isRes b = true <;> by_cases hu : b.is_unknown = true <;>
      simp [isKnownRes, isUnknownRes, hr, hu, ih hxs1, add_assoc]

/-- The last loop adds up every known resistor that is left. -/
theorem scanS3_eq (xs : List Block) (S3 : ℚ) : scanS3 S3 xs = S3 + knownSum xs := by
  induction xs generalizing S3 with
  | nil => simp [scanS3, knownSum_nil]
  | cons b xs ih =>
    rw [scanS3, ih, knownSum_cons]
    by_cases hk : isKnownRes b = true
    · simp only [hk, if_true, add_assoc]
    · simp only [hk, if_false, Bool.false_eq_true, zero_add]

/-! ### C6: the supported two-branch shape -/

/-- C6: on `pre ++ [groupStart] ++ b1 ++ [branchStart] ++ b2 ++
[branchEnd, groupEnd] ++ post` with no delimiter inside the four stretches and
an unknown resistor in exactly one of `b1`, `b2`, the extractor reports a
match; `S0` and `S3` are the known sums of `pre` and `post`, `Su` is the known
sum of the branch holding the unknown and `Sk` that of the other branch. -/
theorem extract_parallel_structure_two_branches
    (pre b1 b2 post : List Block) (gs ps pe ge : Block)
    (hpre : ∀ b ∈ pre, isDelimiter b = false)
    (hb1 : ∀ b ∈ b1, isDelimiter b = false)
    (hb2 : ∀ b ∈ b2, isDelimiter b = false)
    (hgs : gs.type = BLOCK_NODE_START) (hps : ps.type = BLOCK_PAR_START)
    (hpe : pe.type = BLOCK_PAR_END) (hge : ge.type = BLOCK_NODE_END)
    (hone : hasUnknown b1 ≠ hasUnknown b2) :
    extract_parallel_structure (pre ++ [gs] ++ b1 ++ [ps] ++ b2 ++ [pe, ge] ++ post) =
      some ⟨knownSum pre, knownSum post,
        if hasUnknown b1 then knownSum b1 else knownSum b2,
        if hasUnknown b1 then knownSum b2 else knownSum b1⟩ := by
  have hshape : pre ++ [gs] ++ b1 ++ [ps] ++ b2 ++ [pe, ge] ++ post =
      pre ++ gs :: (b1 ++ ps :: (b2 ++ pe :: ge :: post)) := by
    simp [List.append_assoc]
  have h0 : scanS0 0 (pre ++ gs :: (b1 ++ ps :: (b2 ++ pe :: ge :: post))) =
      (knownSum pre, gs :: (b1 ++ ps :: (b2 ++ pe :: ge :: post))) := by
    rw [scanS0_append pre (fun b hb => (isDelimiter_false b (hpre b hb)).1), scanS0]
    simp [hgs]
  have h1 : scanBranch1 0 false (b1 ++ ps :: (b2 ++ pe :: ge :: post)) =
      (knownSum b1, hasUnknown b1, ps :: (b2 ++ pe :: ge :: post)) := by
    rw [scanBranch1_append b1 (fun b hb =>
      ⟨(isDelimiter_false b (hb1 b hb)).2.2.1, (isDelimiter_false b (hb1 b hb)).2.1⟩), scanBranch1]
    simp [hps]
  have h2 : scanBranch2 0 false (b2 ++ pe :: ge :: post) =
      (knownSum b2, hasUnknown b2, pe :: ge :: post) := by
    rw [scanBranch2_append b2 (fun b hb =>
      ⟨(isDelimiter_false b (hb2 b hb)).2.1, (isDelimiter_false b (hb2 b hb)).2.2.2⟩), scanBranch2]
    simp [hpe]
  have h3 : secondBranch (ps :: (b2 ++ pe :: ge :: post)) =
      (knownSum b2, hasUnknown b2, ge :: post) := by
    simp [secondBranch, hps, h2, skipIf, hpe]
  rw [hshape]
  unfold extract_parallel_structure
  simp only [h0, h1, h3, skipIf, hge, if_true, scanS3_eq, zero_add]
  cases hu1 : hasUnknown b1 <;> cases hu2 : hasUnknown b2 <;> simp_all

/-- C6 on the sequence parsed from `+5*x_||30=*7-`: the unknown is alone in
the first branch, and the sums are `S0 = 5`, `S3 = 7`, `Su = 0`, `Sk = 30`. -/
theorem extract_parallel_structure_two_branches_witness :
    extract_parallel_structure (parse_circuit "+5*x_||30=*7-".toList) =
      some ⟨5, 7, 0, 30⟩ := by
  have hparse : parse_circuit "+5*x_||30=*7-".toList =
      [⟨BLOCK_UP_RES_PIPE, 0, 0, false, 5⟩] ++ [⟨BLOCK_NODE_START, 0, 1, false, 0⟩] ++
        [⟨BLOCK_UP_RES_PIPE, 0, 2, true, -1⟩] ++ [⟨BLOCK_PAR_START, -1, 3, false, 0⟩] ++
        [⟨BLOCK_UP_RES_PIPE, -1, 4, false, 30⟩] ++
        [⟨BLOCK_PAR_END, -1, 5, false, 0⟩, ⟨BLOCK_NODE_END, 0, 6, false, 0⟩] ++
        [⟨BLOCK_RES, 0, 7, false, 7⟩, ⟨BLOCK_NODE_BEND, 0, 8, false, 0⟩] := by
    simp [parse_circuit, parseLoop, add_block, scanNumber, isNumberChar, wcstod, digitsValue]
  rw [hparse, extract_parallel_structure_two_branches _ _ _ _ _ _ _ _
    (by simp [isDelimiter]) (by simp [isDelimiter]) (by simp [isDelimiter]) rfl rfl rfl rfl
    (by simp [hasUnknown, isUnknownRes, isRes])]
  simp [knownSum, hasUnknown, isKnownRes, isUnknownRes, isRes]

/-! ### C7: sequences that do not match -/

theorem noUnknownBeforeEnd_of_hasUnknown (xs : List Block) (h : hasUnknown xs = false) :
    noUnknownBeforeEnd xs = true := by
  induction xs with
  | nil => rfl
  | cons b xs ih =>
    rw [hasUnknown_cons, Bool.or_eq_false_iff] at h
    unfold noUnknownBeforeEnd
    split_ifs
    · rfl
    · simp [h.1, ih h.2]

theorem hasUnknown_append (xs ys : List Block) :
    hasUnknown (xs ++ ys) = (hasUnknown xs || hasUnknown ys) := by
  simp [hasUnknown]

theorem noUnknownBeforeEnd_append (g : List Block) (ge : Block) (tail : List Block)
    (hg : hasUnknown g = false) (hge : ge.type = BLOCK_NODE_END) :
    noUnknownBeforeEnd (g ++ ge :: tail) = true := by
  induction g with
  | nil => simp [noUnknownBeforeEnd, hge]
  | cons b g ih =>
    rw [hasUnknown_cons, Bool.or_eq_false_iff] at hg
    rw [List.cons_append]
    unfold noUnknownBeforeEnd
    split_ifs
    · rfl
    · simp [hg.1, ih hg.2]

/-- The scan of the first branch stops at the first group end at the latest,
so it sees no unknown when none stands before that group end. -/
theorem scanBranch1_clear (xs : List Block) (h : noUnknownBeforeEnd xs = true)
    (acc : ℚ) (u : Bool) :
    (scanBranch1 acc u xs).2.1 = u ∧ noUnknownBeforeEnd (scanBranch1 acc u xs).2.2 = true := by
  induction xs generalizing acc u with
  | nil => simp [scanBranch1, noUnknownBeforeEnd]
  | cons b xs ih =>
    unfold scanBranch1
    by_cases hb : b.type ≠ BLOCK_PAR_START ∧ b.type ≠ BLOCK_NODE_END
    · rw [if_pos hb]
      unfold noUnknownBeforeEnd at h
      rw [if_neg hb.2, Bool.and_eq_true, Bool.not_eq_true'] at h
      by_cases hr : isRes b = true
      · have hu : b.is_unknown = false := by
          have := h.1
          simpa [isUnknownRes, hr] using this
        simp only [hr, hu, if_true, Bool.false_eq_true, if_false]
        exact ih h.2 _ _
      · simp only [hr, Bool.false_eq_true, if_false]
        exact ih h.2 _ _
    · rw [if_neg hb]
      exact ⟨rfl, h⟩

/-- The scan of the second branch likewise. -/
theorem scanBranch2_clear (xs : List Block) (h : noUnknownBeforeEnd xs = true)
    (acc : ℚ) (u : Bool) :
    (scanBranch2 acc u xs).2.1 = u := by
  induction xs generalizing acc u with
  | nil => simp [scanBranch2]
  | cons b xs ih =>
    unfold scanBranch2
    by_cases hb : b.type ≠ BLOCK_NODE_END ∧ b.type ≠ BLOCK_PAR_END
    · rw [if_pos hb]
      unfold noUnknownBeforeEnd at h
      rw [if_neg hb.1, Bool.and_eq_true, Bool.not_eq_true'] at h
      by_cases hr : isRes b = true
      · have hu : b.is_unknown = false := by
          have := h.1
          simpa [isUnknownRes, hr] using this
        simp only [hr, hu, if_true, Bool.false_eq_true, if_false]
        exact ih h.2 _ _
      · simp only [hr, Bool.false_eq_true, if_false]
        exact ih h.2 _ _
    · rw [if_neg hb]

theorem secondBranch_clear (xs : List Block) (h : noUnknownBeforeEnd xs = true) :
    (secondBranch xs).2.1 = false := by
  cases xs with
  | nil => rfl
  | cons b xs =>
    by_cases hb : b.type = BLOCK_PAR_START
    · unfold noUnknownBeforeEnd at h
      have hne : b.type ≠ BLOCK_NODE_END := by simp [hb]
      rw [if_neg hne, Bool.and_eq_true] at h
      simp only [secondBranch, if_pos hb]
      exact scanBranch2_clear xs h.2 0 false
    · simp only [secondBranch, if_neg hb]

/-- Without a group start the first loop runs to the end of the list. -/
theorem scanS0_noStart (xs : List Block) (h : ∀ b ∈ xs, b.type ≠ BLOCK_NODE_START) (S0 : ℚ) :
    (scanS0 S0 xs).2 = [] := by
  have := scanS0_append xs h S0 []
  rw [List.append_nil] at this
  rw [this, scanS0]

/-- No group start, no match. -/
theorem extract_none_of_noStart (xs : List Block) (h : ∀ b ∈ xs, b.type ≠ BLOCK_NODE_START) :
    extract_parallel_structure xs = none := by
  unfold extract_parallel_structure
  simp only [scanS0_noStart xs h 0]

/-- No unknown between the first group start and the next group end, no match. -/
theorem extract_none_of_clear (p0 : List Block) (gs : Block) (cur : List Block)
    (hp0 : ∀ b ∈ p0, b.type ≠ BLOCK_NODE_START) (hgs : gs.type = BLOCK_NODE_START)
    (hclear : noUnknownBeforeEnd cur = true) :
    extract_parallel_structure (p0 ++ gs :: cur) = none := by
  have h0 : scanS0 0 (p0 ++ gs :: cur) = (0 + knownSum p0, gs :: cur) := by
    rw [scanS0_append p0 hp0, scanS0]
    simp [hgs]
  have h1 := scanBranch1_clear cur hclear 0 false
  have h2 := secondBranch_clear _ h1.2
  unfold extract_parallel_structure
  simp only [h0, h1.1, h2]
  simp

/-- A list either has no group start or splits at its first one. -/
theorem split_first_start (xs : List Block) :
    (∀ b ∈ xs, b.type ≠ BLOCK_NODE_START) ∨
      ∃ p0 gs cur, xs = p0 ++ gs :: cur ∧ (∀ b ∈ p0, b.type ≠ BLOCK_NODE_START) ∧
        gs.type = BLOCK_NODE_START := by
  induction xs with
  | nil => exact Or.inl (fun b hb => absurd hb (List.not_mem_nil b))
  | cons x xs ih =>
    by_cases hx : x.type = BLOCK_NODE_START
    · exact Or.inr ⟨[], x, xs, rfl, fun b hb => absurd hb (List.not_mem_nil b), hx⟩
    · rcases ih with h | ⟨p0, gs, cur, hsplit, hp0, hgs⟩
      · left
        intro b hb
        rcases List.mem_cons.mp hb with h1 | h1
        · rw [h1]
          exact hx
        · exact h b h1
      · right
        refine ⟨x :: p0, gs, cur, by rw [hsplit, List.cons_append], ?_, hgs⟩
        intro b hb
        rcases List.mem_cons.mp hb with h1 | h1
        · rw [h1]
          exact hx
        · exact hp0 b h1

theorem isUnknownRes_type (u : Block) (hu : isUnknownRes u = true) :
    u.type ≠ BLOCK_NODE_START := by
  simp only [isUnknownRes, isRes, Bool.and_eq_true, Bool.or_eq_true, beq_iff_eq] at hu
  rcases hu.1 with h | h <;> simp [h]

/-- The loop of `count_unknowns` adds the number of unknown resistors. -/
theorem countLoop_eq (xs : List Block) (count : Nat) :
    countLoop count xs = count + xs.countP isUnknownRes := by
  induction xs generalizing count with
  | nil => simp [countLoop]
  | cons b xs ih =>
    rw [countLoop, ih]
    by_cases hb : isUnknownRes b = true
    · simp only [hb, if_true, List.countP_cons_of_pos]
      omega
    · simp only [hb, if_false, Bool.false_eq_true]
      rw [List.countP_cons_of_neg _ _ hb]

theorem count_unknowns_eq (xs : List Block) :
    count_unknowns xs = xs.countP isUnknownRes := by
  unfold count_unknowns
  rw [countLoop_eq, Nat.zero_add]

theorem countP_of_hasUnknown (xs : List Block) (h : hasUnknown xs = false) :
    xs.countP isUnknownRes = 0 := by
  rw [List.countP_eq_zero]
  intro b hb hu
  have : hasUnknown xs = true := by
    unfold hasUnknown
    exact List.any_eq_true.mpr ⟨b, hb, hu⟩
  rw [h] at this
  exact Bool.false_ne_true this

/-- With one unknown and no match, `main` runs the series session. -/
theorem mainSolve_series (head : List Block) (inputs : List ℚ)
    (hcount : count_unknowns head = 1) (hex : extract_parallel_structure head = none) :
    mainSolve head inputs = seriesSession (calculate_total_resistance_new head) inputs := by
  unfold mainSolve seriesSession
  simp [hcount, hex]

/-- C7: `extract_parallel_structure` reports no match for every sequence
without a group start, and for every sequence whose one unknown resistor
stands before the first group start, or after the first group end that
follows the first group start; with one unknown and no match, `main` runs the
series session. -/
theorem extract_parallel_structure_no_match (head : List Block) (inputs : List ℚ) :
    ((∀ b ∈ head, b.type ≠ BLOCK_NODE_START) →
      extract_parallel_structure head = none ∧
      (count_unknowns head = 1 →
        mainSolve head inputs = seriesSession (calculate_total_resistance_new head) inputs)) ∧
    (∀ (pre : List Block) (u : Block) (post : List Block),
      head = pre ++ u :: post → isUnknownRes u = true →
      hasUnknown pre = false → hasUnknown post = false →
      ((∀ b ∈ pre, b.type ≠ BLOCK_NODE_START) ∨
        ∃ (p0 : List Block) (gs : Block) (g : List Block) (ge : Block) (q : List Block),
          pre = p0 ++ gs :: (g ++ ge :: q) ∧ (∀ b ∈ p0, b.type ≠ BLOCK_NODE_START) ∧
          gs.type = BLOCK_NODE_START ∧ (∀ b ∈ g, b.type ≠ BLOCK_NODE_END) ∧
          ge.type = BLOCK_NODE_END) →
      extract_parallel_structure head = none ∧ count_unknowns head = 1 ∧
      mainSolve head inputs = seriesSession (calculate_total_resistance_new head) inputs) := by
  constructor
  · intro hno
    have hex := extract_none_of_noStart head hno
    exact ⟨hex, fun hcount => mainSolve_series head inputs hcount hex⟩
  · intro pre u post hhead hu hpre hpost hpos
    have hcount : count_unknowns head = 1 := by
      rw [hhead, count_unknowns_eq, List.countP_append, List.countP_cons_of_pos _ _ hu,
        countP_of_hasUnknown pre hpre, countP_of_hasUnknown post hpost]
    have hex : extract_parallel_structure head = none := by
      rcases hpos with hA | ⟨p0, gs, g, ge, q, hsplit, hp0, hgs, _, hge⟩
      · rcases split_first_start post with hB | ⟨q0, gs, cur, hsplit, hq0, hgs⟩
        · apply extract_none_of_noStart
          intro b hb
          rw [hhead] at hb
          rcases List.mem_append.mp hb with h | h
          · exact hA b h
          · rcases List.mem_cons.mp h with h1 | h1
            · rw [h1]
              exact isUnknownRes_type u hu
            · exact hB b h1
        · have hshape : head = (pre ++ u :: q0) ++ gs :: cur := by
            rw [hhead, hsplit]
            simp [List.append_assoc]
          rw [hshape]
          apply extract_none_of_clear _ _ _ _ hgs
          · apply noUnknownBeforeEnd_of_hasUnknown
            rw [hsplit, hasUnknown_append, hasUnknown_cons] at hpost
            simp only [Bool.or_eq_false_iff] at hpost
            exact hpost.2.2
          · intro b hb
            rcases List.mem_append.mp hb with h | h
            · exact hA b h
            · rcases List.mem_cons.mp h with h1 | h1
              · rw [h1]
                exact isUnknownRes_type u hu
              · exact hq0 b h1
      · have hshape : head = p0 ++ gs :: (g ++ ge :: (q ++ u :: post)) := by
          rw [hhead, hsplit]
          simp [List.append_assoc]
        rw [hshape]
        apply extract_none_of_clear _ _ _ hp0 hgs
        apply noUnknownBeforeEnd_append _ _ _ _ hge
        rw [hsplit, hasUnknown_append, hasUnknown_cons, hasUnknown_append] at hpre
        simp only [Bool.or_eq_false_iff] at hpre
        exact hpre.2.2.1
    exact ⟨hex, hcount, mainSolve_series head inputs hcount hex⟩

/-- C7, the documented example: `+10_x-` parses to a sequence with
`Req_known = 10`, one unknown, and no match. -/
theorem extract_parallel_structure_no_match_witness :
    calculate_total_resistance_new (parse_circuit "+10_x-".toList) = 10 ∧
      count_unknowns (parse_circuit "+10_x-".toList) = 1 ∧
      extract_parallel_structure (parse_circuit "+10_x-".toList) = none := by
  have hparse : parse_circuit "+10_x-".toList =
      [⟨BLOCK_UP_RES_PIPE, 0, 0, false, 10⟩, ⟨BLOCK_CONN, 0, 1, false, 0⟩] ++
        ⟨BLOCK_RES, 0, 2, true, -1⟩ :: [] := by
    simp [parse_circuit, parseLoop, add_block, scanNumber, isNumberChar, wcstod, digitsValue]
  have h := (extract_parallel_structure_no_match (parse_circuit "+10_x-".toList) []).2
    [⟨BLOCK_UP_RES_PIPE, 0, 0, false, 10⟩, ⟨BLOCK_CONN, 0, 1, false, 0⟩]
    ⟨BLOCK_RES, 0, 2, true, -1⟩ [] hparse (by simp [isUnknownRes, isRes])
    (by simp [hasUnknown, isUnknownRes, isRes]) (by simp [hasUnknown])
    (Or.inl (by simp))
  refine ⟨?_, h.2.1, h.1⟩
  rw [hparse]
  simp [calculate_total_resistance_new, evaluateSeries, evaluateSeriesLoop_cons,
    evaluateSeriesLoop_nil, isKnownRes, isRes, isSeriesStop]

/-! ### C8, C9: where the code leaves the documented behaviour -/

/-- C8: on the sequence parsed from `+*30||x_=||60=*-`, a group of three
branches with the unknown in the second one, `extract_parallel_structure`
returns 1, and the 60 ohm of the third branch are in `S3`. -/
theorem extract_parallel_structure_three_branches :
    extract_parallel_structure (parse_circuit "+*30||x_=||60=*-".toList) =
      some ⟨0, 60, 0, 30⟩ := by
  have hparse : parse_circuit "+*30||x_=||60=*-".toList =
      [generatorPipe, ⟨BLOCK_NODE_START, 0, 0, false, 0⟩, ⟨BLOCK_UP_RES_PIPE, 0, 1, false, 30⟩,
        ⟨BLOCK_PAR_START, -1, 2, false, 0⟩, ⟨BLOCK_UP_RES_PIPE, -1, 3, true, -1⟩,
        ⟨BLOCK_PAR_END, -1, 4, false, 0⟩, ⟨BLOCK_PAR_START, -1, 5, false, 0⟩,
        ⟨BLOCK_UP_RES_PIPE, -1, 6, false, 60⟩, ⟨BLOCK_PAR_END, -1, 7, false, 0⟩,
        ⟨BLOCK_NODE_END, 0, 8, false, 0⟩, ⟨BLOCK_NODE_BEND, 0, 9, false, 0⟩] := by
    simp [parse_circuit, parseLoop, add_block, scanNumber, isNumberChar, wcstod, digitsValue]
  rw [hparse]
  simp [extract_parallel_structure, generatorPipe, scanS0, scanBranch1, scanBranch2, scanS3,
    secondBranch, skipIf, isKnownRes, isRes]

/-- The token `x` takes the character after it along: whatever stands there
is never tokenized. -/
theorem parseLoop_x (st : ParseState) (c : Char) (rest : List Char) :
    parseLoop st ('x' :: c :: rest) =
      add_block (if st.first then BLOCK_UP_RES_PIPE else BLOCK_RES) st true (-1) ::
        parseLoop ⟨st.depth, st.col + 1, st.nodeOpen, false⟩ rest := by
  rw [parseLoop.eq_def]
  simp

/-- C9: the program's documented example `+10_20*x||30=*-` parses to a
sequence in which the unknown resistor is followed by a `BLOCK_BEND` (the
second bar alone) and not by a `BLOCK_PAR_START`; the sequence has no branch
start at all. -/
theorem parse_circuit_documented_example :
    parse_circuit "+10_20*x||30=*-".toList =
      [⟨BLOCK_UP_RES_PIPE, 0, 0, false, 10⟩, ⟨BLOCK_CONN, 0, 1, false, 0⟩,
        ⟨BLOCK_RES, 0, 2, false, 20⟩, ⟨BLOCK_NODE_START, 0, 3, false, 0⟩,
        ⟨BLOCK_UP_RES_PIPE, 0, 4, true, -1⟩, ⟨BLOCK_BEND, 0, 5, false, 0⟩,
        ⟨BLOCK_RES, 0, 6, false, 30⟩, ⟨BLOCK_PAR_END, 0, 7, false, 0⟩,
        ⟨BLOCK_NODE_END, 0, 8, false, 0⟩, ⟨BLOCK_NODE_BEND, 0, 9, false, 0⟩] := by
  simp [parse_circuit, parseLoop, add_block, scanNumber, isNumberChar, wcstod, digitsValue]

/-! ### C10: the unknown counter -/

/-- Every block the parser loop emits is either a resistor block built at
lines 155-160 or a block of another kind with the flag off and value 0. -/
theorem parseLoop_forall (P : Block → Prop)
    (hres : ∀ (st : ParseState) (u : Bool) (v : ℚ),
      P (add_block (if st.first then BLOCK_UP_RES_PIPE else BLOCK_RES) st u v))
    (hoth : ∀ (ty : BlockType) (st : ParseState), ty ≠ BLOCK_RES → ty ≠ BLOCK_UP_RES_PIPE →
      P (add_block ty st false 0))
    (st : ParseState) (cs : List Char) : ∀ b ∈ parseLoop st cs, P b := by
  induction st, cs using parseLoop.induct with
  | case1 st =>
    intro b hb
    rw [parseLoop.eq_def] at hb
    exact absurd hb (List.not_mem_nil b)
  | case2 st cs ih =>
    intro b hb
    rw [parseLoop.eq_def] at hb
    simp only [if_true] at hb
    exact ih b hb
  | case3 st cs st1 h1 h2 ih =>
    intro b hb
    rw [parseLoop.eq_def] at hb
    simp only [h1, if_false, h2, dite_true] at hb
    rcases List.mem_cons.mp hb with h | h
    · rw [h]
      exact hres st true (-1)
    · exact ih b h
  | case4 st c cs h1 h2 st1 h3 sc ih =>
    intro b hb
    rw [parseLoop.eq_def] at hb
    dsimp only at hb
    rw [if_neg h1, dif_pos h2, dif_neg h3] at hb
    rcases List.mem_cons.mp hb with h | h
    · rw [h]
      exact hres st false _
    · exact ih b h
  | case13 st c cs h1 h2 h3 h4 h5 h6 h7 ih =>
    intro b hb
    rw [parseLoop.eq_def] at hb
    simp only [h1, if_false, h2, h3, h4, h5, h6, h7, dite_false] at hb
    exact ih b hb
  | case9 st rest1 h1 h2 h3 h4 h5 ih =>
    intro b hb
    rw [parseLoop.eq_def] at hb
    simp only [h1, if_false, h2, h3, h4, h5, dite_false, if_true] at hb
    rcases List.mem_cons.mp hb with h | h
    · rw [h]
      exact hoth _ _ (by decide) (by decide)
    · exact ih b h
  | case10 st c rest1 hc h1 h2 h3 h4 h5 ih =>
    intro b hb
    rw [parseLoop.eq_def] at hb
    simp only [h1, if_false, h2, h3, h4, h5, hc, dite_false, if_true] at hb
    rcases List.mem_cons.mp hb with h | h
    · rw [h]
      exact hoth _ _ (by decide) (by decide)
    · exact ih b h
  | _ =>
    rename_i ih
    intro b hb
    rw [parseLoop.eq_def] at hb
    simp only [*, if_false, if_true, dite_false] at hb
    rcases List.mem_cons.mp hb with h | h
    · rw [h]
      exact hoth _ _ (by decide) (by decide)
    · exact ih b h

/-- In a sequence built by `parse_circuit` only resistor blocks carry the
flag `is_unknown`. -/
theorem parse_circuit_flag_res (circuit : List Char) :
    ∀ b ∈ parse_circuit circuit, b.is_unknown = true → isRes b = true := by
  have hloop : ∀ b ∈ parseLoop ⟨0, 0, false, true⟩ circuit,
      b.is_unknown = true → isRes b = true := by
    apply parseLoop_forall
    · intro st u v _
      cases st.first <;> simp [add_block, isRes]
    · intro ty st _ _ h
      simp [add_block] at h
  intro b hb
  unfold parse_circuit at hb
  split at hb
  · exact absurd hb (List.not_mem_nil b)
  · rename_i b0 bs heq
    rw [heq] at hloop
    split_ifs at hb
    · rcases List.mem_cons.mp hb with h | h
      · rw [h]
        intro hflag
        simp [generatorPipe] at hflag
      · exact hloop b h
    · exact hloop b hb

/-- Where only resistor blocks carry the flag, the unknown resistors are the
flagged blocks. -/
theorem countP_flag (head : List Block)
    (hwf : ∀ b ∈ head, b.is_unknown = true → isRes b = true) :
    head.countP isUnknownRes = head.countP (fun b => b.is_unknown) := by
  induction head with
  | nil => rfl
  | cons b head ih =>
    have hb := hwf b (List.mem_cons_self _ _)
    have ih1 := ih (fun c hc => hwf c (List.mem_cons_of_mem _ hc))
    by_cases hu : b.is_unknown = true
    · have h1 : isUnknownRes b = true := by simp [isUnknownRes, hb hu, hu]
      rw [List.countP_cons_of_pos _ _ h1, List.countP_cons_of_pos _ _ hu, ih1]
    · have h1 : ¬ isUnknownRes b = true := by simp [isUnknownRes, hu]
      rw [List.countP_cons_of_neg _ _ h1, List.countP_cons_of_neg _ _ hu, ih1]

/-- C10: `count_unknowns` returns the number of blocks flagged `is_unknown`,
on every sequence in which only resistor blocks carry the flag and so on every
sequence `parse_circuit` builds; and when that number is 2 or more, `main`
prints the known sum and the message for several unknowns and returns 1,
whatever values are supplied: no mode message, no pass of the retry loop and
no Rx. -/
theorem count_unknowns_session :
    (∀ head : List Block, (∀ b ∈ head, b.is_unknown = true → isRes b = true) →
      count_unknowns head = head.countP (fun b => b.is_unknown)) ∧
    (∀ circuit : List Char,
      count_unknowns (parse_circuit circuit) =
        (parse_circuit circuit).countP (fun b => b.is_unknown)) ∧
    (∀ (head : List Block) (inputs : List ℚ), 2 ≤ count_unknowns head →
      mainSolve head inputs =
        ⟨[Event.reqKnown (calculate_total_resistance_new head), Event.tooManyUnknowns],
          some 1, 0⟩) := by
  refine ⟨?_, ?_, ?_⟩
  · intro head hwf
    rw [count_unknowns_eq, countP_flag head hwf]
  · intro circuit
    rw [count_unknowns_eq, countP_flag _ (parse_circuit_flag_res circuit)]
  · intro head inputs h2
    have hne : count_unknowns head ≠ 1 := by omega
    have hgt : count_unknowns head > 1 := by omega
    unfold mainSolve
    simp only [hne, if_false, hgt, if_true]

/-- C10 on the sequence parsed from `+x_x_-`: two blocks are flagged, the
count is 2, and the session ends without asking for a measured value. -/
theorem count_unknowns_session_witness :
    count_unknowns (parse_circuit "+x_x_-".toList) = 2 ∧
      mainSolve (parse_circuit "+x_x_-".toList) [35, 40, 45] =
        ⟨[Event.reqKnown 0, Event.tooManyUnknowns], some 1, 0⟩ := by
  have hparse : parse_circuit "+x_x_-".toList =
      [⟨BLOCK_UP_RES_PIPE, 0, 0, true, -1⟩, ⟨BLOCK_RES, 0, 1, true, -1⟩,
        ⟨BLOCK_NODE_BEND, 0, 2, false, 0⟩] := by
    simp [parse_circuit, parseLoop, add_block]
  have hcount : count_unknowns (parse_circuit "+x_x_-".toList) = 2 := by
    rw [hparse]
    simp [count_unknowns, countLoop, isUnknownRes, isRes]
  have hreq : calculate_total_resistance_new (parse_circuit "+x_x_-".toList) = 0 := by
    rw [hparse]
    simp [calculate_total_resistance_new, evaluateSeries, evaluateSeriesLoop_cons,
      evaluateSeriesLoop_nil, isKnownRes, isRes, isSeriesStop]
  refine ⟨hcount, ?_⟩
  rw [count_unknowns_session.2.2 (parse_circuit "+x_x_-".toList) [35, 40, 45]
    (by rw [hcount]), hreq]

/-! ### C11: the format check -/

theorem isDigit_ne_point (c : Char) (h : c.isDigit = true) : c ≠ '.' := by
  rintro rfl
  exact absurd h (by decide)

theorem isDigit_ne_comma (c : Char) (h : c.isDigit = true) : c ≠ ',' := by
  rintro rfl
  exact absurd h (by decide)

/-- The scan stops in front of a character that is no digit, point or comma. -/
theorem scanNumber_stop (number : List Char) (has_decimal : Bool) (rest : List Char)
    (hrest : ∀ d ∈ rest.head?, isNumberChar d = false) :
    scanNumber number has_decimal rest = (number, rest) := by
  cases rest with
  | nil => rfl
  | cons d r =>
    have hd : isNumberChar d = false := hrest d (by simp)
    simp [scanNumber, hd]

/-- After the first separator the scan keeps the digits and drops every
further separator. -/
theorem scanNumber_after_point (tok : List Char) (htok : ∀ d ∈ tok, isNumberChar d = true)
    (rest : List Char) (hrest : ∀ d ∈ rest.head?, isNumberChar d = false)
    (number : List Char) :
    scanNumber number true (tok ++ rest) = (number ++ tok.filter Char.isDigit, rest) := by
  induction tok generalizing number with
  | nil => simpa using scanNumber_stop number true rest hrest
  | cons d t ih =>
    have hd := htok d (List.mem_cons_self _ _)
    have ht : ∀ e ∈ t, isNumberChar e = true := fun e he => htok e (List.mem_cons_of_mem _ he)
    rw [List.cons_append, scanNumber, if_pos hd]
    by_cases hdig : d.isDigit = true
    · have h1 : (d == '.' || d == ',') = false := by
        simp [isDigit_ne_point d hdig, isDigit_ne_comma d hdig]
      simp only [h1, Bool.false_eq_true, if_false]
      rw [ih ht, List.filter_cons_of_pos hdig]
      simp
    · have h1 : (d == '.' || d == ',') = true := by
        simp only [isNumberChar, Bool.or_eq_true] at hd
        rcases hd with (h | h) | h
        · exact absurd h hdig
        · simp [h]
        · simp [h]
      simp only [h1, if_true, Bool.not_true, Bool.false_eq_true, if_false]
      rw [ih ht, List.filter_cons_of_neg hdig]

/-- The whole scan of a numeric token: the buffer holds `tokenBuffer`, and the
scan stops right behind the token. -/
theorem scanNumber_token (tok : List Char) (htok : ∀ d ∈ tok, isNumberChar d = true)
    (rest : List Char) (hrest : ∀ d ∈ rest.head?, isNumberChar d = false)
    (number : List Char) :
    scanNumber number false (tok ++ rest) = (number ++ tokenBuffer tok, rest) := by
  induction tok generalizing number with
  | nil => simpa [tokenBuffer] using scanNumber_stop number false rest hrest
  | cons d t ih =>
    have hd := htok d (List.mem_cons_self _ _)
    have ht : ∀ e ∈ t, isNumberChar e = true := fun e he => htok e (List.mem_cons_of_mem _ he)
    rw [List.cons_append, scanNumber, if_pos hd]
    by_cases hdig : d.isDigit = true
    · have h1 : (d == '.' || d == ',') = false := by
        simp [isDigit_ne_point d hdig, isDigit_ne_comma d hdig]
      simp only [h1, Bool.false_eq_true, if_false]
      rw [ih ht]
      simp [tokenBuffer, List.takeWhile_cons_of_pos hdig, List.dropWhile_cons_of_pos hdig]
    · have h1 : (d == '.' || d == ',') = true := by
        simp only [isNumberChar, Bool.or_eq_true] at hd
        rcases hd with (h | h) | h
        · exact absurd h hdig
        · simp [h]
        · simp [h]
      simp only [h1, if_true, Bool.not_false]
      rw [scanNumber_after_point t ht rest hrest]
      simp [tokenBuffer, List.takeWhile_cons_of_neg hdig, List.dropWhile_cons_of_neg hdig]

theorem takeWhile_isDigit_all (tok : List Char) :
    ∀ d ∈ tok.takeWhile Char.isDigit, d.isDigit = true := by
  induction tok with
  | nil => simp
  | cons c t ih =>
    by_cases hc : c.isDigit = true
    · rw [List.takeWhile_cons_of_pos hc]
      intro d hd
      rcases List.mem_cons.mp hd with h | h
      · rw [h]
        exact hc
      · exact ih d h
    · rw [List.takeWhile_cons_of_neg hc]
      simp

/-- The library call reads the buffer of a token as its `tokenValue`. -/
theorem wcstod_tokenBuffer (tok : List Char) : wcstod (tokenBuffer tok) = tokenValue tok := by
  have hne : ∀ d ∈ tok.takeWhile Char.isDigit, (d != '.') = true := by
    intro d hd
    simpa using isDigit_ne_point d (takeWhile_isDigit_all tok d hd)
  unfold wcstod tokenBuffer tokenValue
  cases hdw : tok.dropWhile Char.isDigit with
  | nil =>
    simp only [List.append_nil]
    have h1 : (tok.takeWhile Char.isDigit).takeWhile (fun c => c != '.') =
        tok.takeWhile Char.isDigit := by
      have := @List.takeWhile_append_of_pos Char _ _ [] hne
      simpa using this
    have h2 : (tok.takeWhile Char.isDigit).dropWhile (fun c => c != '.') = [] := by
      have := @List.dropWhile_append_of_pos Char _ _ [] hne
      simpa using this
    rw [h1, h2]
    simp
  | cons s t =>
    have hs : ¬ s.isDigit = true := by
      have := List.head_dropWhile_not Char.isDigit tok (by rw [hdw]; simp)
      simpa [hdw] using this
    rw [List.takeWhile_append_of_pos hne, List.dropWhile_append_of_pos hne]
    simp [List.filter_cons_of_neg hs]

/-- The parser loop on a numeric token. -/
theorem parseLoop_token (st : ParseState) (c : Char) (t rest : List Char)
    (hc : c.isDigit = true) (ht : ∀ d ∈ t, isNumberChar d = true)
    (hrest : ∀ d ∈ rest.head?, isNumberChar d = false) :
    parseLoop st (c :: t ++ rest) =
      add_block (if st.first then BLOCK_UP_RES_PIPE else BLOCK_RES) st false
          (tokenValue (c :: t)) ::
        parseLoop ⟨st.depth, st.col + 1, st.nodeOpen, false⟩ rest := by
  have h1 : c ≠ '+' := by
    rintro rfl
    exact absurd hc (by decide)
  have hx : c ≠ 'x' := by
    rintro rfl
    exact absurd hc (by decide)
  have htok : ∀ d ∈ c :: t, isNumberChar d = true := by
    intro d hd
    rcases List.mem_cons.mp hd with h | h
    · rw [h]
      simp [isNumberChar, hc]
    · exact ht d h
  have hscan := scanNumber_token (c :: t) htok rest hrest []
  rw [List.nil_append] at hscan
  rw [parseLoop.eq_def]
  dsimp only [List.cons_append]
  rw [if_neg h1, dif_pos (Or.inl hc), dif_neg hx]
  rw [List.cons_append] at hscan
  rw [hscan, wcstod_tokenBuffer]

/-- C13: the sequence parsed from a circuit whose group has eleven branches of
1 ohm is evaluated to the end: `evaluateSeries` returns the value 1/11, and
the eleventh branch sum was stored at index 10 of `branches[10]`. -/
theorem evaluateSeries_eleven_branches :
    evaluateSeries (parse_circuit "+*1||1=||1=||1=||1=||1=||1=||1=||1=||1=||1=*-".toList) =
      ⟨1 / 11, [], true⟩ := by
  have hparse : parse_circuit "+*1||1=||1=||1=||1=||1=||1=||1=||1=||1=||1=*-".toList =
      [generatorPipe] ++ ⟨BLOCK_NODE_START, 0, 0, false, 0⟩ ::
        ([⟨BLOCK_UP_RES_PIPE, 0, 1, false, 1⟩] ++
          (branchSections
            [(⟨BLOCK_PAR_START, -1, 2, false, 0⟩, [⟨BLOCK_UP_RES_PIPE, -1, 3, false, 1⟩],
                ⟨BLOCK_PAR_END, -1, 4, false, 0⟩),
              (⟨BLOCK_PAR_START, -1, 5, false, 0⟩, [⟨BLOCK_UP_RES_PIPE, -1, 6, false, 1⟩],
                ⟨BLOCK_PAR_END, -1, 7, false, 0⟩),
              (⟨BLOCK_PAR_START, -1, 8, false, 0⟩, [⟨BLOCK_UP_RES_PIPE, -1, 9, false, 1⟩],
                ⟨BLOCK_PAR_END, -1, 10, false, 0⟩),
              (⟨BLOCK_PAR_START, -1, 11, false, 0⟩, [⟨BLOCK_UP_RES_PIPE, -1, 12, false, 1⟩],
                ⟨BLOCK_PAR_END, -1, 13, false, 0⟩),
              (⟨BLOCK_PAR_START, -1, 14, false, 0⟩, [⟨BLOCK_UP_RES_PIPE, -1, 15, false, 1⟩],
                ⟨BLOCK_PAR_END, -1, 16, false, 0⟩),
              (⟨BLOCK_PAR_START, -1, 17, false, 0⟩, [⟨BLOCK_UP_RES_PIPE, -1, 18, false, 1⟩],
                ⟨BLOCK_PAR_END, -1, 19, false, 0⟩),
              (⟨BLOCK_PAR_START, -1, 20, false, 0⟩, [⟨BLOCK_UP_RES_PIPE, -1, 21, false, 1⟩],
                ⟨BLOCK_PAR_END, -1, 22, false, 0⟩),
              (⟨BLOCK_PAR_START, -1, 23, false, 0⟩, [⟨BLOCK_UP_RES_PIPE, -1, 24, false, 1⟩],
                ⟨BLOCK_PAR_END, -1, 25, false, 0⟩),
              (⟨BLOCK_PAR_START, -1, 26, false, 0⟩, [⟨BLOCK_UP_RES_PIPE, -1, 27, false, 1⟩],
                ⟨BLOCK_PAR_END, -1, 28, false, 0⟩),
              (⟨BLOCK_PAR_START, -1, 29, false, 0⟩, [⟨BLOCK_UP_RES_PIPE, -1, 30, false, 1⟩],
                ⟨BLOCK_PAR_END, -1, 31, false, 0⟩)] ++
            ⟨BLOCK_NODE_END, 0, 32, false, 0⟩ :: [⟨BLOCK_NODE_BEND, 0, 33, false, 0⟩])) := by
    simp [parse_circuit, parseLoop, add_block, scanNumber, isNumberChar, wcstod, digitsValue,
      branchSections, generatorPipe]
  rw [hparse, evaluateSeries_group _ _ _ _ _ _ (by simp [isDelimiter, generatorPipe])
    (by simp [isDelimiter]) (by simp [isDelimiter]) rfl rfl (by simp [isDelimiter])]
  simp [knownSum, isKnownRes, isRes, generatorPipe, parallelValue, invSumLoop, BRANCH_CAPACITY]
  norm_num

/-! ### The leading generator block -/

/-- C15: the sequence parsed from `+10_x-` ends with the unknown resistor:
the `x` took the closing `-` along, and no `BLOCK_NODE_BEND` was appended. -/
theorem parse_circuit_no_terminator :
    parse_circuit "+10_x-".toList =
        [⟨BLOCK_UP_RES_PIPE, 0, 0, false, 10⟩, ⟨BLOCK_CONN, 0, 1, false, 0⟩,
          ⟨BLOCK_RES, 0, 2, true, -1⟩] ∧
      (parse_circuit "+10_x-".toList).getLast? = some ⟨BLOCK_RES, 0, 2, true, -1⟩ := by
  have hparse : parse_circuit "+10_x-".toList =
      [⟨BLOCK_UP_RES_PIPE, 0, 0, false, 10⟩, ⟨BLOCK_CONN, 0, 1, false, 0⟩,
        ⟨BLOCK_RES, 0, 2, true, -1⟩] := by
    simp [parse_circuit, parseLoop, add_block, scanNumber, isNumberChar, wcstod, digitsValue]
  rw [hparse]
  exact ⟨rfl, rfl⟩

/-! ### Unfolding equations of the call sites -/

theorem seriesCalls_nil : seriesCalls [] = [] := by
  rw [seriesCalls]

theorem seriesCalls_cons (curr : Block) (next : List Block) :
    seriesCalls (curr :: next) =
      if isKnownRes curr then seriesCalls next
      else if curr.type = BLOCK_NODE_START then
        next :: seriesCalls (evaluateParallelGroup next).rest
      else if isSeriesStop curr then []
      else seriesCalls next := by
  rw [seriesCalls]

theorem branchCalls_nil : branchCalls [] = [] := by
  rw [branchCalls.eq_def]

theorem branchCalls_cons (sep : Block) (next : List Block) :
    branchCalls (sep :: next) =
      if sep.type = BLOCK_PAR_START then
        next :: (match (evaluateSeries next).rest with
          | [] => []
          | e :: after => if e.type = BLOCK_PAR_END then branchCalls after else [])
      else [] := by
  rw [branchCalls]
  split_ifs
  · congr 1
    split <;> simp_all
  · rfl

/-! ### Induction along the evaluator -/

/-- Induction along the calls of the evaluator: a property of the series loop,
one of the branch loop and one of `evaluateParallelGroup` hold everywhere when
each is preserved by every path through the code. -/
theorem evaluator_induction
    {PS : ℚ → Bool → List Block → Prop} {PB : List ℚ → Bool → List Block → Prop}
    {PG : List Block → Prop}
    (s_nil : ∀ t o, PS t o [])
    (s_known : ∀ t o curr next, isKnownRes curr = true → PS (t + curr.value) o next →
      PS t o (curr :: next))
    (s_start : ∀ t o curr next, isKnownRes curr = false → curr.type = BLOCK_NODE_START →
      PG next →
      PS (t + (evaluateParallelGroup next).value) (o || (evaluateParallelGroup next).overflow)
        (evaluateParallelGroup next).rest →
      PS t o (curr :: next))
    (s_stop : ∀ t o curr next, isKnownRes curr = false → curr.type ≠ BLOCK_NODE_START →
      isSeriesStop curr = true → PS t o (curr :: next))
    (s_skip : ∀ t o curr next, isKnownRes curr = false → curr.type ≠ BLOCK_NODE_START →
      isSeriesStop curr = false → PS t o next → PS t o (curr :: next))
    (b_nil : ∀ brs o, PB brs o [])
    (b_other : ∀ brs o sep next, sep.type ≠ BLOCK_PAR_START → PB brs o (sep :: next))
    (b_last : ∀ brs o sep next, sep.type = BLOCK_PAR_START → PS 0 false next →
      (evaluateSeries next).rest = [] → PB brs o (sep :: next))
    (b_more : ∀ brs o sep next e after, sep.type = BLOCK_PAR_START → PS 0 false next →
      (evaluateSeries next).rest = e :: after → e.type = BLOCK_PAR_END →
      PB (brs ++ [(evaluateSeries next).value])
        (o || (evaluateSeries next).overflow || decide (BRANCH_CAPACITY ≤ brs.length)) after →
      PB brs o (sep :: next))
    (b_trunc : ∀ brs o sep next e after, sep.type = BLOCK_PAR_START → PS 0 false next →
      (evaluateSeries next).rest = e :: after → e.type ≠ BLOCK_PAR_END → PB brs o (sep :: next))
    (g : ∀ p, PS 0 false p →
      PB [(evaluateSeries p).value] (evaluateSeries p).overflow (evaluateSeries p).rest → PG p) :
    (∀ t o p, PS t o p) ∧ (∀ brs o p, PB brs o p) ∧ (∀ p, PG p) := by
  have key : ∀ n : Nat, ∀ p : List Block, p.length ≤ n →
      (∀ t o, PS t o p) ∧ (∀ brs o, PB brs o p) := by
    intro n
    induction n with
    | zero =>
      intro p hp
      have hnil : p = [] := List.length_eq_zero.mp (Nat.le_zero.mp hp)
      rw [hnil]
      exact ⟨fun t o => s_nil t o, fun brs o => b_nil brs o⟩
    | succ n ih =>
      intro p hp
      cases p with
      | nil => exact ⟨fun t o => s_nil t o, fun brs o => b_nil brs o⟩
      | cons curr next =>
        have hnext : next.length ≤ n := by
          simp only [List.length_cons] at hp
          omega
        have hG : PG next :=
          g next ((ih next hnext).1 0 false)
            ((ih _ (Nat.le_trans (evaluateSeriesLoop_length 0 false next) hnext)).2 _ _)
        constructor
        · intro t o
          by_cases hk : isKnownRes curr = true
          · exact s_known t o curr next hk ((ih next hnext).1 _ _)
          · have hk1 : isKnownRes curr = false := by simpa using hk
            by_cases hs : curr.type = BLOCK_NODE_START
            · exact s_start t o curr next hk1 hs hG
                ((ih _ (Nat.le_trans (evaluateParallelGroup_length next) hnext)).1 _ _)
            · by_cases hst : isSeriesStop curr = true
              · exact s_stop t o curr next hk1 hs hst
              · have hst1 : isSeriesStop curr = false := by simpa using hst
                exact s_skip t o curr next hk1 hs hst1 ((ih next hnext).1 _ _)
        · intro brs o
          by_cases hs : curr.type = BLOCK_PAR_START
          · have hS : PS 0 false next := (ih next hnext).1 0 false
            cases hr : (evaluateSeries next).rest with
            | nil => exact b_last brs o curr next hs hS hr
            | cons e after =>
              by_cases he : e.type = BLOCK_PAR_END
              · have hlen : after.length ≤ n := by
                  have h1 := evaluateSeriesLoop_length 0 false next
                  unfold evaluateSeries at hr
                  rw [hr] at h1
                  simp only [List.length_cons] at h1
                  omega
                exact b_more brs o curr next e after hs hS hr he ((ih after hlen).2 _ _)
              · exact b_trunc brs o curr next e after hs hS hr he
          · exact b_other brs o curr next hs
  refine ⟨fun t o p => (key p.length p (Nat.le_refl _)).1 t o,
    fun brs o p => (key p.length p (Nat.le_refl _)).2 brs o, fun p => ?_⟩
  exact g p ((key p.length p (Nat.le_refl _)).1 0 false)
    ((key _ _ (Nat.le_refl _)).2 _ _)

/-- The end of `evaluateParallelGroup` leaves the cursor at a suffix. -/
theorem finishGroup_suffix (branches : List ℚ) (ovf : Bool) (p : List Block) :
    (finishGroup branches ovf p).rest <:+ p := by
  cases p with
  | nil => exact List.suffix_refl _
  | cons e after =>
    by_cases h : e.type = BLOCK_NODE_END
    · simp only [finishGroup, if_pos h]
      exact List.suffix_cons _ _
    · simp only [finishGroup, if_neg h]
      exact List.suffix_refl _

/-- Every evaluator routine leaves the cursor at a suffix of where it got it. -/
theorem evaluator_suffix :
    (∀ (t : ℚ) (o : Bool) (p : List Block), (evaluateSeriesLoop t o p).rest <:+ p) ∧
    (∀ (brs : List ℚ) (o : Bool) (p : List Block), (branchLoop brs o p).rest <:+ p) ∧
    (∀ p : List Block, (evaluateParallelGroup p).rest <:+ p) := by
  apply evaluator_induction
  · intro t o
    rw [evaluateSeriesLoop_nil]
  · intro t o curr next hk ih
    rw [evaluateSeriesLoop_cons, if_pos hk]
    exact List.IsSuffix.trans ih (List.suffix_cons _ _)
  · intro t o curr next hk hs hg ih
    rw [evaluateSeriesLoop_cons]
    simp only [hk, hs, if_true, Bool.false_eq_true, if_false]
    exact List.IsSuffix.trans (List.IsSuffix.trans ih hg) (List.suffix_cons _ _)
  · intro t o curr next hk hs hst
    rw [evaluateSeriesLoop_cons]
    simp only [hk, hs, hst, if_true, Bool.false_eq_true, if_false]
    exact List.suffix_refl _
  · intro t o curr next hk hs hst ih
    rw [evaluateSeriesLoop_cons]
    simp only [hk, hs, hst, Bool.false_eq_true, if_false]
    exact List.IsSuffix.trans ih (List.suffix_cons _ _)
  · intro brs o
    rw [branchLoop_nil]
    exact List.suffix_refl _
  · intro brs o sep next hs
    rw [branchLoop_cons, if_neg hs]
    exact finishGroup_suffix _ _ _
  · intro brs o sep next hs _ hr
    rw [branchLoop_cons, if_pos hs, hr]
    exact List.nil_suffix
  · intro brs o sep next e after hs hS hr he ih
    rw [branchLoop_cons, if_pos hs, hr]
    simp only [if_pos he]
    have h1 : e :: after <:+ next := by
      have := hS
      unfold evaluateSeries at hr
      rw [hr] at this
      exact this
    exact List.IsSuffix.trans ih
      (List.IsSuffix.trans (List.suffix_cons _ _) (List.IsSuffix.trans h1 (List.suffix_cons _ _)))
  · intro brs o sep next e after hs hS hr he
    rw [branchLoop_cons, if_pos hs, hr]
    simp only [if_neg he]
    have h1 : e :: after <:+ next := by
      have := hS
      unfold evaluateSeries at hr
      rw [hr] at this
      exact this
    have h2 : (finishGroup (brs ++ [(evaluateSeries next).value])
        (o || (evaluateSeries next).overflow || decide (BRANCH_CAPACITY ≤ brs.length))
        (e :: after)).rest <:+ e :: after := finishGroup_suffix _ _ _
    exact List.IsSuffix.trans h2 (List.IsSuffix.trans h1 (List.suffix_cons _ _))
  · intro p hS hB
    rw [evaluateParallelGroup_eq]
    exact List.IsSuffix.trans hB hS

/-! ### The toggle of the parser -/

/-- The blocks appended by the parser loop alternate between group start and
group end, starting from the state of the toggle `nodeOpen`. -/
theorem parseLoop_alternates (st : ParseState) (cs : List Char) :
    alternates st.nodeOpen (parseLoop st cs) = true := by
  induction st, cs using parseLoop.induct with
  | case1 st =>
    rw [parseLoop.eq_def]
    rfl
  | case2 st cs ih =>
    rw [parseLoop.eq_def]
    simp only [if_true]
    exact ih
  | case3 st cs st1 h1 h2 ih =>
    rw [parseLoop.eq_def]
    simp only [h1, if_false, h2, dite_true]
    cases hf : st.first <;> simpa [alternates, add_block] using ih
  | case4 st c cs h1 h2 st1 h3 sc ih =>
    rw [parseLoop.eq_def]
    dsimp only
    rw [if_neg h1, dif_pos h2, dif_neg h3]
    cases hf : st.first <;> simpa [alternates, add_block] using ih
  | case7 st cs hopen h1 h2 h3 h4 ih =>
    rw [parseLoop.eq_def]
    simp only [h1, if_false, h2, h3, h4, dite_false, if_true, hopen]
    simp only [alternates, add_block, if_true, hopen, Bool.not_false, Bool.true_and]
    exact ih
  | case8 st cs hopen h1 h2 h3 h4 ih =>
    have ho : st.nodeOpen = true := by simpa using hopen
    rw [parseLoop.eq_def]
    simp only [h1, if_false, h2, h3, h4, dite_false, if_true, hopen]
    simpa [alternates, add_block, ho] using ih
  | case9 st rest1 h1 h2 h3 h4 h5 ih =>
    rw [parseLoop.eq_def]
    simp only [h1, if_false, h2, h3, h4, h5, dite_false, if_true]
    simpa [alternates, add_block] using ih
  | case10 st c rest1 hc h1 h2 h3 h4 h5 ih =>
    rw [parseLoop.eq_def]
    simp only [h1, if_false, h2, h3, h4, h5, hc, dite_false, if_true]
    simpa [alternates, add_block] using ih
  | case13 st c cs h1 h2 h3 h4 h5 h6 h7 ih =>
    rw [parseLoop.eq_def]
    simp only [h1, if_false, h2, h3, h4, h5, h6, h7, dite_false]
    exact ih
  | _ =>
    rename_i ih
    rw [parseLoop.eq_def]
    simp only [*, if_false, if_true, dite_false]
    simpa [alternates, add_block] using ih

/-- The sequence built by `parse_circuit` alternates, starting closed. -/
theorem parse_circuit_alternates (circuit : List Char) :
    alternates false (parse_circuit circuit) = true := by
  have h := parseLoop_alternates ⟨0, 0, false, true⟩ circuit
  unfold parse_circuit
  split
  · rfl
  · rename_i b bs heq
    rw [heq] at h
    split_ifs
    · simpa [alternates, generatorPipe] using h
    · exact h

/-- An alternating list has the alternating marks. -/
theorem groupMarks_of_alternates (s : List Block) (opened : Bool)
    (h : alternates opened s = true) :
    groupMarks s = altMarks opened (groupMarks s).length := by
  induction s generalizing opened with
  | nil => rfl
  | cons b bs ih =>
    unfold alternates at h
    by_cases hs : b.type = BLOCK_NODE_START
    · rw [if_pos hs, Bool.and_eq_true, Bool.not_eq_true'] at h
      have hm : groupMarks (b :: bs) = BLOCK_NODE_START :: groupMarks bs := by
        simp [groupMarks, hs]
      rw [hm, List.length_cons, altMarks, h.1]
      simp only [Bool.false_eq_true, if_false, Bool.not_false]
      rw [← ih true h.2]
    · rw [if_neg hs] at h
      by_cases he : b.type = BLOCK_NODE_END
      · rw [if_pos he, Bool.and_eq_true] at h
        have hm : groupMarks (b :: bs) = BLOCK_NODE_END :: groupMarks bs := by
          simp [groupMarks, he]
        rw [hm, List.length_cons, altMarks, h.1]
        simp only [if_true, Bool.not_true]
        rw [← ih false h.2]
      · rw [if_neg he] at h
        have hm : groupMarks (b :: bs) = groupMarks bs := by
          simp [groupMarks, hs, he]
        rw [hm]
        exact ih opened h

/-- In an alternating list the numbers of group starts and group ends differ
by at most one, the way the toggle says. -/
theorem counts_of_alternates (s : List Block) (opened : Bool)
    (h : alternates opened s = true) :
    countEnds s ≤ countStarts s + (if opened then 1 else 0) ∧
      countStarts s + (if opened then 1 else 0) ≤ countEnds s + 1 := by
  induction s generalizing opened with
  | nil => cases opened <;> simp [countEnds, countStarts]
  | cons b bs ih =>
    unfold alternates at h
    by_cases hs : b.type = BLOCK_NODE_START
    · rw [if_pos hs, Bool.and_eq_true, Bool.not_eq_true'] at h
      have h1 : countStarts (b :: bs) = countStarts bs + 1 := by
        simp [countStarts, hs]
      have h2 : countEnds (b :: bs) = countEnds bs := by
        simp [countEnds, hs]
      have := ih true h.2
      rw [h1, h2, h.1]
      simp only [if_true, Bool.false_eq_true, if_false] at this ⊢
      omega
    · rw [if_neg hs] at h
      by_cases he : b.type = BLOCK_NODE_END
      · rw [if_pos he, Bool.and_eq_true] at h
        have h1 : countStarts (b :: bs) = countStarts bs := by
          simp [countStarts, he]
        have h2 : countEnds (b :: bs) = countEnds bs + 1 := by
          simp [countEnds, he]
        have := ih false h.2
        rw [h1, h2, h.1]
        simp only [if_true, Bool.false_eq_true, if_false] at this ⊢
        omega
      · rw [if_neg he] at h
        have h1 : countStarts (b :: bs) = countStarts bs := by
          simp [countStarts, hs]
        have h2 : countEnds (b :: bs) = countEnds bs := by
          simp [countEnds, he]
        rw [h1, h2]
        exact ih opened h

/-! ### The evaluator inside an open group -/

theorem alternates_cons_other (opened : Bool) (b : Block) (bs : List Block)
    (hs : b.type ≠ BLOCK_NODE_START) (he : b.type ≠ BLOCK_NODE_END) :
    alternates opened (b :: bs) = alternates opened bs := by
  simp [alternates, hs, he]

theorem isKnownRes_not_mark (b : Block) (h : isKnownRes b = true) :
    b.type ≠ BLOCK_NODE_START ∧ b.type ≠ BLOCK_NODE_END := by
  rcases isKnownRes_type b h with h1 | h1 <;> simp [h1]

theorem not_stop_not_end (b : Block) (h : isSeriesStop b = false) :
    b.type ≠ BLOCK_NODE_END := by
  intro he
  simp [isSeriesStop, he] at h

/-- While a group is open, the series loop meets no group start: it calls
`evaluateParallelGroup` nowhere, and it leaves the cursor inside the open
group. -/
theorem series_in_open_group (p : List Block) (h : alternates true p = true) :
    seriesCalls p = [] ∧
      ∀ (t : ℚ) (o : Bool), alternates true (evaluateSeriesLoop t o p).rest = true := by
  induction p with
  | nil =>
    refine ⟨seriesCalls_nil, fun t o => ?_⟩
    rw [evaluateSeriesLoop_nil]
    rfl
  | cons curr next ih =>
    have hns : curr.type ≠ BLOCK_NODE_START := by
      intro hs
      simp [alternates, hs] at h
    by_cases hk : isKnownRes curr = true
    · have h1 : alternates true next = true := by
        rw [alternates_cons_other _ _ _ hns (isKnownRes_not_mark curr hk).2] at h
        exact h
      refine ⟨?_, fun t o => ?_⟩
      · rw [seriesCalls_cons, if_pos hk]
        exact (ih h1).1
      · rw [evaluateSeriesLoop_cons, if_pos hk]
        exact (ih h1).2 _ _
    · by_cases hst : isSeriesStop curr = true
      · refine ⟨?_, fun t o => ?_⟩
        · rw [seriesCalls_cons]
          simp [hk, hns, hst]
        · rw [evaluateSeriesLoop_cons]
          simp only [hk, hns, hst, if_true, Bool.false_eq_true, if_false]
          exact h
      · have hst1 : isSeriesStop curr = false := by simpa using hst
        have h1 : alternates true next = true := by
          rw [alternates_cons_other _ _ _ hns (not_stop_not_end curr hst1)] at h
          exact h
        refine ⟨?_, fun t o => ?_⟩
        · rw [seriesCalls_cons]
          simp only [hk, hns, hst, Bool.false_eq_true, if_false]
          exact (ih h1).1
        · rw [evaluateSeriesLoop_cons]
          simp only [hk, hns, hst, Bool.false_eq_true, if_false]
          exact (ih h1).2 _ _

/-- The end of `evaluateParallelGroup` inside an open group either consumes
the group end, which closes the group, or leaves the cursor in the open
group. -/
theorem finishGroup_in_open_group (brs : List ℚ) (o : Bool) (p : List Block)
    (h : alternates true p = true) :
    alternates false (finishGroup brs o p).rest = true ∨
      alternates true (finishGroup brs o p).rest = true := by
  cases p with
  | nil =>
    left
    rfl
  | cons e after =>
    by_cases he : e.type = BLOCK_NODE_END
    · left
      simp only [finishGroup, if_pos he]
      simpa [alternates, he] using h
    · right
      simp only [finishGroup, if_neg he]
      exact h

/-- While a group is open, every branch the branch loop hands to
`evaluateSeries` lies in the open group, and the loop ends as `finishGroup`
does. -/
theorem branch_in_open_group :
    ∀ (brs : List ℚ) (o : Bool) (p : List Block), alternates true p = true →
      (∀ q ∈ branchCalls p, alternates true q = true) ∧
      (alternates false (branchLoop brs o p).rest = true ∨
        alternates true (branchLoop brs o p).rest = true) := by
  have h := @evaluator_induction (fun _ _ _ => True)
    (fun brs o p => alternates true p = true →
      (∀ q ∈ branchCalls p, alternates true q = true) ∧
      (alternates false (branchLoop brs o p).rest = true ∨
        alternates true (branchLoop brs o p).rest = true))
    (fun _ => True)
    (fun _ _ => trivial) (fun _ _ _ _ _ _ => trivial) (fun _ _ _ _ _ _ _ _ => trivial)
    (fun _ _ _ _ _ _ _ => trivial) (fun _ _ _ _ _ _ _ _ => trivial)
    (by
      intro brs o _
      refine ⟨?_, Or.inl ?_⟩
      · rw [branchCalls_nil]
        simp
      · rw [branchLoop_nil]
        rfl)
    (by
      intro brs o sep next hs hp
      refine ⟨?_, ?_⟩
      · rw [branchCalls_cons, if_neg hs]
        simp
      · rw [branchLoop_cons, if_neg hs]
        exact finishGroup_in_open_group _ _ _ hp)
    (by
      intro brs o sep next hs _ hr hp
      have hnext : alternates true next = true := by
        rw [alternates_cons_other _ _ _ (by simp [hs]) (by simp [hs])] at hp
        exact hp
      refine ⟨?_, Or.inl ?_⟩
      · rw [branchCalls_cons, if_pos hs, hr]
        intro q hq
        rcases List.mem_cons.mp hq with h1 | h1
        · rw [h1]
          exact hnext
        · exact absurd h1 (List.not_mem_nil q)
      · rw [branchLoop_cons, if_pos hs, hr]
        rfl)
    (by
      intro brs o sep next e after hs _ hr he ih hp
      have hnext : alternates true next = true := by
        rw [alternates_cons_other _ _ _ (by simp [hs]) (by simp [hs])] at hp
        exact hp
      have hrest := (series_in_open_group next hnext).2 0 false
      unfold evaluateSeries at hr
      rw [hr, alternates_cons_other _ _ _ (by simp [he]) (by simp [he])] at hrest
      have hi := ih hrest
      refine ⟨?_, ?_⟩
      · rw [branchCalls_cons, if_pos hs]
        unfold evaluateSeries
        rw [hr]
        simp only [if_pos he]
        intro q hq
        rcases List.mem_cons.mp hq with h1 | h1
        · rw [h1]
          exact hnext
        · exact hi.1 q h1
      · rw [branchLoop_cons, if_pos hs]
        unfold evaluateSeries
        rw [hr]
        simp only [if_pos he]
        exact hi.2)
    (by
      intro brs o sep next e after hs _ hr he hp
      have hnext : alternates true next = true := by
        rw [alternates_cons_other _ _ _ (by simp [hs]) (by simp [hs])] at hp
        exact hp
      have hrest := (series_in_open_group next hnext).2 0 false
      unfold evaluateSeries at hr
      rw [hr] at hrest
      refine ⟨?_, ?_⟩
      · rw [branchCalls_cons, if_pos hs]
        unfold evaluateSeries
        rw [hr]
        simp only [if_neg he]
        intro q hq
        rcases List.mem_cons.mp hq with h1 | h1
        · rw [h1]
          exact hnext
        · exact absurd h1 (List.not_mem_nil q)
      · rw [branchLoop_cons, if_pos hs]
        unfold evaluateSeries
        rw [hr]
        simp only [if_neg he]
        exact finishGroup_in_open_group _ _ _ hrest)
    (fun _ _ _ => trivial)
  exact h.2.1

/-- A call of `evaluateParallelGroup` on an open group hands to
`evaluateSeries` only cursors inside the open group, so that none of these
calls reaches a group start; it ends with the group closed or the cursor still
inside it. -/
theorem group_in_open_group (p : List Block) (h : alternates true p = true) :
    (∀ q ∈ groupCalls p, seriesCalls q = []) ∧
      (alternates false (evaluateParallelGroup p).rest = true ∨
        alternates true (evaluateParallelGroup p).rest = true) := by
  have hs := series_in_open_group p h
  have hb := branch_in_open_group [(evaluateSeries p).value] (evaluateSeries p).overflow
    (evaluateSeries p).rest (hs.2 0 false)
  refine ⟨?_, ?_⟩
  · intro q hq
    unfold groupCalls at hq
    rcases List.mem_cons.mp hq with h1 | h1
    · rw [h1]
      exact hs.1
    · exact (series_in_open_group q (hb.1 q h1)).1
  · rw [evaluateParallelGroup_eq]
    exact hb.2

/-- Outside any group, the series loop hands to `evaluateParallelGroup` only
cursors that stand in a group just opened. -/
theorem series_calls_open :
    ∀ p : List Block, alternates false p = true →
      ∀ q ∈ seriesCalls p, alternates true q = true := by
  have h := @evaluator_induction
    (fun _ _ p => alternates false p = true → ∀ q ∈ seriesCalls p, alternates true q = true)
    (fun _ _ _ => True) (fun _ => True)
    (by
      intro _ _ _ q hq
      rw [seriesCalls_nil] at hq
      exact absurd hq (List.not_mem_nil q))
    (by
      intro t o curr next hk ih hp q hq
      rw [seriesCalls_cons, if_pos hk] at hq
      rw [alternates_cons_other _ _ _ (isKnownRes_not_mark curr hk).1
        (isKnownRes_not_mark curr hk).2] at hp
      exact ih hp q hq)
    (by
      intro t o curr next hk hs _ ih hp q hq
      have hnext : alternates true next = true := by
        simpa [alternates, hs] using hp
      rw [seriesCalls_cons] at hq
      simp only [hk, hs, if_true, Bool.false_eq_true, if_false] at hq
      rcases List.mem_cons.mp hq with h1 | h1
      · rw [h1]
        exact hnext
      · rcases (group_in_open_group next hnext).2 with h2 | h2
        · exact ih h2 q h1
        · rw [(series_in_open_group _ h2).1] at h1
          exact absurd h1 (List.not_mem_nil q))
    (by
      intro t o curr next hk hs hst _ q hq
      rw [seriesCalls_cons] at hq
      simp only [hk, hs, hst, if_true, Bool.false_eq_true, if_false] at hq
      exact absurd hq (List.not_mem_nil q))
    (by
      intro t o curr next hk hs hst ih hp q hq
      rw [seriesCalls_cons] at hq
      simp only [hk, hs, hst, Bool.false_eq_true, if_false] at hq
      rw [alternates_cons_other _ _ _ hs (not_stop_not_end curr hst)] at hp
      exact ih hp q hq)
    (fun _ _ => trivial) (fun _ _ _ _ _ => trivial) (fun _ _ _ _ _ _ _ => trivial)
    (fun _ _ _ _ _ _ _ _ _ _ _ => trivial) (fun _ _ _ _ _ _ _ _ _ _ => trivial)
    (fun _ _ _ => trivial)
  exact h.1 0 false

/-! ### C16: groups in parsed sequences -/

theorem parseLoop_star_open (st : ParseState) (rest : List Char) (h : st.nodeOpen = false) :
    parseLoop st ('*' :: rest) =
      add_block BLOCK_NODE_START st false 0 ::
        parseLoop ⟨st.depth, st.col + 1, true, true⟩ rest := by
  rw [parseLoop.eq_def]
  simp [h]

theorem parseLoop_star_close (st : ParseState) (rest : List Char) (h : st.nodeOpen = true) :
    parseLoop st ('*' :: rest) =
      add_block BLOCK_NODE_END st false 0 ::
        parseLoop ⟨st.depth, st.col + 1, false, st.first⟩ rest := by
  rw [parseLoop.eq_def]
  simp [h]

theorem parseLoop_star_pair (st : ParseState) (rest : List Char) (h : st.nodeOpen = false) :
    parseLoop st ('*' :: '*' :: rest) =
      add_block BLOCK_NODE_START st false 0 ::
        add_block BLOCK_NODE_END ⟨st.depth, st.col + 1, true, true⟩ false 0 ::
          parseLoop ⟨st.depth, st.col + 1 + 1, false, true⟩ rest := by
  rw [parseLoop_star_open st _ h, parseLoop_star_close _ _ rfl]

theorem seriesCalls_start (gs : Block) (next : List Block) (h : gs.type = BLOCK_NODE_START) :
    seriesCalls (gs :: next) = next :: seriesCalls (evaluateParallelGroup next).rest := by
  rw [seriesCalls_cons]
  simp [isKnownRes, isRes, h]

theorem parseLoop_dash (st : ParseState) :
    parseLoop st ['-'] = [add_block BLOCK_NODE_BEND st false 0] := by
  rw [parseLoop.eq_def]
  simp
  rw [parseLoop.eq_def]

/-- An empty group: `evaluateParallelGroup` in front of a group end consumes
it. -/
theorem evaluateParallelGroup_at_end (ge : Block) (rest : List Block)
    (hge : ge.type = BLOCK_NODE_END) :
    (evaluateParallelGroup (ge :: rest)).rest = rest := by
  have hstop : isSeriesStop ge = true := by simp [isSeriesStop, hge]
  rw [evaluateParallelGroup_eq]
  unfold evaluateSeries
  rw [evaluateSeriesLoop_stop _ _ _ _ hstop]
  simp only
  rw [branchLoop_cons]
  simp [hge, finishGroup]

/-- The loop on `n` pairs of `*`: `n` group starts, and `n` calls of
`evaluateParallelGroup` when the blocks are evaluated. -/
theorem parseLoop_starPairs (n : Nat) (st : ParseState) (h : st.nodeOpen = false) :
    countStarts (parseLoop st (starPairs n)) = n ∧
      (seriesCalls (parseLoop st (starPairs n))).length = n ∧
      ∀ b ∈ (parseLoop st (starPairs n)).head?, b.type ≠ BLOCK_UP_RES_PIPE := by
  induction n generalizing st with
  | zero =>
    simp only [starPairs, parseLoop_dash]
    refine ⟨by simp [countStarts, add_block], ?_, by simp [add_block]⟩
    rw [seriesCalls_cons]
    simp [isKnownRes, isRes, isSeriesStop, add_block, seriesCalls_nil]
  | succ n ih =>
    have hi := ih ⟨st.depth, st.col + 1 + 1, false, true⟩ rfl
    simp only [starPairs, parseLoop_star_pair st _ h]
    refine ⟨?_, ?_, by simp [add_block]⟩
    · have := hi.1
      simp only [countStarts] at this ⊢
      simp [add_block, this]
    · rw [seriesCalls_start _ _ rfl, List.length_cons,
        evaluateParallelGroup_at_end _ _ rfl, hi.2.1]

theorem starPairs_getLast (n : Nat) : (starPairs n).getLast? = some '-' := by
  induction n with
  | zero => rfl
  | succ n ih =>
    cases hs : starPairs n with
    | nil => rw [hs] at ih; simp at ih
    | cons c t =>
      simp only [starPairs, hs, List.getLast?_cons_cons]
      rw [← hs]
      exact ih

theorem parseLoop_plus (st : ParseState) (rest : List Char) :
    parseLoop st ('+' :: rest) = parseLoop st rest := by
  rw [parseLoop.eq_def]
  simp

/-- The block put in front by `parse_circuit` is no group start. -/
theorem countStarts_parse_circuit (circuit : List Char) :
    countStarts (parse_circuit circuit) = countStarts (parseLoop ⟨0, 0, false, true⟩ circuit) := by
  unfold parse_circuit
  split
  · rename_i heq
    rw [heq]
  · rename_i b bs heq
    rw [heq]
    split_ifs
    · simp [countStarts, generatorPipe]
    · rfl

/-- The block put in front by `parse_circuit` is a known resistor, which the
series loop passes. -/
theorem seriesCalls_parse_circuit (circuit : List Char) :
    seriesCalls (parse_circuit circuit) = seriesCalls (parseLoop ⟨0, 0, false, true⟩ circuit) := by
  unfold parse_circuit
  split
  · rename_i heq
    rw [heq]
  · rename_i b bs heq
    rw [heq]
    split_ifs
    · rw [seriesCalls_cons]
      simp [isKnownRes, isRes, generatorPipe]
    · rfl

/-- C16, counterexample: the sequence parsed from `+*5*_*6*-` has two group
starts; the evaluator calls `evaluateParallelGroup` twice on it and returns
5 + 6 = 11. -/
theorem parse_circuit_two_groups :
    ¬ (countStarts (parse_circuit "+*5*_*6*-".toList) ≤ 1) ∧
      (seriesCalls (parse_circuit "+*5*_*6*-".toList)).length = 2 ∧
      calculate_total_resistance_new (parse_circuit "+*5*_*6*-".toList) = 11 := by
  have hparse : parse_circuit "+*5*_*6*-".toList =
      [generatorPipe, ⟨BLOCK_NODE_START, 0, 0, false, 0⟩, ⟨BLOCK_UP_RES_PIPE, 0, 1, false, 5⟩,
        ⟨BLOCK_NODE_END, 0, 2, false, 0⟩, ⟨BLOCK_CONN, 0, 3, false, 0⟩,
        ⟨BLOCK_NODE_START, 0, 4, false, 0⟩, ⟨BLOCK_UP_RES_PIPE, 0, 5, false, 6⟩,
        ⟨BLOCK_NODE_END, 0, 6, false, 0⟩, ⟨BLOCK_NODE_BEND, 0, 7, false, 0⟩] := by
    simp [parse_circuit, parseLoop, add_block, scanNumber, isNumberChar, wcstod, digitsValue,
      generatorPipe]
  rw [hparse]
  refine ⟨by simp [countStarts, generatorPipe], ?_, ?_⟩
  · simp [seriesCalls_cons, seriesCalls_nil, evaluateParallelGroup_eq, evaluateSeries,
      evaluateSeriesLoop_cons, evaluateSeriesLoop_nil, branchLoop_cons, branchLoop_nil,
      finishGroup, generatorPipe, isKnownRes, isRes, isSeriesStop]
  · simp [calculate_total_resistance_new, evaluateParallelGroup_eq, evaluateSeries,
      evaluateSeriesLoop_cons, evaluateSeriesLoop_nil, branchLoop_cons, branchLoop_nil,
      finishGroup, generatorPipe, isKnownRes, isRes, isSeriesStop, parallelValue, invSumLoop]
    norm_num

/-! ### C19: termination of the evaluator -/

/-- Every cursor handed on by an evaluator routine is a suffix of the cursor
the routine stands at, and a strictly shorter one except for the first branch
of a group. -/
theorem calls_shorter :
    (∀ p : List Block, ∀ q ∈ seriesCalls p, q <:+ p ∧ q.length < p.length) ∧
    (∀ p : List Block, ∀ q ∈ branchCalls p, q <:+ p ∧ q.length < p.length) ∧
    (∀ p : List Block, ∀ q ∈ groupCalls p, q <:+ p) := by
  have h := @evaluator_induction
    (fun _ _ p => ∀ q ∈ seriesCalls p, q <:+ p ∧ q.length < p.length)
    (fun _ _ p => ∀ q ∈ branchCalls p, q <:+ p ∧ q.length < p.length)
    (fun p => ∀ q ∈ groupCalls p, q <:+ p)
    (by
      intro _ _ q hq
      rw [seriesCalls_nil] at hq
      exact absurd hq (List.not_mem_nil q))
    (by
      intro t o curr next hk ih q hq
      rw [seriesCalls_cons, if_pos hk] at hq
      have := ih q hq
      exact ⟨List.IsSuffix.trans this.1 (List.suffix_cons _ _),
        by simp only [List.length_cons]; omega⟩)
    (by
      intro t o curr next hk hs _ ih q hq
      rw [seriesCalls_start _ _ hs] at hq
      rcases List.mem_cons.mp hq with h1 | h1
      · rw [h1]
        exact ⟨List.suffix_cons _ _, by simp⟩
      · have h2 := ih q h1
        have h3 := evaluator_suffix.2.2 next
        exact ⟨List.IsSuffix.trans h2.1 (List.IsSuffix.trans h3 (List.suffix_cons _ _)),
          by
            have := h3.length_le
            simp only [List.length_cons]
            omega⟩)
    (by
      intro t o curr next hk hs hst q hq
      rw [seriesCalls_cons] at hq
      simp only [hk, hs, hst, if_true, Bool.false_eq_true, if_false] at hq
      exact absurd hq (List.not_mem_nil q))
    (by
      intro t o curr next hk hs hst ih q hq
      rw [seriesCalls_cons] at hq
      simp only [hk, hs, hst, Bool.false_eq_true, if_false] at hq
      have := ih q hq
      exact ⟨List.IsSuffix.trans this.1 (List.suffix_cons _ _),
        by simp only [List.length_cons]; omega⟩)
    (by
      intro _ _ q hq
      rw [branchCalls_nil] at hq
      exact absurd hq (List.not_mem_nil q))
    (by
      intro _ _ sep next hs q hq
      rw [branchCalls_cons, if_neg hs] at hq
      exact absurd hq (List.not_mem_nil q))
    (by
      intro _ _ sep next hs _ hr q hq
      rw [branchCalls_cons, if_pos hs, hr] at hq
      rcases List.mem_cons.mp hq with h1 | h1
      · rw [h1]
        exact ⟨List.suffix_cons _ _, by simp⟩
      · exact absurd h1 (List.not_mem_nil q))
    (by
      intro _ _ sep next e after hs _ hr he ih q hq
      rw [branchCalls_cons, if_pos hs, hr] at hq
      simp only [if_pos he] at hq
      rcases List.mem_cons.mp hq with h1 | h1
      · rw [h1]
        exact ⟨List.suffix_cons _ _, by simp⟩
      · have h2 := ih q h1
        have h3 : e :: after <:+ next := by
          have := evaluator_suffix.1 0 false next
          unfold evaluateSeries at hr
          rw [hr] at this
          exact this
        have h4 : after <:+ sep :: next :=
          List.IsSuffix.trans (List.suffix_cons _ _) (List.IsSuffix.trans h3 (List.suffix_cons _ _))
        exact ⟨List.IsSuffix.trans h2.1 h4, by
          have := h4.length_le
          omega⟩)
    (by
      intro _ _ sep next e after hs _ hr he q hq
      rw [branchCalls_cons, if_pos hs, hr] at hq
      simp only [if_neg he] at hq
      rcases List.mem_cons.mp hq with h1 | h1
      · rw [h1]
        exact ⟨List.suffix_cons _ _, by simp⟩
      · exact absurd h1 (List.not_mem_nil q))
    (by
      intro p _ hB q hq
      unfold groupCalls at hq
      rcases List.mem_cons.mp hq with h1 | h1
      · rw [h1]
      · exact List.IsSuffix.trans (hB q h1).1 (evaluator_suffix.1 0 false p))
  exact ⟨h.1 0 false, h.2.1 [] false, h.2.2⟩

/-- C19, as the code has it: `evaluateSeries` and `evaluateParallelGroup` are
total on all lists of blocks, also on lists the parser cannot build, and each
returns with the cursor at a suffix of the cursor it got. Every call of
`evaluateParallelGroup` made by `evaluateSeries` is on a strictly shorter
suffix, every call of `evaluateSeries` made by `evaluateParallelGroup` is on a
suffix (the same cursor for the first branch, a strictly shorter one for the
later branches), and so either routine is entered again, from inside itself,
only on a strictly shorter list. -/
theorem evaluator_terminates :
    (∀ p : List Block, (evaluateSeries p).rest <:+ p) ∧
    (∀ p : List Block, (evaluateParallelGroup p).rest <:+ p) ∧
    (∀ p q : List Block, q ∈ seriesCalls p → q <:+ p ∧ q.length < p.length) ∧
    (∀ p q : List Block, q ∈ groupCalls p →
      q <:+ p ∧ (q.length = p.length → q = p) ∧ (q ∈ branchCalls (evaluateSeries p).rest →
        q.length < p.length)) ∧
    (∀ p q r : List Block, q ∈ seriesCalls p → r ∈ groupCalls q → r.length < p.length) ∧
    (∀ p q r : List Block, q ∈ groupCalls p → r ∈ seriesCalls q → r.length < p.length) := by
  refine ⟨fun p => evaluator_suffix.1 0 false p, evaluator_suffix.2.2, ?_, ?_, ?_, ?_⟩
  · intro p q hq
    exact calls_shorter.1 p q hq
  · intro p q hq
    have hsuf := calls_shorter.2.2 p q hq
    refine ⟨hsuf, fun hlen => List.IsSuffix.eq_of_length hsuf hlen, ?_⟩
    intro hb
    have h1 := calls_shorter.2.1 _ q hb
    have h2 := (evaluator_suffix.1 0 false p).length_le
    unfold evaluateSeries at h1
    omega
  · intro p q r hq hr
    have h1 := (calls_shorter.1 p q hq).2
    have h2 := (calls_shorter.2.2 q r hr).length_le
    omega
  · intro p q r hq hr
    have h1 := (calls_shorter.2.2 p q hq).length_le
    have h2 := (calls_shorter.1 q r hr).2
    omega

/-- C19 on the list group start, 5 ohm, group end: the series loop calls
`evaluateParallelGroup` on the two blocks behind the group start. -/
theorem evaluator_terminates_witness :
    ([⟨BLOCK_UP_RES_PIPE, 0, 1, false, 5⟩, ⟨BLOCK_NODE_END, 0, 2, false, 0⟩] : List Block) <:+
        [⟨BLOCK_NODE_START, 0, 0, false, 0⟩, ⟨BLOCK_UP_RES_PIPE, 0, 1, false, 5⟩,
          ⟨BLOCK_NODE_END, 0, 2, false, 0⟩] ∧
      ([⟨BLOCK_UP_RES_PIPE, 0, 1, false, 5⟩, ⟨BLOCK_NODE_END, 0, 2, false, 0⟩] :
          List Block).length <
        ([⟨BLOCK_NODE_START, 0, 0, false, 0⟩, ⟨BLOCK_UP_RES_PIPE, 0, 1, false, 5⟩,
          ⟨BLOCK_NODE_END, 0, 2, false, 0⟩] : List Block).length :=
  evaluator_terminates.2.2.1 _ _ (by
    rw [seriesCalls_start _ _ rfl]
    exact List.mem_cons_self _ _)

/-! ### C18: unknown resistors in the evaluation -/

theorem deleteUnknowns_cons_keep (b : Block) (bs : List Block) (h : isUnknownRes b = false) :
    deleteUnknowns (b :: bs) = b :: deleteUnknowns bs := by
  simp [deleteUnknowns, h]

theorem deleteUnknowns_cons_drop (b : Block) (bs : List Block) (h : isUnknownRes b = true) :
    deleteUnknowns (b :: bs) = deleteUnknowns bs := by
  simp [deleteUnknowns, h]

theorem isUnknownRes_of_known (b : Block) (h : isKnownRes b = true) : isUnknownRes b = false := by
  simp only [isKnownRes, Bool.and_eq_true, Bool.not_eq_true'] at h
  simp [isUnknownRes, h.2]

theorem isUnknownRes_of_type (b : Block) (h1 : b.type ≠ BLOCK_RES)
    (h2 : b.type ≠ BLOCK_UP_RES_PIPE) : isUnknownRes b = false := by
  simp [isUnknownRes, isRes, h1, h2]

theorem isUnknownRes_of_stop (b : Block) (h : isSeriesStop b = true) : isUnknownRes b = false := by
  simp only [isSeriesStop, Bool.or_eq_true, beq_iff_eq] at h
  rcases h with (h | h) | h <;> exact isUnknownRes_of_type b (by simp [h]) (by simp [h])

theorem noUnknownAfterBranchEnd_tail (a : Block) (rest : List Block)
    (h : noUnknownAfterBranchEnd (a :: rest) = true) : noUnknownAfterBranchEnd rest = true := by
  unfold noUnknownAfterBranchEnd at h
  rw [Bool.and_eq_true] at h
  exact h.2

theorem noUnknownAfterBranchEnd_suffix (p q : List Block) (hq : q <:+ p)
    (h : noUnknownAfterBranchEnd p = true) : noUnknownAfterBranchEnd q = true := by
  induction p with
  | nil =>
    rw [List.suffix_nil.mp hq]
    rfl
  | cons a rest ih =>
    rcases List.suffix_cons_iff.mp hq with h1 | h1
    · rw [h1]
      exact h
    · exact ih h1 (noUnknownAfterBranchEnd_tail a rest h)

theorem noUnknownAfterBranchEnd_head (e : Block) (after : List Block)
    (he : e.type = BLOCK_PAR_END) (h : noUnknownAfterBranchEnd (e :: after) = true) :
    ∀ b ∈ after.head?, isUnknownRes b = false := by
  intro b hb
  cases after with
  | nil => simp at hb
  | cons c t =>
    simp only [List.head?_cons, Option.mem_def, Option.some.injEq] at hb
    unfold noUnknownAfterBranchEnd at h
    simp only [he, beq_self_eq_true, Bool.true_and, Bool.and_eq_true, Bool.not_eq_true'] at h
    rw [← hb]
    exact h.1

/-- The loop of `evaluateSeries` leaves the cursor at the end of the list or
in front of a block it stops at. -/
theorem seriesLoop_rest_stop (t : ℚ) (o : Bool) (p : List Block) :
    ∀ e ∈ (evaluateSeriesLoop t o p).rest.head?, isSeriesStop e = true := by
  have h := @evaluator_induction
    (fun t o p => ∀ e ∈ (evaluateSeriesLoop t o p).rest.head?, isSeriesStop e = true)
    (fun _ _ _ => True) (fun _ => True)
    (by
      intro t o e he
      rw [evaluateSeriesLoop_nil] at he
      simp at he)
    (by
      intro t o curr next hk ih
      rw [evaluateSeriesLoop_cons, if_pos hk]
      exact ih)
    (by
      intro t o curr next hk hs _ ih
      rw [evaluateSeriesLoop_cons]
      simp only [hk, hs, if_true, Bool.false_eq_true, if_false]
      exact ih)
    (by
      intro t o curr next hk hs hst e he
      rw [evaluateSeriesLoop_cons] at he
      simp only [hk, hs, hst, if_true, Bool.false_eq_true, if_false, List.head?_cons,
        Option.mem_def, Option.some.injEq] at he
      rw [← he]
      exact hst)
    (by
      intro t o curr next hk hs hst ih
      rw [evaluateSeriesLoop_cons]
      simp only [hk, hs, hst, Bool.false_eq_true, if_false]
      exact ih)
    (fun _ _ => trivial) (fun _ _ _ _ _ => trivial) (fun _ _ _ _ _ _ _ => trivial)
    (fun _ _ _ _ _ _ _ _ _ _ _ => trivial) (fun _ _ _ _ _ _ _ _ _ _ => trivial)
    (fun _ _ _ => trivial)
  exact h.1 t o p

/-- The end of `evaluateParallelGroup` looks only at the block under the
cursor: when that is no unknown, taking the unknowns out changes nothing. -/
theorem finishGroup_deleted (brs : List ℚ) (o : Bool) (p : List Block)
    (hp : ∀ b ∈ p.head?, isUnknownRes b = false) :
    finishGroup brs o (deleteUnknowns p) = (finishGroup brs o p).deleted := by
  cases p with
  | nil => rfl
  | cons e after =>
    have he : isUnknownRes e = false := hp e (by simp)
    rw [deleteUnknowns_cons_keep _ _ he]
    by_cases hge : e.type = BLOCK_NODE_END
    · simp [finishGroup, hge, EvalOut.deleted]
    · simp [finishGroup, hge, EvalOut.deleted, deleteUnknowns_cons_keep _ _ he]

/-- Where no unknown stands right behind a branch end, the three evaluator
routines return the same value and flag with the unknowns taken out, and leave
the cursor at the same place. -/
theorem evaluator_deleted :
    (∀ (t : ℚ) (o : Bool) (p : List Block), noUnknownAfterBranchEnd p = true →
      evaluateSeriesLoop t o (deleteUnknowns p) = (evaluateSeriesLoop t o p).deleted) ∧
    (∀ (brs : List ℚ) (o : Bool) (p : List Block), noUnknownAfterBranchEnd p = true →
      (∀ b ∈ p.head?, isUnknownRes b = false) →
      branchLoop brs o (deleteUnknowns p) = (branchLoop brs o p).deleted) ∧
    (∀ p : List Block, noUnknownAfterBranchEnd p = true →
      evaluateParallelGroup (deleteUnknowns p) = (evaluateParallelGroup p).deleted) := by
  apply evaluator_induction
  · intro t o _
    simp [deleteUnknowns, evaluateSeriesLoop_nil, EvalOut.deleted]
  · intro t o curr next hk ih hp
    rw [deleteUnknowns_cons_keep _ _ (isUnknownRes_of_known curr hk), evaluateSeriesLoop_cons,
      evaluateSeriesLoop_cons, if_pos hk, if_pos hk]
    exact ih (noUnknownAfterBranchEnd_tail _ _ hp)
  · intro t o curr next hk hs hg ih hp
    have hnext := noUnknownAfterBranchEnd_tail _ _ hp
    have hrest := noUnknownAfterBranchEnd_suffix _ _ (evaluator_suffix.2.2 next) hnext
    rw [deleteUnknowns_cons_keep _ _ (isUnknownRes_of_type curr (by simp [hs]) (by simp [hs])),
      evaluateSeriesLoop_cons, evaluateSeriesLoop_cons]
    simp only [hk, hs, if_true, Bool.false_eq_true, if_false]
    rw [hg hnext]
    exact ih hrest
  · intro t o curr next hk hs hst _
    rw [deleteUnknowns_cons_keep _ _ (isUnknownRes_of_stop curr hst),
      evaluateSeriesLoop_cons, evaluateSeriesLoop_cons]
    simp only [hk, hs, hst, if_true, Bool.false_eq_true, if_false, EvalOut.deleted]
    rw [deleteUnknowns_cons_keep _ _ (isUnknownRes_of_stop curr hst)]
  · intro t o curr next hk hs hst ih hp
    have hnext := noUnknownAfterBranchEnd_tail _ _ hp
    by_cases hu : isUnknownRes curr = true
    · rw [deleteUnknowns_cons_drop _ _ hu, evaluateSeriesLoop_cons]
      simp only [hk, hs, hst, Bool.false_eq_true, if_false]
      exact ih hnext
    · have hu1 : isUnknownRes curr = false := by simpa using hu
      rw [deleteUnknowns_cons_keep _ _ hu1, evaluateSeriesLoop_cons, evaluateSeriesLoop_cons]
      simp only [hk, hs, hst, Bool.false_eq_true, if_false]
      exact ih hnext
  · intro brs o _ _
    simp [deleteUnknowns, branchLoop_nil, finishGroup, EvalOut.deleted]
  · intro brs o sep next hs _ hhead
    have hu : isUnknownRes sep = false := hhead sep (by simp)
    rw [deleteUnknowns_cons_keep _ _ hu, branchLoop_cons, branchLoop_cons, if_neg hs, if_neg hs,
      ← deleteUnknowns_cons_keep _ _ hu]
    exact finishGroup_deleted _ _ _ hhead
  · intro brs o sep next hs hS hr hp _
    have hnext := noUnknownAfterBranchEnd_tail _ _ hp
    have hu : isUnknownRes sep = false :=
      isUnknownRes_of_type sep (by simp [hs]) (by simp [hs])
    have hser : evaluateSeries (deleteUnknowns next) = (evaluateSeries next).deleted := hS hnext
    rw [deleteUnknowns_cons_keep _ _ hu, branchLoop_cons, branchLoop_cons, if_pos hs, if_pos hs,
      hser, hr]
    simp [EvalOut.deleted, hr, deleteUnknowns, finishGroup]
  · intro brs o sep next e after hs hS hr he ih hp _
    have hnext := noUnknownAfterBranchEnd_tail _ _ hp
    have hu : isUnknownRes sep = false :=
      isUnknownRes_of_type sep (by simp [hs]) (by simp [hs])
    have hue : isUnknownRes e = false :=
      isUnknownRes_of_type e (by simp [he]) (by simp [he])
    have hser : evaluateSeries (deleteUnknowns next) = (evaluateSeries next).deleted := hS hnext
    have hsuf : e :: after <:+ next := by
      have := evaluator_suffix.1 0 false next
      unfold evaluateSeries at hr
      rw [hr] at this
      exact this
    have hcond := noUnknownAfterBranchEnd_suffix _ _ hsuf hnext
    have hi := ih (noUnknownAfterBranchEnd_tail _ _ hcond)
      (noUnknownAfterBranchEnd_head e after he hcond)
    rw [deleteUnknowns_cons_keep _ _ hu, branchLoop_cons, branchLoop_cons, if_pos hs, if_pos hs,
      hser, hr]
    simp only [EvalOut.deleted, hr, deleteUnknowns_cons_keep _ _ hue, if_pos he]
    exact hi
  · intro brs o sep next e after hs hS hr he hp _
    have hnext := noUnknownAfterBranchEnd_tail _ _ hp
    have hu : isUnknownRes sep = false :=
      isUnknownRes_of_type sep (by simp [hs]) (by simp [hs])
    have hstop : isSeriesStop e = true := by
      have := seriesLoop_rest_stop 0 false next e
      unfold evaluateSeries at hr
      rw [hr] at this
      exact this (by simp)
    have hue : isUnknownRes e = false := isUnknownRes_of_stop e hstop
    have hser : evaluateSeries (deleteUnknowns next) = (evaluateSeries next).deleted := hS hnext
    rw [deleteUnknowns_cons_keep _ _ hu, branchLoop_cons, branchLoop_cons, if_pos hs, if_pos hs,
      hser, hr]
    simp only [EvalOut.deleted, hr, deleteUnknowns_cons_keep _ _ hue, if_neg he]
    rw [← deleteUnknowns_cons_keep _ _ hue]
    exact finishGroup_deleted _ _ _ (by
      intro b hb
      simp only [List.head?_cons, Option.mem_def, Option.some.injEq] at hb
      rw [← hb]
      exact hue)
  · intro p hS hB hp
    have hser : evaluateSeries (deleteUnknowns p) = (evaluateSeries p).deleted := hS hp
    rw [evaluateParallelGroup_eq, evaluateParallelGroup_eq, hser]
    simp only [EvalOut.deleted]
    refine hB (noUnknownAfterBranchEnd_suffix _ _ (evaluator_suffix.1 0 false p) hp) ?_
    intro b hb
    exact isUnknownRes_of_stop b (seriesLoop_rest_stop 0 false p b hb)

/-- C18, counterexample: in the sequence parsed from `+*5||7=x_||9=*-` the
unknown stands behind the end of the second branch. There it ends the group,
and the sequence evaluates to 35/12, the parallel of 5 and 7; with the unknown
taken out the group has three branches and the sequence evaluates to
315/143. -/
theorem calculate_unknown_after_branch_end :
    calculate_total_resistance_new (parse_circuit "+*5||7=x_||9=*-".toList) = 35 / 12 ∧
      calculate_total_resistance_new
        (deleteUnknowns (parse_circuit "+*5||7=x_||9=*-".toList)) = 315 / 143 := by
  have hparse : parse_circuit "+*5||7=x_||9=*-".toList =
      [generatorPipe, ⟨BLOCK_NODE_START, 0, 0, false, 0⟩, ⟨BLOCK_UP_RES_PIPE, 0, 1, false, 5⟩,
        ⟨BLOCK_PAR_START, -1, 2, false, 0⟩, ⟨BLOCK_UP_RES_PIPE, -1, 3, false, 7⟩,
        ⟨BLOCK_PAR_END, -1, 4, false, 0⟩, ⟨BLOCK_RES, 0, 5, true, -1⟩,
        ⟨BLOCK_PAR_START, -1, 6, false, 0⟩, ⟨BLOCK_UP_RES_PIPE, -1, 7, false, 9⟩,
        ⟨BLOCK_PAR_END, -1, 8, false, 0⟩, ⟨BLOCK_NODE_END, 0, 9, false, 0⟩,
        ⟨BLOCK_NODE_BEND, 0, 10, false, 0⟩] := by
    simp [parse_circuit, parseLoop, add_block, scanNumber, isNumberChar, wcstod, digitsValue,
      generatorPipe]
  rw [hparse]
  constructor
  · simp [calculate_total_resistance_new, evaluateParallelGroup_eq, evaluateSeries,
      evaluateSeriesLoop_cons, evaluateSeriesLoop_nil, branchLoop_cons, branchLoop_nil,
      finishGroup, generatorPipe, isKnownRes, isRes, isSeriesStop, parallelValue, invSumLoop]
    norm_num
  · simp [deleteUnknowns, isUnknownRes, calculate_total_resistance_new,
      evaluateParallelGroup_eq, evaluateSeries,
      evaluateSeriesLoop_cons, evaluateSeriesLoop_nil, branchLoop_cons, branchLoop_nil,
      finishGroup, generatorPipe, isKnownRes, isRes, isSeriesStop, parallelValue, invSumLoop]
    norm_num

/-- C18, as the code has it: for every sequence in which no resistor flagged
unknown stands right behind a `BLOCK_PAR_END`, `calculate_total_resistance_new`
returns the same value on the sequence and on the sequence with every
resistor flagged unknown taken out; the value stored in an unknown is never
read. -/
theorem calculate_total_resistance_new_deleteUnknowns (s : List Block)
    (h : noUnknownAfterBranchEnd s = true) :
    calculate_total_resistance_new (deleteUnknowns s) = calculate_total_resistance_new s := by
  unfold calculate_total_resistance_new evaluateSeries
  rw [evaluator_deleted.1 0 false s h]
  rfl

/-- C18 on the sequence parsed from `+*5_x_||7=*-`, where the unknown stands
in the first branch: taking it out does not change the value. -/
theorem calculate_total_resistance_new_deleteUnknowns_witness :
    calculate_total_resistance_new (deleteUnknowns (parse_circuit "+*5_x_||7=*-".toList)) =
      calculate_total_resistance_new (parse_circuit "+*5_x_||7=*-".toList) := by
  have hparse : parse_circuit "+*5_x_||7=*-".toList =
      [generatorPipe, ⟨BLOCK_NODE_START, 0, 0, false, 0⟩, ⟨BLOCK_UP_RES_PIPE, 0, 1, false, 5⟩,
        ⟨BLOCK_CONN, 0, 2, false, 0⟩, ⟨BLOCK_RES, 0, 3, true, -1⟩,
        ⟨BLOCK_PAR_START, -1, 4, false, 0⟩,
        ⟨BLOCK_UP_RES_PIPE, -1, 5, false, 7⟩, ⟨BLOCK_PAR_END, -1, 6, false, 0⟩,
        ⟨BLOCK_NODE_END, 0, 7, false, 0⟩, ⟨BLOCK_NODE_BEND, 0, 8, false, 0⟩] := by
    simp [parse_circuit, parseLoop, add_block, scanNumber, isNumberChar, wcstod, digitsValue,
      generatorPipe]
  exact calculate_total_resistance_new_deleteUnknowns
    (parse_circuit "+*5_x_||7=*-".toList) (by
      rw [hparse]
      simp [noUnknownAfterBranchEnd, isUnknownRes, isRes, generatorPipe])

/-! ### C20: the solved value put back -/

theorem replaceUnknown_append (Rx : ℚ) (xs ys : List Block) :
    replaceUnknown Rx (xs ++ ys) = replaceUnknown Rx xs ++ replaceUnknown Rx ys := by
  simp [replaceUnknown]

theorem replaceUnknown_cons_other (Rx : ℚ) (b : Block) (xs : List Block)
    (h : isUnknownRes b = false) :
    replaceUnknown Rx (b :: xs) = b :: replaceUnknown Rx xs := by
  simp [replaceUnknown, h]

theorem replaceUnknown_noDelimiter (Rx : ℚ) (xs : List Block)
    (h : ∀ b ∈ xs, isDelimiter b = false) :
    ∀ b ∈ replaceUnknown Rx xs, isDelimiter b = false := by
  intro b hb
  simp only [replaceUnknown, List.mem_map] at hb
  obtain ⟨a, ha, hab⟩ := hb
  have := h a ha
  by_cases hu : isUnknownRes a = true
  · rw [if_pos hu] at hab
    rw [← hab]
    simpa [isDelimiter] using this
  · rw [if_neg hu] at hab
    rw [← hab]
    exact this

/-- Putting `Rx` in adds `Rx` to the known sum for every unknown. -/
theorem knownSum_replaceUnknown (Rx : ℚ) (xs : List Block) :
    knownSum (replaceUnknown Rx xs) = knownSum xs + Rx * (xs.countP isUnknownRes : ℕ) := by
  induction xs with
  | nil => simp [replaceUnknown, knownSum]
  | cons b xs ih =>
    by_cases hu : isUnknownRes b = true
    · have hk : isKnownRes b = false := by
        simp only [isUnknownRes, Bool.and_eq_true] at hu
        simp [isKnownRes, hu.2]
      have hk1 : isKnownRes ({ b with is_unknown := false, value := Rx } : Block) = true := by
        simp only [isUnknownRes, Bool.and_eq_true] at hu
        simpa [isKnownRes, isRes] using hu.1
      have hrep : replaceUnknown Rx (b :: xs) =
          { b with is_unknown := false, value := Rx } :: replaceUnknown Rx xs := by
        simp [replaceUnknown, hu]
      rw [hrep, knownSum_cons, knownSum_cons, ih, List.countP_cons_of_pos _ _ hu]
      simp only [hk1, hk, if_true, Bool.false_eq_true, if_false]
      push_cast
      ring
    · have hu1 : isUnknownRes b = false := by simpa using hu
      rw [replaceUnknown_cons_other _ _ _ hu1, knownSum_cons, knownSum_cons, ih,
        List.countP_cons_of_neg _ _ hu]
      ring

theorem delimiter_not_unknown (d : Block) (h : isDelimiter d = true) : isUnknownRes d = false := by
  simp only [isDelimiter, Bool.or_eq_true, beq_iff_eq] at h
  rcases h with ((h | h) | h) | h <;> simp [isUnknownRes, isRes, h]

theorem countP_zero_of_hasUnknown (xs : List Block) (h : hasUnknown xs = false) :
    xs.countP isUnknownRes = 0 := countP_of_hasUnknown xs h

theorem hasUnknown_iff_countP (xs : List Block) :
    hasUnknown xs = true ↔ 0 < xs.countP isUnknownRes := by
  rw [List.countP_pos_iff]
  simp [hasUnknown]

/-- The extractor on the supported shape: the four sums. -/
theorem extract_two_branches_sums
    (pre b1 b2 post : List Block) (gs ps pe ge : Block)
    (hpre : ∀ b ∈ pre, isDelimiter b = false)
    (hb1 : ∀ b ∈ b1, isDelimiter b = false)
    (hb2 : ∀ b ∈ b2, isDelimiter b = false)
    (hgs : gs.type = BLOCK_NODE_START) (hps : ps.type = BLOCK_PAR_START)
    (hpe : pe.type = BLOCK_PAR_END) (hge : ge.type = BLOCK_NODE_END)
    (hone : hasUnknown b1 ≠ hasUnknown b2) :
    extract_parallel_structure (pre ++ gs :: (b1 ++ ps :: (b2 ++ pe :: ge :: post))) =
      some ⟨knownSum pre, knownSum post,
        if hasUnknown b1 then knownSum b1 else knownSum b2,
        if hasUnknown b1 then knownSum b2 else knownSum b1⟩ := by
  have h0 : scanS0 0 (pre ++ gs :: (b1 ++ ps :: (b2 ++ pe :: ge :: post))) =
      (knownSum pre, gs :: (b1 ++ ps :: (b2 ++ pe :: ge :: post))) := by
    rw [scanS0_append pre (fun b hb => (isDelimiter_false b (hpre b hb)).1), scanS0]
    simp [hgs]
  have h1 : scanBranch1 0 false (b1 ++ ps :: (b2 ++ pe :: ge :: post)) =
      (knownSum b1, hasUnknown b1, ps :: (b2 ++ pe :: ge :: post)) := by
    rw [scanBranch1_append b1 (fun b hb =>
      ⟨(isDelimiter_false b (hb1 b hb)).2.2.1, (isDelimiter_false b (hb1 b hb)).2.1⟩), scanBranch1]
    simp [hps]
  have h2 : scanBranch2 0 false (b2 ++ pe :: ge :: post) =
      (knownSum b2, hasUnknown b2, pe :: ge :: post) := by
    rw [scanBranch2_append b2 (fun b hb =>
      ⟨(isDelimiter_false b (hb2 b hb)).2.1, (isDelimiter_false b (hb2 b hb)).2.2.2⟩), scanBranch2]
    simp [hpe]
  have h3 : secondBranch (ps :: (b2 ++ pe :: ge :: post)) =
      (knownSum b2, hasUnknown b2, ge :: post) := by
    simp [secondBranch, hps, h2, skipIf, hpe]
  unfold extract_parallel_structure
  simp only [h0, h1, h3, skipIf, hge, if_true, scanS3_eq, zero_add]
  cases hu1 : hasUnknown b1 <;> cases hu2 : hasUnknown b2 <;> simp_all

/-- The parallel law on two positive branch sums. -/
theorem parallelValue_pair (a b : ℚ) (ha : 0 < a) (hb : 0 < b) :
    parallelValue [a, b] = 1 / (1 / a + 1 / b) := by
  have h1 : 0 < 1 / a := one_div_pos.mpr ha
  have h2 : 0 < 1 / b := one_div_pos.mpr hb
  have h3 : 1 / a + 1 / b > 0 := by
    have : 0 < 1 / a + 1 / b := by linarith
    exact this
  unfold parallelValue
  simp only [invSumLoop, if_pos ha, if_pos hb, zero_add, if_pos h3]

/-- The solved branch in parallel with the known branch gives back
`R_par`. -/
theorem parallel_of_solution (Su Sk R Rx : ℚ) (hR : 0 < R) (hlt : R < Sk)
    (hRx : Rx = (R * Sk) / (Sk - R) - Su) :
    0 < Su + Rx ∧ 0 < Sk ∧ 1 / (1 / (Su + Rx) + 1 / Sk) = R ∧
      1 / (1 / Sk + 1 / (Su + Rx)) = R := by
  have hSk : 0 < Sk := lt_trans hR hlt
  have hd : 0 < Sk - R := sub_pos.mpr hlt
  have hY : Su + Rx = (R * Sk) / (Sk - R) := by
    rw [hRx]
    ring
  have hYpos : 0 < Su + Rx := by
    rw [hY]
    exact div_pos (mul_pos hR hSk) hd
  refine ⟨hYpos, hSk, ?_, ?_⟩
  · rw [hY]
    field_simp
    ring
  · rw [hY]
    field_simp


/-- C20: on a sequence of the supported shape whose one unknown resistor
stands in `b1` or in `b2`, when the extractor returns the sums and the
parallel-group pass, fed with them, reports `Rx` for a measured value
`Req_measured`, the same sequence with the unknown made a known resistor of
value `Rx` evaluates to `Req_measured`. -/
theorem round_trip_parallel
    (pre b1 b2 post : List Block) (gs ps pe ge : Block)
    (hpre : ∀ b ∈ pre, isDelimiter b = false)
    (hb1 : ∀ b ∈ b1, isDelimiter b = false)
    (hb2 : ∀ b ∈ b2, isDelimiter b = false)
    (hpost : ∀ b ∈ post, isDelimiter b = false)
    (hgs : gs.type = BLOCK_NODE_START) (hps : ps.type = BLOCK_PAR_START)
    (hpe : pe.type = BLOCK_PAR_END) (hge : ge.type = BLOCK_NODE_END)
    (hupre : hasUnknown pre = false) (hupost : hasUnknown post = false)
    (hone : b1.countP isUnknownRes + b2.countP isUnknownRes = 1)
    (sums : ParallelStructure) (Req_measured Rx : ℚ)
    (hex : extract_parallel_structure
      (pre ++ [gs] ++ b1 ++ [ps] ++ b2 ++ [pe, ge] ++ post) = some sums)
    (hsolve : solveStep true sums.S0 sums.S3 sums.Su sums.Sk
      (calculate_total_resistance_new (pre ++ [gs] ++ b1 ++ [ps] ++ b2 ++ [pe, ge] ++ post))
      Req_measured = StepResult.solved Rx) :
    calculate_total_resistance_new
      (replaceUnknown Rx (pre ++ [gs] ++ b1 ++ [ps] ++ b2 ++ [pe, ge] ++ post)) =
      Req_measured := by
  have hshape : pre ++ [gs] ++ b1 ++ [ps] ++ b2 ++ [pe, ge] ++ post =
      pre ++ gs :: (b1 ++ ps :: (b2 ++ pe :: ge :: post)) := by
    simp [List.append_assoc]
  have hne : hasUnknown b1 ≠ hasUnknown b2 := by
    intro heq
    cases h1 : hasUnknown b1
    · have h2 : hasUnknown b2 = false := by rw [← heq, h1]
      have := countP_of_hasUnknown b1 h1
      have := countP_of_hasUnknown b2 h2
      omega
    · have h2 : hasUnknown b2 = true := by rw [← heq, h1]
      have := (hasUnknown_iff_countP b1).mp h1
      have := (hasUnknown_iff_countP b2).mp h2
      omega
  rw [hshape] at hex hsolve ⊢
  rw [extract_two_branches_sums pre b1 b2 post gs ps pe ge hpre hb1 hb2 hgs hps hpe hge hne]
    at hex
  have hsums := Option.some.inj hex
  -- what the pass checked
  have hr := solveStep_true_reported sums.S0 sums.S3 sums.Su sums.Sk
    (calculate_total_resistance_new (pre ++ gs :: (b1 ++ ps :: (b2 ++ pe :: ge :: post))))
    Req_measured
  rw [hsolve] at hr
  simp only [StepResult.reportedRx] at hr
  split_ifs at hr with hc
  obtain ⟨_, hR, hlt, _⟩ := hc
  have hRx := Option.some.inj hr
  obtain ⟨hYpos, hSk, hpar1, hpar2⟩ :=
    parallel_of_solution sums.Su sums.Sk (Req_measured - (sums.S0 + sums.S3)) Rx hR hlt hRx
  have hS0 : sums.S0 = knownSum pre := by rw [← hsums]
  have hS3 : sums.S3 = knownSum post := by rw [← hsums]
  -- the sequence with the value put in
  have hrep : replaceUnknown Rx (pre ++ gs :: (b1 ++ ps :: (b2 ++ pe :: ge :: post))) =
      replaceUnknown Rx pre ++ gs :: (replaceUnknown Rx b1 ++
        (branchSections [(ps, replaceUnknown Rx b2, pe)] ++ ge :: replaceUnknown Rx post)) := by
    have dgs := delimiter_not_unknown gs (by simp [isDelimiter, hgs])
    have dps := delimiter_not_unknown ps (by simp [isDelimiter, hps])
    have dpe := delimiter_not_unknown pe (by simp [isDelimiter, hpe])
    have dge := delimiter_not_unknown ge (by simp [isDelimiter, hge])
    simp only [replaceUnknown_append, replaceUnknown_cons_other _ _ _ dgs,
      replaceUnknown_cons_other _ _ _ dps, replaceUnknown_cons_other _ _ _ dpe,
      replaceUnknown_cons_other _ _ _ dge, branchSections, List.cons_append, List.nil_append,
      List.append_assoc]
  have hval := evaluateSeries_group (replaceUnknown Rx pre) (replaceUnknown Rx b1)
    (replaceUnknown Rx post) gs ge [(ps, replaceUnknown Rx b2, pe)]
    (replaceUnknown_noDelimiter Rx pre hpre) (replaceUnknown_noDelimiter Rx b1 hb1)
    (replaceUnknown_noDelimiter Rx post hpost) hgs hge (by
      intro s hs
      simp only [List.mem_singleton] at hs
      rw [hs]
      exact ⟨hps, hpe, replaceUnknown_noDelimiter Rx b2 hb2⟩)
  unfold calculate_total_resistance_new
  rw [hrep, hval]
  simp only [List.map_cons, List.map_nil, knownSum_replaceUnknown,
    countP_of_hasUnknown pre hupre, countP_of_hasUnknown post hupost, Nat.cast_zero, mul_zero,
    add_zero]
  rw [← hS0, ← hS3]
  cases h1 : hasUnknown b1
  · have h2 : hasUnknown b2 = true := by
      cases h2 : hasUnknown b2
      · exact absurd (h1.trans h2.symm) hne
      · rfl
    have hc1 := countP_of_hasUnknown b1 h1
    have hc2 : b2.countP isUnknownRes = 1 := by omega
    have hSu : sums.Su = knownSum b2 := by rw [← hsums]; simp [h1]
    have hSkv : sums.Sk = knownSum b1 := by rw [← hsums]; simp [h1]
    rw [hc1, hc2, ← hSu, ← hSkv]
    simp only [Nat.cast_zero, mul_zero, add_zero, Nat.cast_one, mul_one]
    rw [parallelValue_pair _ _ hSk hYpos, hpar2]
    ring
  · have h2 : hasUnknown b2 = false := by
      cases h2 : hasUnknown b2
      · rfl
      · exact absurd (h1.trans h2.symm) hne
    have hc2 := countP_of_hasUnknown b2 h2
    have hc1 : b1.countP isUnknownRes = 1 := by omega
    have hSu : sums.Su = knownSum b1 := by rw [← hsums]; simp [h1]
    have hSkv : sums.Sk = knownSum b2 := by rw [← hsums]; simp [h1]
    rw [hc1, hc2, ← hSu, ← hSkv]
    simp only [Nat.cast_zero, mul_zero, add_zero, Nat.cast_one, mul_one]
    rw [parallelValue_pair _ _ hYpos hSk, hpar1]
    ring

/-- C20 on the sequence parsed from `+5*x_||30=*7-` and the measured value
27: the pass reports 30, and with 30 ohm in place of the unknown the sequence
evaluates to 5 + 15 + 7 = 27. -/
theorem round_trip_parallel_witness :
    calculate_total_resistance_new
      (replaceUnknown 30 (parse_circuit "+5*x_||30=*7-".toList)) = 27 := by
  have hparse : parse_circuit "+5*x_||30=*7-".toList =
      [⟨BLOCK_UP_RES_PIPE, 0, 0, false, 5⟩] ++ [⟨BLOCK_NODE_START, 0, 1, false, 0⟩] ++
        [⟨BLOCK_UP_RES_PIPE, 0, 2, true, -1⟩] ++ [⟨BLOCK_PAR_START, -1, 3, false, 0⟩] ++
        [⟨BLOCK_UP_RES_PIPE, -1, 4, false, 30⟩] ++
        [⟨BLOCK_PAR_END, -1, 5, false, 0⟩, ⟨BLOCK_NODE_END, 0, 6, false, 0⟩] ++
        [⟨BLOCK_RES, 0, 7, false, 7⟩, ⟨BLOCK_NODE_BEND, 0, 8, false, 0⟩] := by
    simp [parse_circuit, parseLoop, add_block, scanNumber, isNumberChar, wcstod, digitsValue]
  rw [hparse]
  exact round_trip_parallel _ _ _ _ _ _ _ _
    (by simp [isDelimiter]) (by simp [isDelimiter]) (by simp [isDelimiter])
    (by simp [isDelimiter]) rfl rfl rfl rfl
    (by simp [hasUnknown, isUnknownRes, isRes]) (by simp [hasUnknown, isUnknownRes, isRes])
    (by simp [isUnknownRes, isRes]) ⟨5, 7, 0, 30⟩ 27 30
    (by
      simp [extract_parallel_structure, scanS0, scanBranch1, scanBranch2, scanS3,
        secondBranch, skipIf, isKnownRes, isRes])
    (by
      unfold solveStep
      norm_num)

/-! ### C21: bounds on the combined value in exact arithmetic -/

/-- The harmonic sum is at least the reciprocal of each positive branch sum. -/
theorem harmonicSum_ge (Bs : List ℚ) (B : ℚ) (hB : B ∈ Bs) (hpos : 0 < B) :
    1 / B ≤ harmonicSum Bs := by
  induction Bs with
  | nil => exact absurd hB (List.not_mem_nil B)
  | cons C Bs ih =>
    by_cases hC : 0 < C
    · have h1 : harmonicSum (C :: Bs) = 1 / C + harmonicSum Bs := by
        simp [harmonicSum, List.filter_cons, hC]
      rw [h1]
      rcases List.mem_cons.mp hB with h | h
      · rw [h]
        have := harmonicSum_nonneg Bs
        linarith
      · have := ih h
        have : 0 < 1 / C := one_div_pos.mpr hC
        linarith
    · have h1 : harmonicSum (C :: Bs) = harmonicSum Bs := by
        simp [harmonicSum, List.filter_cons, hC]
      rw [h1]
      rcases List.mem_cons.mp hB with h | h
      · exact absurd (h ▸ hpos) hC
      · exact ih h

/-- The value of lines 311-317 written with the harmonic sum. -/
theorem parallelValue_eq_harmonic (Bs : List ℚ) :
    parallelValue Bs = if 0 < harmonicSum Bs then 1 / harmonicSum Bs else 0 := by
  unfold parallelValue
  simp only [invSumLoop_eq, zero_add, gt_iff_lt]

/-- C21, as the code has it: in exact arithmetic, for every list of branch
sums, so for every list of at most 10 non-negative ones, the value that
`evaluateParallelGroup` combines from them (lines 311-317) is non-negative, is
0 exactly when no branch sum is positive, and is at most every positive
branch sum. -/
theorem parallelValue_bounds (Bs : List ℚ) :
    0 ≤ parallelValue Bs ∧
    (parallelValue Bs = 0 ↔ ¬ ∃ B ∈ Bs, 0 < B) ∧
    (∀ B ∈ Bs, 0 < B → parallelValue Bs ≤ B) := by
  rw [parallelValue_eq_harmonic]
  by_cases h : 0 < harmonicSum Bs
  · rw [if_pos h]
    have hinv : 0 < 1 / harmonicSum Bs := one_div_pos.mpr h
    refine ⟨le_of_lt hinv, ?_, ?_⟩
    · constructor
      · intro h0
        rw [h0] at hinv
        exact absurd hinv (lt_irrefl 0)
      · intro hno
        exact absurd ((harmonicSum_pos_iff Bs).mp h) hno
    · intro B hB hpos
      have hge := harmonicSum_ge Bs B hB hpos
      have hBinv : 0 < 1 / B := one_div_pos.mpr hpos
      rw [div_le_iff₀ h]
      have : 1 = B * (1 / B) := by field_simp
      calc (1 : ℚ) = B * (1 / B) := this
        _ ≤ B * harmonicSum Bs := mul_le_mul_of_nonneg_left hge (le_of_lt hpos)
  · rw [if_neg h]
    refine ⟨le_refl 0, ?_, ?_⟩
    · constructor
      · intro _ hex
        exact h ((harmonicSum_pos_iff Bs).mpr hex)
      · intro _
        rfl
    · intro B hB hpos
      exact absurd ((harmonicSum_pos_iff Bs).mpr ⟨B, hB, hpos⟩) h

/-- C21 on the branch sums 20 and 20: the combined value 10 is positive and
at most 20; and on the sums 0 and 0 it is 0. -/
theorem parallelValue_bounds_witness :
    parallelValue [20, 20] ≤ 20 ∧ parallelValue [0, 0] = 0 := by
  refine ⟨(parallelValue_bounds [20, 20]).2.2 20 (by simp) (by norm_num), ?_⟩
  exact (parallelValue_bounds [0, 0]).2.1.mpr (by simp)

/-! ### A match without a known second branch, on finite numbers -/

/-- On a finite number the pass on a `double` is the pass of `solveStep`. -/
theorem solveStepM_num (resolved : Bool) (S0 S3 S_u S_k Req_known v : ℚ) :
    solveStepM resolved S0 S3 S_u S_k Req_known (Measured.num v) =
      (solveStep resolved S0 S3 S_u S_k Req_known v).toM := by
  unfold solveStepM solveStep
  by_cases h1 : v ≤ 0
  · simp [Measured.leZero, h1, StepResult.toM]
  · cases resolved
    · by_cases h2 : v - Req_known ≤ 0
      · simp only [Measured.leZero, Measured.sub, h1, h2, decide_True, decide_False, if_true,
          Bool.false_eq_true, if_false, StepResult.toM]
      · simp only [Measured.leZero, Measured.sub, h1, h2, decide_False,
          Bool.false_eq_true, if_false, StepResult.toM]
    · by_cases h2 : S_k ≤ v - (S0 + S3) ∨ v - (S0 + S3) ≤ 0
      · have h2b : (decide (S_k ≤ v - (S0 + S3)) || decide (v - (S0 + S3) ≤ 0)) = true := by
          simpa using h2
        simp only [Measured.leZero, Measured.sub, Measured.geNum, h1, h2, h2b, decide_False,
          if_true, Bool.false_eq_true, if_false, StepResult.toM]
      · have h2b : (decide (S_k ≤ v - (S0 + S3)) || decide (v - (S0 + S3) ≤ 0)) = false := by
          simpa using h2
        by_cases h3 : ((v - (S0 + S3)) * S_k) / (S_k - (v - (S0 + S3))) - S_u ≤ 0
        · simp only [Measured.leZero, Measured.sub, Measured.geNum, Measured.rxOfPar, h1, h2,
            h2b, h3, decide_True, decide_False, if_true, Bool.false_eq_true, if_false,
            StepResult.toM]
        · simp only [Measured.leZero, Measured.sub, Measured.geNum, Measured.rxOfPar, h1, h2,
            h2b, h3, decide_False, if_true, Bool.false_eq_true, if_false, StepResult.toM]

/-- On finite measured values the retry loop on `double` values is
`retryLoop`. -/
theorem retryLoopM_num (resolved : Bool) (S0 S3 S_u S_k Req_known : ℚ) (n : Nat)
    (inputs : List ℚ) (Req_measured : ℚ) :
    retryLoopM resolved S0 S3 S_u S_k Req_known n (inputs.map Measured.num)
        (Measured.num Req_measured) =
      ((retryLoop resolved S0 S3 S_u S_k Req_known n inputs Req_measured).1.map Event.toM,
        (retryLoop resolved S0 S3 S_u S_k Req_known n inputs Req_measured).2.1,
        Measured.num (retryLoop resolved S0 S3 S_u S_k Req_known n inputs Req_measured).2.2) := by
  induction n generalizing inputs Req_measured with
  | zero => simp [retryLoop, retryLoopM]
  | succ n ih =>
    cases inputs with
    | nil =>
      have hi := ih [] Req_measured
      simp only [List.map_nil] at hi
      simp only [List.map_nil, retryLoop, retryLoopM, hi, List.map_cons, Event.toM]
    | cons v more =>
      have hi := ih more v
      simp only [List.map_cons, retryLoop, retryLoopM, solveStepM_num]
      cases h : solveStep resolved S0 S3 S_u S_k Req_known v <;>
        simp [StepResult.toM, Event.toM, hi]

/-- On finite measured values the session on `double` values is
`mainSolve`. -/
theorem mainSolveM_num (head : List Block) (inputs : List ℚ) :
    mainSolveM head (inputs.map Measured.num) = (mainSolve head inputs).toM := by
  unfold mainSolveM mainSolve
  simp only [retryLoopM_num]
  split_ifs <;> simp [MainOut.toM, Event.toM]

/-! ### C22: a match without a known second branch, on a `double` -/

theorem parse_circuit_checked_eq_some (circuit : List Char) (s : List Block) :
    parse_circuit_checked circuit = some s ↔
      numberOverflow circuit = false ∧ s = parse_circuit circuit := by
  unfold parse_circuit_checked
  cases h : numberOverflow circuit
  · simp [eq_comm]
  · simp

theorem parse_circuit_checked_of_fit (circuit : List Char) (h : numberOverflow circuit = false) :
    parse_circuit_checked circuit = some (parse_circuit circuit) :=
  (parse_circuit_checked_eq_some circuit _).mpr ⟨h, rfl⟩

theorem numberOverflow_plus (rest : List Char) :
    numberOverflow ('+' :: rest) = numberOverflow rest := by
  rw [numberOverflow.eq_def]
  simp

theorem numberOverflow_star (rest : List Char) :
    numberOverflow ('*' :: rest) = numberOverflow rest := by
  rw [numberOverflow.eq_def]
  simp

/-- The strings of `n` pairs of `*` hold no numeric token. -/
theorem numberOverflow_starPairs (n : Nat) : numberOverflow (starPairs n) = false := by
  induction n with
  | zero =>
    simp only [starPairs]
    rw [numberOverflow.eq_def]
    simp
    rw [numberOverflow.eq_def]
  | succ n ih =>
    simp only [starPairs]
    rw [numberOverflow_star, numberOverflow_star, ih]

/-- C16, as the code has it: in every sequence built by `parse_circuit` (from
a string whose numeric tokens fit the buffer `number`) the group starts are
as many as the group ends, or one more; their number is not bounded: for
every `n` the string `+`, `n` pairs of `*`, `-` is parsed into a sequence
with `n` group starts, on which the evaluator calls `evaluateParallelGroup`
`n` times. -/
theorem parse_circuit_checked_group_counts :
    (∀ (circuit : List Char) (s : List Block), parse_circuit_checked circuit = some s →
      countEnds s ≤ countStarts s ∧ countStarts s ≤ countEnds s + 1) ∧
    (∀ n : Nat,
      ('+' :: starPairs n).head? = some '+' ∧ ('+' :: starPairs n).getLast? = some '-' ∧
        parse_circuit_checked ('+' :: starPairs n) = some (parse_circuit ('+' :: starPairs n)) ∧
        countStarts (parse_circuit ('+' :: starPairs n)) = n ∧
        (seriesCalls (parse_circuit ('+' :: starPairs n))).length = n) := by
  constructor
  · intro circuit s hs
    rw [((parse_circuit_checked_eq_some circuit s).mp hs).2]
    have h := counts_of_alternates _ false (parse_circuit_alternates circuit)
    simpa using h
  · intro n
    refine ⟨rfl, ?_, ?_, ?_, ?_⟩
    · cases hs : starPairs n with
      | nil =>
        have := starPairs_getLast n
        rw [hs] at this
        simp at this
      | cons c t =>
        rw [List.getLast?_cons_cons, ← hs]
        exact starPairs_getLast n
    · apply parse_circuit_checked_of_fit
      rw [numberOverflow_plus]
      exact numberOverflow_starPairs n
    · rw [countStarts_parse_circuit, parseLoop_plus]
      exact (parseLoop_starPairs n _ rfl).1
    · rw [seriesCalls_parse_circuit, parseLoop_plus]
      exact (parseLoop_starPairs n _ rfl).2.1

/-- The sequence parsed from `+*5*_*6*-`. -/
theorem parse_circuit_checked_two_groups :
    parse_circuit_checked "+*5*_*6*-".toList =
      some [generatorPipe, ⟨BLOCK_NODE_START, 0, 0, false, 0⟩,
        ⟨BLOCK_UP_RES_PIPE, 0, 1, false, 5⟩, ⟨BLOCK_NODE_END, 0, 2, false, 0⟩,
        ⟨BLOCK_CONN, 0, 3, false, 0⟩, ⟨BLOCK_NODE_START, 0, 4, false, 0⟩,
        ⟨BLOCK_UP_RES_PIPE, 0, 5, false, 6⟩, ⟨BLOCK_NODE_END, 0, 6, false, 0⟩,
        ⟨BLOCK_NODE_BEND, 0, 7, false, 0⟩] := by
  have hfit : numberOverflow "+*5*_*6*-".toList = false := by
    simp [numberOverflow, scanNumber, isNumberChar, NUMBER_LEN]
  rw [parse_circuit_checked_of_fit _ hfit]
  simp [parse_circuit, parseLoop, add_block, scanNumber, isNumberChar, wcstod, digitsValue,
    generatorPipe]

/-- C16 on the sequence parsed from `+*5*_*6*-`: two group starts and two
group ends. -/
theorem parse_circuit_checked_group_counts_witness :
    countEnds [generatorPipe, ⟨BLOCK_NODE_START, 0, 0, false, 0⟩,
        ⟨BLOCK_UP_RES_PIPE, 0, 1, false, 5⟩, ⟨BLOCK_NODE_END, 0, 2, false, 0⟩,
        ⟨BLOCK_CONN, 0, 3, false, 0⟩, ⟨BLOCK_NODE_START, 0, 4, false, 0⟩,
        ⟨BLOCK_UP_RES_PIPE, 0, 5, false, 6⟩, ⟨BLOCK_NODE_END, 0, 6, false, 0⟩,
        ⟨BLOCK_NODE_BEND, 0, 7, false, 0⟩] ≤
      countStarts [generatorPipe, ⟨BLOCK_NODE_START, 0, 0, false, 0⟩,
        ⟨BLOCK_UP_RES_PIPE, 0, 1, false, 5⟩, ⟨BLOCK_NODE_END, 0, 2, false, 0⟩,
        ⟨BLOCK_CONN, 0, 3, false, 0⟩, ⟨BLOCK_NODE_START, 0, 4, false, 0⟩,
        ⟨BLOCK_UP_RES_PIPE, 0, 5, false, 6⟩, ⟨BLOCK_NODE_END, 0, 6, false, 0⟩,
        ⟨BLOCK_NODE_BEND, 0, 7, false, 0⟩] ∧
      parse_circuit_checked ('+' :: starPairs 3) = some (parse_circuit ('+' :: starPairs 3)) ∧
      countStarts (parse_circuit ('+' :: starPairs 3)) = 3 :=
  ⟨(parse_circuit_checked_group_counts.1 "+*5*_*6*-".toList _
      parse_circuit_checked_two_groups).1,
    (parse_circuit_checked_group_counts.2 3).2.2.1,
    (parse_circuit_checked_group_counts.2 3).2.2.2.1⟩

/-- C17: in every sequence built by `parse_circuit` the group starts and group
ends strictly alternate and begin with a group start (start, end, start, ...),
and in the evaluation of the sequence no call of `evaluateParallelGroup` is
made from inside another one: the calls of `evaluateSeries` made by a group
call of the outermost series loop call `evaluateParallelGroup` nowhere. A
sequence is built from every string whose numeric tokens fit the buffer
`number`. -/
theorem parse_circuit_checked_groups_alternate (circuit : List Char) (s : List Block)
    (hs : parse_circuit_checked circuit = some s) :
    groupMarks s = altMarks false (groupMarks s).length ∧
    ∀ q ∈ seriesCalls s, ∀ r ∈ groupCalls q, seriesCalls r = [] := by
  rw [((parse_circuit_checked_eq_some circuit s).mp hs).2]
  have halt := parse_circuit_alternates circuit
  refine ⟨groupMarks_of_alternates _ false halt, ?_⟩
  intro q hq r hr
  exact (group_in_open_group q (series_calls_open _ halt q hq)).1 r hr

/-- C17 on the sequence parsed from `+*5*_*6*-`: its marks are start, end,
start, end. -/
theorem parse_circuit_checked_groups_alternate_witness :
    groupMarks [generatorPipe, ⟨BLOCK_NODE_START, 0, 0, false, 0⟩,
        ⟨BLOCK_UP_RES_PIPE, 0, 1, false, 5⟩, ⟨BLOCK_NODE_END, 0, 2, false, 0⟩,
        ⟨BLOCK_CONN, 0, 3, false, 0⟩, ⟨BLOCK_NODE_START, 0, 4, false, 0⟩,
        ⟨BLOCK_UP_RES_PIPE, 0, 5, false, 6⟩, ⟨BLOCK_NODE_END, 0, 6, false, 0⟩,
        ⟨BLOCK_NODE_BEND, 0, 7, false, 0⟩] =
      [BLOCK_NODE_START, BLOCK_NODE_END, BLOCK_NODE_START, BLOCK_NODE_END] := by
  have h := (parse_circuit_checked_groups_alternate "+*5*_*6*-".toList _
    parse_circuit_checked_two_groups).1
  have hlen : (groupMarks [generatorPipe, ⟨BLOCK_NODE_START, 0, 0, false, 0⟩,
        ⟨BLOCK_UP_RES_PIPE, 0, 1, false, 5⟩, ⟨BLOCK_NODE_END, 0, 2, false, 0⟩,
        ⟨BLOCK_CONN, 0, 3, false, 0⟩, ⟨BLOCK_NODE_START, 0, 4, false, 0⟩,
        ⟨BLOCK_UP_RES_PIPE, 0, 5, false, 6⟩, ⟨BLOCK_NODE_END, 0, 6, false, 0⟩,
        ⟨BLOCK_NODE_BEND, 0, 7, false, 0⟩]).length = 4 := by
    simp [generatorPipe, groupMarks]
  rw [hlen] at h
  rw [h]
  rfl

/-! ### C19: the call on the unchanged cursor -/

/-- C19, counterexample: on the list group start, 5 ohm, group end, the loop
of `evaluateSeries` calls `evaluateParallelGroup` on the two blocks behind the
group start, and the first thing that call does (line 297) is to call
`evaluateSeries` on the same two blocks: a recursive call on a sequence that
is not shorter than the one its caller was given. -/
theorem groupCalls_same_cursor :
    ([⟨BLOCK_UP_RES_PIPE, 0, 1, false, 5⟩, ⟨BLOCK_NODE_END, 0, 2, false, 0⟩] : List Block) ∈
        seriesCalls [⟨BLOCK_NODE_START, 0, 0, false, 0⟩, ⟨BLOCK_UP_RES_PIPE, 0, 1, false, 5⟩,
          ⟨BLOCK_NODE_END, 0, 2, false, 0⟩] ∧
      ([⟨BLOCK_UP_RES_PIPE, 0, 1, false, 5⟩, ⟨BLOCK_NODE_END, 0, 2, false, 0⟩] : List Block) ∈
        groupCalls [⟨BLOCK_UP_RES_PIPE, 0, 1, false, 5⟩, ⟨BLOCK_NODE_END, 0, 2, false, 0⟩] ∧
      ¬ ([⟨BLOCK_UP_RES_PIPE, 0, 1, false, 5⟩, ⟨BLOCK_NODE_END, 0, 2, false, 0⟩] :
          List Block).length <
        ([⟨BLOCK_UP_RES_PIPE, 0, 1, false, 5⟩, ⟨BLOCK_NODE_END, 0, 2, false, 0⟩] :
          List Block).length := by
  refine ⟨?_, ?_, lt_irrefl _⟩
  · rw [seriesCalls_start _ _ rfl]
    exact List.mem_cons_self _ _
  · unfold groupCalls
    exact List.mem_cons_self _ _

/-! ### C12: numeric tokens and the locale -/

theorem filter_isDigit_all (t : List Char) : ∀ d ∈ t.filter Char.isDigit, d.isDigit = true := by
  intro d hd
  exact (List.mem_filter.mp hd).2

/-- The library call in the locale `radix` on the buffer of a token. -/
theorem wcstodLocale_tokenBuffer (radix : Char) (tok : List Char) :
    wcstodLocale radix (tokenBuffer tok) = tokenValueLocale radix tok := by
  have hdig := takeWhile_isDigit_all tok
  unfold wcstodLocale tokenBuffer tokenValueLocale tokenValue
  cases hdw : tok.dropWhile Char.isDigit with
  | nil =>
    have h1 := @List.takeWhile_append_of_pos Char _ _ [] hdig
    have h2 := @List.dropWhile_append_of_pos Char _ _ [] hdig
    simp only [List.append_nil, List.takeWhile_nil, List.dropWhile_nil] at h1 h2
    simp only [List.append_nil, h1, h2]
    split_ifs <;> simp [digitsValue]
  | cons s t =>
    have hs : ¬ s.isDigit = true := by
      have := List.head_dropWhile_not Char.isDigit tok (by rw [hdw]; simp)
      simpa [hdw] using this
    have hp : ¬ ('.' : Char).isDigit = true := by decide
    have hf := filter_isDigit_all t
    have h3 := @List.takeWhile_append_of_pos Char _ _ [] hf
    simp only [List.append_nil, List.takeWhile_nil] at h3
    simp only [List.takeWhile_append_of_pos hdig, List.dropWhile_append_of_pos hdig,
      List.takeWhile_cons_of_neg hp, List.dropWhile_cons_of_neg hp, List.append_nil,
      List.filter_cons_of_neg hs, h3]
    by_cases hr : radix = '.'
    · simp [hr]
    · have hr2 : ¬ '.' = radix := fun h => hr h.symm
      simp [hr, hr2]

theorem head?_dropWhile_not (p : Char → Bool) (cs : List Char) :
    ∀ d ∈ (cs.dropWhile p).head?, p d = false := by
  induction cs with
  | nil => simp
  | cons c cs ih =>
    by_cases hc : p c = true
    · rw [List.dropWhile_cons_of_pos hc]
      exact ih
    · rw [List.dropWhile_cons_of_neg hc]
      intro d hd
      simp only [List.head?_cons, Option.mem_def, Option.some.injEq] at hd
      rw [← hd]
      simpa using hc

/-- The scan on any characters: the buffer is that of the longest run of
digits, points and commas in front. -/
theorem scanNumber_span (number cs : List Char) :
    scanNumber number false cs =
      (number ++ tokenBuffer (cs.takeWhile isNumberChar), cs.dropWhile isNumberChar) := by
  have h := scanNumber_token (cs.takeWhile isNumberChar)
    (fun d hd => (List.mem_takeWhile_imp hd))
    (cs.dropWhile isNumberChar) (head?_dropWhile_not isNumberChar cs) number
  rw [List.takeWhile_append_dropWhile] at h
  exact h

/-- In a locale whose radix character is the point, the loop is
`parseLoop`. -/
theorem parseLoopLocale_point (st : ParseState) (cs : List Char) :
    parseLoopLocale '.' st cs = parseLoop st cs := by
  induction st, cs using parseLoop.induct with
  | case1 st =>
    rw [parseLoop.eq_def, parseLoopLocale.eq_def]
  | case4 st c cs h1 h2 st1 h3 sc ih =>
    rw [parseLoop.eq_def, parseLoopLocale.eq_def]
    dsimp only
    rw [if_neg h1, dif_pos h2, dif_neg h3, if_neg h1, dif_pos h2, dif_neg h3, ih]
    have hb : (scanNumber [] false (c :: cs)).1 =
        tokenBuffer ((c :: cs).takeWhile isNumberChar) := by
      rw [scanNumber_span]
      simp
    rw [hb, wcstodLocale_tokenBuffer, wcstod_tokenBuffer]
    simp [tokenValueLocale]
  | case3 st cs st1 h1 h2 ih =>
    rw [parseLoop.eq_def, parseLoopLocale.eq_def]
    simpa using ih
  | _ =>
    rw [parseLoop.eq_def, parseLoopLocale.eq_def]
    simp [*]

/-- In a locale whose radix character is the point, the parser is
`parse_circuit`. -/
theorem parse_circuitLocale_point (circuit : List Char) :
    parse_circuitLocale '.' circuit = parse_circuit circuit := by
  unfold parse_circuitLocale parse_circuit
  rw [parseLoopLocale_point]

theorem roundHalfEven_down (q : ℚ) (f : ℤ) (h1 : (f : ℚ) ≤ q) (h2 : q < (f : ℚ) + 1 / 2) :
    roundHalfEven q = f := by
  have hf : ⌊q⌋ = f := by
    rw [Int.floor_eq_iff]
    constructor
    · exact h1
    · linarith
  unfold roundHalfEven
  rw [hf, if_pos (by linarith)]

theorem roundHalfEven_up (q : ℚ) (f : ℤ) (h1 : (f : ℚ) + 1 / 2 < q) (h2 : q < (f : ℚ) + 1) :
    roundHalfEven q = f + 1 := by
  have hf : ⌊q⌋ = f := by
    rw [Int.floor_eq_iff]
    constructor
    · linarith
    · exact h2
  unfold roundHalfEven
  rw [hf, if_neg (by linarith), if_pos (by linarith)]

/-- The rounding of a positive number whose binade is known. -/
theorem roundDouble_eq (q : ℚ) (e m : ℤ) (hq : 0 < q) (h1 : (2 : ℚ) ^ (e + 52) ≤ q)
    (h2 : q < (2 : ℚ) ^ (e + 52 + 1)) (hm : roundHalfEven (q / (2 : ℚ) ^ e) = m) :
    roundDouble q = (m : ℚ) * (2 : ℚ) ^ e := by
  have habs : |q| = q := abs_of_pos hq
  have hlog : Int.log 2 q = e + 52 := by
    apply le_antisymm
    · have h3 : q < ((2 : ℕ) : ℚ) ^ (e + 52 + 1) := by simpa using h2
      have := (@Int.lt_zpow_iff_log_lt ℚ _ _ 2 (by norm_num) (e + 52 + 1) q hq).mp h3
      omega
    · have h3 : ((2 : ℕ) : ℚ) ^ (e + 52) ≤ q := by simpa using h1
      exact (@Int.zpow_le_iff_le_log ℚ _ _ 2 (by norm_num) (e + 52) q hq).mp h3
  unfold roundDouble
  rw [if_neg (ne_of_gt hq), habs, hlog]
  have he : e + 52 - 52 = e := by ring
  rw [he, hm]

/-- C21, counterexample: the group of `+*49*-` has the single branch sum 49,
and for it the combination step in `double` arithmetic gives `49 + 2^-47`: the
quotient `1.0 / 49.0` is rounded down, and its reciprocal is rounded up to the
next `double` above 49. The combined value is above the only positive branch
sum. -/
theorem parallelValueDouble_exceeds :
    calculate_total_resistance_new (parse_circuit "+*49*-".toList) = parallelValue [49] ∧
      parallelValueDouble [49] = 49 + 1 / 2 ^ 47 ∧ ¬ parallelValueDouble [49] ≤ 49 := by
  have hparse : parse_circuit "+*49*-".toList =
      [generatorPipe, ⟨BLOCK_NODE_START, 0, 0, false, 0⟩, ⟨BLOCK_UP_RES_PIPE, 0, 1, false, 49⟩,
        ⟨BLOCK_NODE_END, 0, 2, false, 0⟩, ⟨BLOCK_NODE_BEND, 0, 3, false, 0⟩] := by
    simp [parse_circuit, parseLoop, add_block, scanNumber, isNumberChar, wcstod, digitsValue,
      generatorPipe]
  have hgroup :
      calculate_total_resistance_new (parse_circuit "+*49*-".toList) = parallelValue [49] := by
    rw [hparse]
    simp [calculate_total_resistance_new, evaluateParallelGroup_eq, evaluateSeries,
      evaluateSeriesLoop_cons, evaluateSeriesLoop_nil, branchLoop_cons, branchLoop_nil,
      finishGroup, generatorPipe, isKnownRes, isRes, isSeriesStop]
  have hinv : roundDouble (1 / 49) = (5882252574524729 : ℤ) * (2 : ℚ) ^ (-58 : ℤ) := by
    apply roundDouble_eq _ _ _ (by norm_num) (by norm_num) (by norm_num)
    apply roundHalfEven_down <;> norm_num
  have hsum : roundDouble ((5882252574524729 : ℤ) * (2 : ℚ) ^ (-58 : ℤ)) =
      (5882252574524729 : ℤ) * (2 : ℚ) ^ (-58 : ℤ) := by
    apply roundDouble_eq _ _ _ (by norm_num) (by norm_num) (by norm_num)
    apply roundHalfEven_down <;> norm_num
  have hrec : roundDouble (1 / ((5882252574524729 : ℤ) * (2 : ℚ) ^ (-58 : ℤ))) =
      ((6896136929411072 + 1 : ℤ) : ℚ) * (2 : ℚ) ^ (-47 : ℤ) := by
    apply roundDouble_eq _ _ _ (by norm_num) (by norm_num) (by norm_num)
    apply roundHalfEven_up <;> norm_num
  have hpos : (0 : ℚ) < (5882252574524729 : ℤ) * (2 : ℚ) ^ (-58 : ℤ) := by norm_num
  have hval : parallelValueDouble [49] = 49 + 1 / 2 ^ 47 := by
    have h49 : (49 : ℚ) > 0 := by norm_num
    unfold parallelValueDouble
    simp only [invSumLoopDouble, if_pos h49, zero_add, hinv, hsum, gt_iff_lt, if_pos hpos, hrec]
    norm_num
  refine ⟨hgroup, hval, ?_⟩
  rw [hval]
  norm_num

end Circuiti
